import Mathlib

/-!
# A verification model of the `gotgraph` directed-graph storage engine

This file gives a shallow embedding, in Lean 4, of the parts of the
`gotgraph` Rust crate that the specification talks about:

* the dense array-backed store `VecGraph` (`src/vec_graph.rs`), with its
  intrusive adjacency chains, single-element removal, batch removal and the
  two-cursor `swap_remove` delete-compaction helper;
* the checked operation layer (`src/graph.rs`, `src/graph/update.rs`,
  `src/graph/remove.rs`), where a failed runtime check (a Rust
  `assert!`/`panic!`) is modelled as the `Option` value `none`;
* Tarjan's strongly-connected-components algorithm
  (`src/algo/tarjan.rs`).

Machine integers are modelled as `Nat` together with the explicit sentinel
`u32Max = 2 ^ 32 - 1` (Rust `u32::MAX`), which the store uses as the `END`
terminator of the adjacency chains.  Fallible code — both recoverable
checked failures and preconditions of `unsafe` code whose violation the
source marks with `debug_assert!` before an unchecked access — is modelled
with `Option`, `none` standing for the panic/undefined behaviour exit.
Loops whose termination is not syntactically evident in the source (the
adjacency-chain walks, the converging-cursor compaction loop, the DFS of
Tarjan's algorithm) receive an explicit fuel argument; the fuel is chosen
large enough that fuel exhaustion can only occur on states the traversal of
which would make the Rust loop run forever, and exhaustion is reported as
`none` rather than as a truncated answer.
-/

namespace GotGraph

/-- Rust `u32::MAX`, the `END` sentinel of `NodeIx::end()`/`EdgeIx::end()`
(`src/vec_graph.rs` lines 30-48). -/
def u32Max : Nat := 2 ^ 32 - 1

/-- Reinterpretation of a `u32` bit pattern as an `i32` (`v as i32` in
`NodeIx::is_end`/`EdgeIx::is_end`). -/
def u32AsI32 (v : Nat) : Int :=
  if v < 2 ^ 31 then (v : Int) else (v : Int) - 2 ^ 32

/-- Reinterpretation of an `i64` value as a `u64` bit pattern
(`.. as i64 as u64`; the `i32 → i64` step is a value-preserving sign
extension). -/
def i64AsU64 (z : Int) : Nat := (z % 2 ^ 64).toNat

/-- `EdgeIx::is_end` (and the identical `NodeIx::is_end`),
`src/vec_graph.rs` lines 35-37 and 45-47: the index value is cast
`u32 → i32 → i64 → u64` and compared against `u64::MAX`. -/
def isEnd (v : Nat) : Bool := i64AsU64 (u32AsI32 v) == 2 ^ 64 - 1

/-- For genuine `u32` values the convoluted cast chain of `is_end` tests
exactly equality with `u32::MAX`. -/
theorem isEnd_eq_u32Max {v : Nat} (hv : v < 2 ^ 32) :
    isEnd v = true ↔ v = u32Max := by
  unfold isEnd i64AsU64 u32AsI32 u32Max
  by_cases h : v < 2 ^ 31
  · simp only [if_pos h, beq_iff_eq]
    omega
  · simp only [if_neg h, beq_iff_eq]
    omega

/-- A node record (`NodeRepr<N>` in `src/vec_graph.rs`): payload plus the
heads of the outgoing (`next[0]`) and incoming (`next[1]`) adjacency
chains. -/
structure NodeRepr (N : Type) where
  data : N
  nextOut : Nat
  nextIn : Nat
deriving Repr, DecidableEq

/-- An edge record (`EdgeRepr<E>`): payload, the chain-continuation fields
`next[0]`/`next[1]`, and the endpoint pair `node = [from, to]`. -/
structure EdgeRepr (E : Type) where
  data : E
  nextOut : Nat
  nextIn : Nat
  src : Nat
  dst : Nat
deriving Repr, DecidableEq

/-- Select a chain-continuation field of an edge record by direction;
`d = false` is outgoing (`next[0]`), `d = true` incoming (`next[1]`),
mirroring `IS_INCOMING as usize` in `impl_get_edges`. -/
def EdgeRepr.next (e : EdgeRepr E) (d : Bool) : Nat :=
  if d then e.nextIn else e.nextOut

/-- Replace a chain-continuation field of an edge record by direction. -/
def EdgeRepr.setNext (e : EdgeRepr E) (d : Bool) (v : Nat) : EdgeRepr E :=
  if d then { e with nextIn := v } else { e with nextOut := v }

/-- Select an adjacency-chain head of a node record by direction. -/
def NodeRepr.next (n : NodeRepr N) (d : Bool) : Nat :=
  if d then n.nextIn else n.nextOut

/-- Replace an adjacency-chain head of a node record by direction. -/
def NodeRepr.setNext (n : NodeRepr N) (d : Bool) (v : Nat) : NodeRepr N :=
  if d then { n with nextIn := v } else { n with nextOut := v }

/-- The vector-based graph store `VecGraph<N, E>`: two dense record
arrays. -/
structure VecGraph (N E : Type) where
  nodes : List (NodeRepr N)
  edges : List (EdgeRepr E)
deriving Repr, DecidableEq

/-- The empty store (`VecGraph::default()`). -/
def VecGraph.empty (N E : Type) : VecGraph N E := ⟨[], []⟩

/-- `Graph::exists_node_index` for `VecGraph`: the raw index is in
`[0, nodes.len())`. -/
def VecGraph.existsNode (g : VecGraph N E) (ix : Nat) : Bool :=
  ix < g.nodes.length

/-- `Graph::exists_edge_index` for `VecGraph`. -/
def VecGraph.existsEdge (g : VecGraph N E) (ix : Nat) : Bool :=
  ix < g.edges.length

/-- One adjacency-chain traversal step list, mirroring the iterator of
`impl_get_edges`: starting from `cur`, while `edges.get(cur)` is `Some`,
yield `cur` and continue with that edge's `next[d]` field.  The result is
the pair (yielded indices, first index at which the lookup failed).  The
fuel argument only matters on chains that loop forever; see `chainIxs`. -/
def chainWalk (edges : List (EdgeRepr E)) (d : Bool) :
    Nat → Nat → List Nat × Nat
  | 0, cur => ([], cur)
  | fuel + 1, cur =>
    match edges[cur]? with
    | none => ([], cur)
    | some e =>
      let (l, t) := chainWalk edges d fuel (e.next d)
      (cur :: l, t)

/-- The complete output of the `impl_get_edges` iterator started at `cur`,
or `none` when the iteration would never terminate.  A terminating
traversal never revisits an index (the successor of an index is a function
of the store), hence yields at most `edges.length` elements, so fuel
`edges.length + 1` is always sufficient: if after the walk the final
cursor still designates a live record, the real iterator loops forever. -/
def chainIxs (edges : List (EdgeRepr E)) (d : Bool) (cur : Nat) :
    Option (List Nat) :=
  let (l, t) := chainWalk edges d (edges.length + 1) cur
  match edges[t]? with
  | none => some l
  | some _ => none

/-- `outgoing_edge_indices_unchecked` for `VecGraph` (via
`impl_get_edges::<false>`): `none` models the undefined behaviour of a
dangling node index, or a chain that cycles. -/
def VecGraph.outgoingIxs (g : VecGraph N E) (v : Nat) : Option (List Nat) :=
  match g.nodes[v]? with
  | none => none
  | some nr => chainIxs g.edges false nr.nextOut

/-- `incoming_edge_indices_unchecked` for `VecGraph` (via
`impl_get_edges::<true>`). -/
def VecGraph.incomingIxs (g : VecGraph N E) (v : Nat) : Option (List Nat) :=
  match g.nodes[v]? with
  | none => none
  | some nr => chainIxs g.edges true nr.nextIn

/-- `GraphUpdate::add_node` for `VecGraph` (`src/vec_graph.rs` lines
467-481): panics (`none`) exactly when `nodes.len() == u32::MAX`;
otherwise appends a record whose two chain heads are `END` and returns the
previous length as the new index. -/
def VecGraph.addNode (g : VecGraph N E) (d : N) :
    Option (Nat × VecGraph N E) :=
  if g.nodes.length = u32Max then none
  else
    some (g.nodes.length,
      { g with nodes := g.nodes ++ [⟨d, u32Max, u32Max⟩] })

/-- `GraphUpdate::add_edge_unchecked` for `VecGraph` (lines 497-547):
panics (`none`) when `edges.len() == u32::MAX`; requires both endpoints to
exist (the `debug_assert!`ed precondition of the three
`split_at_mut_unchecked` cases — violation is modelled as `none`).  In the
`from == to` case both chain heads of the single node are replaced by the
new index at once; in the two non-aliasing cases `from`'s outgoing head
and `to`'s incoming head are replaced; either way the previous head values
become the new edge's `next` fields. -/
def VecGraph.addEdgeUnchecked (g : VecGraph N E) (d : E)
    (nFrom nTo : Nat) : Option (Nat × VecGraph N E) :=
  if g.edges.length = u32Max then none
  else
    match g.nodes[nFrom]?, g.nodes[nTo]? with
    | some vFrom, some vTo =>
      let ix := g.edges.length
      if nFrom = nTo then
        -- `Ordering::Equal` branch: one record, both heads replaced.
        some (ix,
          { nodes := g.nodes.set nFrom
              { vFrom with nextOut := ix, nextIn := ix },
            edges := g.edges ++
              [⟨d, vFrom.nextOut, vFrom.nextIn, nFrom, nTo⟩] })
      else
        -- `Ordering::Less`/`Ordering::Greater` branches: the two records
        -- are distinct, so the two disjoint borrows perform the same two
        -- field replacements in either branch.
        some (ix,
          { nodes := (g.nodes.set nFrom { vFrom with nextOut := ix }).set
              nTo { vTo with nextIn := ix },
            edges := g.edges ++
              [⟨d, vFrom.nextOut, vTo.nextIn, nFrom, nTo⟩] })
    | _, _ => none

/-- `GraphUpdate::add_edge` for `VecGraph` (lines 483-495): asserts that
both endpoints exist (failure is a panic, `none`), then defers to the
unchecked insertion. -/
def VecGraph.addEdge (g : VecGraph N E) (d : E) (nFrom nTo : Nat) :
    Option (Nat × VecGraph N E) :=
  if g.existsNode nFrom ∧ g.existsNode nTo then
    g.addEdgeUnchecked d nFrom nTo
  else none

/-- `Vec::swap_remove(ix)`: return the element at `ix`, move the last
element into its slot, and shrink the array by one.  `none` models the
out-of-bounds panic. -/
def listSwapRemove (l : List α) (ix : Nat) : Option (α × List α) :=
  match l[ix]?, l.getLast? with
  | some x, some last => some (x, (l.set ix last).dropLast)
  | _, _ => none

/-- The chain-splicing walk inside `remove_edge_unchecked` (lines 563-572
for the outgoing direction, 580-589 for the incoming one): follow the
`next[d]` fields from `cur`; at the first edge whose `next[d]` equals the
edge `tgt` being removed, overwrite that field with `rep` and stop.  The
walk also stops, without modification, on reaching the `END` sentinel.  A
dangling (non-`END`, out-of-range) index faults the unchecked access
(`none`); exhausting the fuel means the chain cycles, in which case the
source loop never terminates (`none`). -/
def spliceWalk (edges : List (EdgeRepr E)) (d : Bool) (tgt rep : Nat) :
    Nat → Nat → Option (List (EdgeRepr E))
  | 0, _ => none
  | fuel + 1, cur =>
    if isEnd cur then some edges
    else
      match edges[cur]? with
      | none => none
      | some ce =>
        if ce.next d = tgt then some (edges.set cur (ce.setNext d rep))
        else spliceWalk edges d tgt rep fuel (ce.next d)

/-- Splice the edge `ix` out of the direction-`d` chain of node `vNode`,
replacing the reference to `ix` with `rep` (its own continuation): the
head case updates the node record directly, otherwise the chain is walked
(`remove_edge_unchecked`, lines 559-590). -/
def spliceOut (nodes : List (NodeRepr N)) (edges : List (EdgeRepr E))
    (d : Bool) (vNode ix rep : Nat) :
    Option (List (NodeRepr N) × List (EdgeRepr E)) :=
  match nodes[vNode]? with
  | none => none
  | some nr =>
    if nr.next d = ix then
      some (nodes.set vNode (nr.setNext d rep), edges)
    else
      match spliceWalk edges d ix rep (edges.length + 1) (nr.next d) with
      | none => none
      | some edges' => some (nodes, edges')

/-- `GraphRemoveEdge::remove_edge_unchecked` for `VecGraph` (lines
551-618): read the record, splice it out of its source's outgoing chain
and its target's incoming chain, swap-remove it, and, when a record was
relocated into the freed slot, rewrite every chain field (node heads and
edge continuations) that named the relocated record's old index. -/
def VecGraph.removeEdgeUnchecked (g : VecGraph N E) (ix : Nat) :
    Option (E × VecGraph N E) :=
  match g.edges[ix]? with
  | none => none
  | some er =>
    match spliceOut g.nodes g.edges false er.src ix er.nextOut with
    | none => none
    | some (nodes₁, edges₁) =>
      match spliceOut nodes₁ edges₁ true er.dst ix er.nextIn with
      | none => none
      | some (nodes₂, edges₂) =>
        match listSwapRemove edges₂ ix with
        | none => none
        | some (removed, edges₃) =>
          -- the relocated record's old index is the post-removal length;
          -- when `ix` was the last slot, `ix < edges.len()` fails in the
          -- source and no rewriting happens
          let movedIx := edges₃.length
          if ix < edges₃.length then
            some (removed.data,
              { nodes := nodes₂.map (fun nr =>
                  { nr with
                    nextOut := if nr.nextOut = movedIx then ix else nr.nextOut,
                    nextIn := if nr.nextIn = movedIx then ix else nr.nextIn }),
                edges := edges₃.map (fun e =>
                  { e with
                    nextOut := if e.nextOut = movedIx then ix else e.nextOut,
                    nextIn := if e.nextIn = movedIx then ix else e.nextIn }) })
          else
            some (removed.data, { nodes := nodes₂, edges := edges₃ })

/-- `GraphRemoveEdge::remove_edge` (`src/graph/remove.rs` lines 58-65):
assert that the index exists, then defer to the unchecked removal. -/
def VecGraph.removeEdge (g : VecGraph N E) (ix : Nat) :
    Option (E × VecGraph N E) :=
  if g.existsEdge ix then g.removeEdgeUnchecked ix else none

/-- `GraphRemove::remove_node_unchecked` for `VecGraph` (lines 718-749):
collect the outgoing edge indices, remove them one by one, collect the
incoming edge indices from the resulting state, remove those, then
swap-remove the node record and rewrite every edge endpoint that named
the relocated node record's old index. -/
def VecGraph.removeNodeUnchecked (g : VecGraph N E) (v : Nat) :
    Option (N × VecGraph N E) := do
  let outs ← g.outgoingIxs v
  let g₁ ← outs.foldlM
    (fun (h : VecGraph N E) eix => (h.removeEdgeUnchecked eix).map Prod.snd) g
  let ins ← g₁.incomingIxs v
  let g₂ ← ins.foldlM
    (fun (h : VecGraph N E) eix => (h.removeEdgeUnchecked eix).map Prod.snd) g₁
  match listSwapRemove g₂.nodes v with
  | none => none
  | some (removedNode, nodes₃) =>
    let movedIx := nodes₃.length
    if v < nodes₃.length then
      some (removedNode.data,
        { nodes := nodes₃,
          edges := g₂.edges.map (fun e =>
            { e with
              src := if e.src = movedIx then v else e.src,
              dst := if e.dst = movedIx then v else e.dst }) })
    else
      some (removedNode.data, { nodes := nodes₃, edges := g₂.edges })

/-- `GraphRemove::remove_node` (`src/graph/remove.rs` lines 115-122):
assert that the index exists, then defer to the unchecked removal. -/
def VecGraph.removeNode (g : VecGraph N E) (v : Nat) :
    Option (N × VecGraph N E) :=
  if g.existsNode v then g.removeNodeUnchecked v else none

/-- Downward scan `while del_ord[j].0 == TO_REMOVE { j -= 1 }` of the
delete-compaction loop (`swap_remove`, `src/vec_graph.rs` lines 768-770):
`none` models the `usize` underflow when the scan would move below
position 0 (which the sentinel written at position `i` prevents in every
actual call). -/
def jScan (dord : List (Bool × Nat)) : Nat → Option Nat
  | 0 =>
    match dord[0]? with
    | none => none
    | some fl => if fl.1 then none else some 0
  | j + 1 =>
    match dord[j + 1]? with
    | none => none
    | some fl => if fl.1 then jScan dord j else some (j + 1)

/-- Upward scan `while del_ord[i].0 != TO_REMOVE { i += 1 }` of the
delete-compaction loop (lines 788-794): `none` models the scan running
off the end of the slice (which the sentinel written at position `j`
prevents in every actual call).  The scan moves at most
`dord.length - i` positions before running out of range, so any fuel
exceeding `dord.length` makes the fuel irrelevant. -/
def iScan (dord : List (Bool × Nat)) : Nat → Nat → Option Nat
  | 0, _ => none
  | fuel + 1, i =>
    match dord[i]? with
    | none => none
    | some fl => if fl.1 then some i else iScan dord fuel (i + 1)

/-- The body of the `swap_remove` converging-cursor loop
(`src/vec_graph.rs` lines 762-813), carried out on the flag array `dord`
together with the data array the callback swaps.  Each iteration: save
`dord[i].0` and write the sentinel `false` at `i`; scan `j` down past
deleted entries; restore `i`; if the cursors met, return `i` or `i + 1`
according to the saved flag; write the sentinel `true` at `j`; scan `i`
up to the next deleted entry; restore `j` to `false`; if the cursors met,
return `i + 1`; otherwise swap both `dord` and data entries at `i`,`j`
(the source `debug_assert!(i < j)` violation is `none`) and continue with
`j - 1`.  Each pass decreases `j`, so fuel `dord.length + 1` never runs
out on the initial call of `swapRemove`. -/
def swapLoop (dord : List (Bool × Nat)) (data : List α) (i j : Nat) :
    Nat → Option (Nat × List (Bool × Nat) × List α)
  | 0 => none
  | fuel + 1 =>
    match dord[i]? with
    | none => none
    | some di =>
      let b := di.1
      let dordA := dord.set i (false, di.2)
      match jScan dordA j with
      | none => none
      | some j' =>
        let dord₁ := dordA.set i (b, di.2)
        if i = j' then
          some (if b then i else i + 1, dord₁, data)
        else
          match dord₁[j']? with
          | none => none
          | some dj =>
            let dordB := dord₁.set j' (true, dj.2)
            match iScan dordB (dordB.length + 1) i with
            | none => none
            | some i' =>
              let dord₂ := dordB.set j' (false, dj.2)
              if i' = j' then
                some (i' + 1, dord₂, data)
              else
                if i' < j' then
                  match dord₂[i']?, dord₂[j']?, data[i']?, data[j']? with
                  | some ei, some ej, some xi, some xj =>
                    swapLoop ((dord₂.set i' ej).set j' ei)
                      ((data.set i' xj).set j' xi) i' (j' - 1) fuel
                  | _, _, _, _ => none
                else none

/-- The `swap_remove` delete-compaction helper (`src/vec_graph.rs` lines
752-814), modelled together with the data array its callback swaps: on an
empty flag array it returns 0 immediately, otherwise it runs the
converging-cursor loop from `(0, len - 1)`. -/
def swapRemove (dord : List (Bool × Nat)) (data : List α) :
    Option (Nat × List (Bool × Nat) × List α) :=
  if dord.length = 0 then some (0, dord, data)
  else swapLoop dord data 0 (dord.length - 1) (dord.length + 1)

/-- One step of the edge-flagging passes of
`remove_nodes_edges_unchecked` (lines 640-651 and 668-682): if the flag
at `eix` is still clear, read the payload out once and set the flag;
`none` models the `debug_assert!`ed out-of-range access. -/
def flagEdge (edges : List (EdgeRepr E))
    (acc : List E × List (Bool × Nat)) (eix : Nat) :
    Option (List E × List (Bool × Nat)) :=
  match acc.2[eix]? with
  | none => none
  | some fl =>
    if fl.1 then some acc
    else
      match edges[eix]? with
      | none => none
      | some e => some (acc.1 ++ [e.data], acc.2.set eix (true, fl.2))

/-- The chain-field rewrite of step 4 of the batch removal (lines
687-704): the `END` sentinel is left untouched; any other value is
replaced by the old-index entry `del_ord[ix].1` of the compaction table;
a non-`END` field outside the table faults the `debug_assert!`ed
access. -/
def remapChainField (dord : List (Bool × Nat)) (ix : Nat) : Option Nat :=
  if isEnd ix then some ix
  else
    match dord[ix]? with
    | none => none
    | some fl => some fl.2

/-- `GraphRemove::remove_nodes_edges_unchecked` for `VecGraph`
(`src/vec_graph.rs` lines 622-716):
1. flag every requested edge (deduplicated through the flag), collecting
   payloads;
2. for every requested node, collect its payload once and flag every edge
   of its outgoing and incoming chains;
3. compact the edge array through `swap_remove` and truncate it to the
   surviving count;
4. rewrite every non-`END` chain field of the surviving edges and of all
   nodes through the old-index entries of the compaction table;
5. compact the node array the same way and rewrite every surviving edge's
   endpoint pair through the node table. -/
def VecGraph.removeNodesEdgesUnchecked (g : VecGraph N E)
    (delNodes delEdges : List Nat) :
    Option (List N × List E × VecGraph N E) := do
  let dordE₀ := (List.range g.edges.length).map (fun idx => (false, idx))
  let (ce₁, dordE₁) ← delEdges.foldlM (flagEdge g.edges) ([], dordE₀)
  let dordN₀ := (List.range g.nodes.length).map (fun idx => (false, idx))
  let (cn₁, ce₂, dordN₁, dordE₂) ← delNodes.foldlM
    (fun (acc : List N × List E × List (Bool × Nat) × List (Bool × Nat))
        v => do
      let (cn, ce, dordN, dordE) := acc
      match dordN[v]? with
      | none => none
      | some fl =>
        match g.nodes[v]? with
        | none => none
        | some nr => do
          let cn' := if fl.1 then cn else cn ++ [nr.data]
          let dordN' := if fl.1 then dordN else dordN.set v (true, fl.2)
          let outs ← g.outgoingIxs v
          let ins ← g.incomingIxs v
          let (ce', dordE') ← (outs ++ ins).foldlM (flagEdge g.edges)
            (ce, dordE)
          some (cn', ce', dordN', dordE'))
    ([], ce₁, dordN₀, dordE₁)
  let (aliveE, dordE₃, edgesData) ← swapRemove dordE₂ g.edges
  let edges₁ := edgesData.take aliveE
  let edges₂ ← edges₁.mapM (fun e => do
    let no ← remapChainField dordE₃ e.nextOut
    let ni ← remapChainField dordE₃ e.nextIn
    pure { e with nextOut := no, nextIn := ni })
  let nodes₁ ← g.nodes.mapM (fun nr => do
    let no ← remapChainField dordE₃ nr.nextOut
    let ni ← remapChainField dordE₃ nr.nextIn
    pure { nr with nextOut := no, nextIn := ni })
  let (aliveN, dordN₂, nodesData) ← swapRemove dordN₁ nodes₁
  let nodes₂ := nodesData.take aliveN
  let edges₃ ← edges₂.mapM (fun e =>
    match dordN₂[e.src]?, dordN₂[e.dst]? with
    | some fs, some fd => some { e with src := fs.2, dst := fd.2 }
    | _, _ => none)
  pure (cn₁, ce₂, { nodes := nodes₂, edges := edges₃ })

/-- `GraphRemove::remove_nodes_edges`, the checked default implementation
(`src/graph/remove.rs` lines 128-157): remove each requested edge index
that currently exists, one by one, then each requested node index that
currently exists, one by one, collecting the payloads in order. -/
def VecGraph.removeNodesEdgesSeq (g : VecGraph N E)
    (ns es : List Nat) : Option (List N × List E × VecGraph N E) := do
  let (ce, g₁) ← es.foldlM (fun (acc : List E × VecGraph N E) ix => do
      let (ce, h) := acc
      if h.existsEdge ix then do
        let (x, h') ← h.removeEdgeUnchecked ix
        pure (ce ++ [x], h')
      else pure (ce, h)) (([] : List E), g)
  let (cn, g₂) ← ns.foldlM (fun (acc : List N × VecGraph N E) v => do
      let (cn, h) := acc
      if h.existsNode v then do
        let (x, h') ← h.removeNodeUnchecked v
        pure (cn ++ [x], h')
      else pure (cn, h)) (([] : List N), g₁)
  pure (cn, ce, g₂)

/-- `Graph::node` (`src/graph.rs` lines 309-316): assert that the index
exists, then read the payload. -/
def VecGraph.node (g : VecGraph N E) (ix : Nat) : Option N :=
  if g.existsNode ix then (g.nodes[ix]?).map (·.data) else none

/-- `Graph::edge` (lines 320-327). -/
def VecGraph.edge (g : VecGraph N E) (ix : Nat) : Option E :=
  if g.existsEdge ix then (g.edges[ix]?).map (·.data) else none

/-- `Graph::endpoints` (lines 331-338): assert that the edge index
exists, then return the `[from, to]` pair. -/
def VecGraph.endpoints (g : VecGraph N E) (ix : Nat) : Option (Nat × Nat) :=
  if g.existsEdge ix then (g.edges[ix]?).map (fun e => (e.src, e.dst))
  else none

/-- `Graph::node_mut` (lines 385-392), modelled as a checked in-place
update of the payload the returned `&mut` gives access to. -/
def VecGraph.nodeModify (g : VecGraph N E) (ix : Nat) (f : N → N) :
    Option (VecGraph N E) :=
  if g.existsNode ix then
    match g.nodes[ix]? with
    | none => none
    | some nr =>
      some { g with nodes := g.nodes.set ix { nr with data := f nr.data } }
  else none

/-- `Graph::edge_mut` (lines 396-403), modelled like `nodeModify`. -/
def VecGraph.edgeModify (g : VecGraph N E) (ix : Nat) (f : E → E) :
    Option (VecGraph N E) :=
  if g.existsEdge ix then
    match g.edges[ix]? with
    | none => none
    | some e =>
      some { g with edges := g.edges.set ix { e with data := f e.data } }
  else none

/-- `Graph::outgoing_edge_indices` (lines 147-154): assert that the node
exists, then run the unchecked chain iteration. -/
def VecGraph.outgoingChecked (g : VecGraph N E) (v : Nat) :
    Option (List Nat) :=
  if g.existsNode v then g.outgoingIxs v else none

/-- `Graph::incoming_edge_indices` (lines 211-218). -/
def VecGraph.incomingChecked (g : VecGraph N E) (v : Nat) :
    Option (List Nat) :=
  if g.existsNode v then g.incomingIxs v else none

/-- `Graph::connecting_edge_indices` (lines 261-263, via
`connecting_edge_pairs`, lines 289-299): assert that the node exists,
then chain the outgoing and incoming iterations. -/
def VecGraph.connectingChecked (g : VecGraph N E) (v : Nat) :
    Option (List Nat) :=
  if g.existsNode v then do
    let outs ← g.outgoingIxs v
    let ins ← g.incomingIxs v
    pure (outs ++ ins)
  else none

/-- The adjacency-chain walk of node `v` in direction `d`, as the pair
(yielded edge indices, terminating cursor value). -/
def VecGraph.walkOf (g : VecGraph N E) (d : Bool) (v : Nat) :
    Option (List Nat × Nat) :=
  (g.nodes[v]?).map fun nr =>
    chainWalk g.edges d (g.edges.length + 1) (nr.next d)

/-- The indices of the edge records whose direction-`d` endpoint (source
for `d = false`, target for `d = true`) is the node `v`. -/
def incidentIxs (edges : List (EdgeRepr E)) (d : Bool) (v : Nat) :
    List Nat :=
  (List.range edges.length).filter fun i =>
    match edges[i]? with
    | some e => (if d then e.dst else e.src) == v
    | none => false

/-- The data-model invariant of §3 of the specification, for one node and
one direction: the chain walk terminates at the `END` sentinel and yields
exactly (as a multiset) the edges whose relevant endpoint is this node. -/
def VecGraph.ChainOkAt (g : VecGraph N E) (d : Bool) (v : Nat) : Prop :=
  match g.walkOf d v with
  | none => False
  | some (l, t) => t = u32Max ∧ l.Perm (incidentIxs g.edges d v)

instance (g : VecGraph N E) (d : Bool) (v : Nat) :
    Decidable (g.ChainOkAt d v) := by
  unfold VecGraph.ChainOkAt
  match g.walkOf d v with
  | none => exact inferInstanceAs (Decidable False)
  | some (l, t) => exact inferInstanceAs (Decidable (_ ∧ _))

/-- The data-model invariant of §3 of the specification: array lengths
within the `u32` index space, every edge's endpoints live, and every
node's two adjacency chains `END`-terminated and containing exactly its
incident edges. -/
def VecGraph.Wf (g : VecGraph N E) : Prop :=
  g.nodes.length ≤ u32Max ∧ g.edges.length ≤ u32Max ∧
  (∀ e ∈ g.edges, e.src < g.nodes.length ∧ e.dst < g.nodes.length) ∧
  (∀ v < g.nodes.length, g.ChainOkAt false v ∧ g.ChainOkAt true v)

instance (g : VecGraph N E) [DecidableEq E] : Decidable g.Wf := by
  unfold VecGraph.Wf
  infer_instance

/-!
## Tarjan's strongly-connected-components algorithm (`src/algo/tarjan.rs`)

The algorithm is generic over the `Graph` trait and only consumes
`node_indices()` (the dense range `0..n`), `outgoing_edge_indices(v)`
together with `endpoints(e)` (of which only the target is used), and a
node `Mapping` for its transient state.  The embedding therefore works on
a graph presented as a node count `n` and a successor-list function
`succ`, the list of `to`-endpoints of each node's outgoing edges in
iteration order.
-/

/-- A directed graph as Tarjan's algorithm observes it through the
`Graph` trait: `succ v` lists the targets of the outgoing edges of `v`
in adjacency-iteration order. -/
structure SGraph where
  n : Nat
  succ : Nat → List Nat

/-- The `Graph`-contract guarantee that endpoint queries return live
nodes: every successor of a live node is live. -/
def SGraph.Ok (g : SGraph) : Prop :=
  ∀ v < g.n, ∀ w ∈ g.succ v, w < g.n

/-- Least-significant-first decimal digits, computed with structural
fuel so that the kernel can evaluate it (any fuel of at least `n` gives
the complete digit list). -/
def decDigitsAux : Nat → Nat → List Nat
  | 0, _ => []
  | fuel + 1, n => if n = 0 then [] else n % 10 :: decDigitsAux fuel (n / 10)

/-- Least-significant-first decimal digits of `n`. -/
def decDigits (n : Nat) : List Nat := decDigitsAux n n

theorem decDigitsAux_eq_digits :
    ∀ fuel n, n ≤ fuel → decDigitsAux fuel n = Nat.digits 10 n := by
  intro fuel
  induction fuel with
  | zero =>
    intro n hn
    interval_cases n
    simp [decDigitsAux]
  | succ f ih =>
    intro n hn
    by_cases h0 : n = 0
    · subst h0; simp [decDigitsAux]
    · rw [decDigitsAux, if_neg h0,
        Nat.digits_def' (by norm_num : (1 : Nat) < 10) (by omega),
        ih (n / 10) (by omega)]

theorem decDigits_eq_digits (n : Nat) : decDigits n = Nat.digits 10 n :=
  decDigitsAux_eq_digits n n le_rfl

/-- The decimal digit characters of `n`, most significant first — the
payload of Rust's `Debug` formatting of the `u32` inside a node index
handle. -/
def decimalChars (n : Nat) : List Char :=
  if n = 0 then ['0'] else ((decDigits n).map Nat.digitChar).reverse

/-- The `format!("{:?}", w)` string of a `VecGraph` node handle
`NodeIx(n)` under the derived `Debug` implementation. -/
def nodeDebugStr (n : Nat) : String :=
  String.mk ("NodeIx(".data ++ decimalChars n ++ [')'])

/-- `std::ptr::eq(&w as *const _, &node as *const _)` in the SCC pop loop
(`src/algo/tarjan.rs` line 152) compares the addresses of two distinct
live local variables of the same stack frame, which are never equal. -/
def rustPtrEq (_w _v : Nat) : Bool := false

/-- The stop condition of the SCC pop loop (`src/algo/tarjan.rs` lines
152-153): pointer equality of the two locals, or equality of the
`Debug`-formatted strings of the two node handles. -/
def nodeDebugEq (w v : Nat) : Bool :=
  rustPtrEq w v || (nodeDebugStr w == nodeDebugStr v)

/-- `Nat.digitChar` is injective below the base 10. -/
theorem digitChar_inj_lt :
    ∀ a < 10, ∀ b < 10, Nat.digitChar a = Nat.digitChar b → a = b := by
  decide

theorem map_digitChar_inj :
    ∀ l₁ l₂ : List Nat, (∀ x ∈ l₁, x < 10) → (∀ x ∈ l₂, x < 10) →
      l₁.map Nat.digitChar = l₂.map Nat.digitChar → l₁ = l₂ := by
  intro l₁
  induction l₁ with
  | nil =>
    intro l₂ _ _ h
    cases l₂ with
    | nil => rfl
    | cons b t => exact absurd h (by simp)
  | cons a t ih =>
    intro l₂ h₁ h₂ h
    cases l₂ with
    | nil => exact absurd h (by simp)
    | cons b t₂ =>
      simp only [List.map_cons, List.cons.injEq] at h
      have hab := digitChar_inj_lt a (h₁ a (by simp)) b (h₂ b (by simp)) h.1
      subst hab
      rw [ih t₂ (fun x hx => h₁ x (by simp [hx]))
        (fun x hx => h₂ x (by simp [hx])) h.2]

/-- The decimal rendering of a natural number is injective. -/
theorem decimalChars_injective :
    ∀ a b : Nat, decimalChars a = decimalChars b → a = b := by
  have key : ∀ m : Nat, m ≠ 0 →
      ((Nat.digits 10 m).map Nat.digitChar).reverse = ['0'] → False := by
    intro m hm h
    have hlen : (Nat.digits 10 m).length = 1 := by
      have := congrArg List.length h
      simpa using this
    obtain ⟨d, hd⟩ : ∃ d, Nat.digits 10 m = [d] := by
      cases hdig : Nat.digits 10 m with
      | nil => rw [hdig] at hlen; simp at hlen
      | cons x t =>
        rw [hdig] at hlen
        simp at hlen
        exact ⟨x, by rw [hlen]⟩
    rw [hd] at h
    simp only [List.map_cons, List.map_nil, List.reverse_cons,
      List.reverse_nil, List.nil_append, List.cons.injEq, and_true] at h
    have hdlt : d < 10 :=
      Nat.digits_lt_base (by norm_num) (by rw [hd]; simp)
    have hd0 : d = 0 := digitChar_inj_lt d hdlt 0 (by norm_num) (by simpa using h)
    have := Nat.ofDigits_digits 10 m
    rw [hd, hd0] at this
    simp [Nat.ofDigits] at this
    exact hm this.symm
  intro a b h
  unfold decimalChars at h
  rw [decDigits_eq_digits, decDigits_eq_digits] at h
  by_cases ha : a = 0 <;> by_cases hb : b = 0
  · omega
  · rw [if_pos ha, if_neg hb] at h
    exact absurd h.symm (fun hh => key b hb hh)
  · rw [if_neg ha, if_pos hb] at h
    exact absurd h (fun hh => key a ha hh)
  · rw [if_neg ha, if_neg hb] at h
    have hrev := List.reverse_injective h
    have hdig := map_digitChar_inj _ _
      (fun x hx => Nat.digits_lt_base (by norm_num) hx)
      (fun x hx => Nat.digits_lt_base (by norm_num) hx) hrev
    exact Nat.digits_inj_iff.mp hdig

/-- The pop-loop stop condition, despite being computed from formatted
strings, coincides with equality of the (numeric) node handles. -/
theorem nodeDebugEq_eq_beq (w v : Nat) : nodeDebugEq w v = (w == v) := by
  unfold nodeDebugEq rustPtrEq
  simp only [Bool.false_or]
  by_cases h : w = v
  · subst h; simp
  · have hs : nodeDebugStr w ≠ nodeDebugStr v := by
      intro hs
      apply h
      apply decimalChars_injective
      have hdata : "NodeIx(".data ++ decimalChars w ++ [')'] =
          "NodeIx(".data ++ decimalChars v ++ [')'] := congrArg String.data hs
      rw [List.append_assoc, List.append_assoc] at hdata
      exact List.append_cancel_right (List.append_cancel_left hdata)
    rw [beq_eq_false_iff_ne.mpr hs, beq_eq_false_iff_ne.mpr h]

/-- The per-node transient state of the algorithm (`TarjanState` in
`src/algo/tarjan.rs`): discovery index (`None` until visited), lowlink,
and the on-stack flag; the default is `(None, 0, false)`. -/
structure TarjanNodeState where
  index : Option Nat
  lowlink : Nat
  onStack : Bool
deriving Repr, DecidableEq

/-- The complete mutable state of a `tarjan` run: the per-node `Mapping`,
the explicit stack, the monotonic counter, and the components emitted so
far. -/
structure TarjanSt where
  states : Nat → TarjanNodeState
  stack : List Nat
  counter : Nat
  sccs : List (List Nat)

/-- The SCC pop loop (`src/algo/tarjan.rs` lines 147-157): pop, clear the
on-stack flag, append to the component, and stop once the popped handle
compares equal (by the `nodeDebugEq` condition) to the root `v`.  `none`
models the `expect("Stack should not be empty")` panic. -/
def popScc (v : Nat) :
    List Nat → (Nat → TarjanNodeState) → List Nat →
    Option (List Nat × List Nat × (Nat → TarjanNodeState))
  | [], _, _ => none
  | w :: rest, states, acc =>
    let states' := Function.update states w { states w with onStack := false }
    let acc' := acc ++ [w]
    if nodeDebugEq w v then some (acc', rest, states')
    else popScc v rest states' acc'

/-- The successor loop of `visit` (`src/algo/tarjan.rs` lines 128-143),
parameterized by the recursive call (`visit` at the next smaller fuel):
recurse into unvisited successors and fold their resulting lowlink into
`v`'s lowlink by minimum; for already visited successors that are still
on the stack, fold in their discovery index (not their lowlink). -/
def visitList (rec : Nat → TarjanSt → Option TarjanSt) (v : Nat) :
    List Nat → TarjanSt → Option TarjanSt
  | [], st => some st
  | w :: ws, st =>
    match (st.states w).index with
    | none =>
      match rec w st with
      | none => none
      | some st' =>
        let sv := st'.states v
        let st'' : TarjanSt :=
          { st' with states := Function.update st'.states v
                        ⟨sv.index, min sv.lowlink (st'.states w).lowlink,
                          sv.onStack⟩ }
        visitList rec v ws st''
    | some dw =>
      if (st.states w).onStack then
        let sv := st.states v
        visitList rec v ws
          { st with states := Function.update st.states v
                        ⟨sv.index, min sv.lowlink dw, sv.onStack⟩ }
      else visitList rec v ws st

/-- The recursive DFS `visit` (`src/algo/tarjan.rs` lines 110-160):
assign the next counter value as discovery index and initial lowlink,
push and mark, process the successors, and, when the node's lowlink still
equals its own discovery index, pop its complete component off the
stack.  The fuel bounds the recursion depth; every nested call consumes a
previously unvisited node, so fuel exceeding the number of unvisited
nodes never runs out. -/
def visit (g : SGraph) : Nat → Nat → TarjanSt → Option TarjanSt
  | 0, _, _ => none
  | fuel + 1, v, st =>
    let st₁ : TarjanSt :=
      { states := Function.update st.states v ⟨some st.counter, st.counter, true⟩,
        stack := v :: st.stack,
        counter := st.counter + 1,
        sccs := st.sccs }
    match visitList (fun w s => visit g fuel w s) v (g.succ v) st₁ with
    | none => none
    | some st₂ =>
      match (st₂.states v).index with
      | none => none
      | some dv =>
        if (st₂.states v).lowlink = dv then
          match popScc v st₂.stack st₂.states [] with
          | none => none
          | some (scc, stack', states') =>
            some { states := states', stack := stack',
                   counter := st₂.counter, sccs := st₂.sccs ++ [scc] }
        else some st₂

/-- The initial state: every node unvisited with lowlink 0 and the
on-stack flag clear, empty stack, counter 0, no components. -/
def tarjanInit : TarjanSt :=
  { states := fun _ => ⟨none, 0, false⟩, stack := [], counter := 0, sccs := [] }

/-- The driver loop of `tarjan` (lines 93-104): visit each still
unvisited node of `node_indices()` in order. -/
def tarjanLoop (g : SGraph) : List Nat → TarjanSt → Option TarjanSt
  | [], st => some st
  | v :: vs, st =>
    if (st.states v).index = none then
      match visit g (g.n + 1) v st with
      | none => none
      | some st' => tarjanLoop g vs st'
    else tarjanLoop g vs st

/-- `tarjan` (lines 84-107): run the driver loop over `0..n` from the
default-initialized node map and return the collected components in
emission order. -/
def tarjan (g : SGraph) : Option (List (List Nat)) :=
  (tarjanLoop g (List.range g.n) tarjanInit).map TarjanSt.sccs

/-!
## Reachability and strongly connected components of an `SGraph`
-/

/-- `a` reaches `b` by following zero or more edges. -/
def SGraph.Reaches (g : SGraph) (a b : Nat) : Prop :=
  Relation.ReflTransGen (fun x y => y ∈ g.succ x) a b

/-- Mutual reachability — membership in the same strongly connected
component. -/
def SGraph.SameScc (g : SGraph) (a b : Nat) : Prop :=
  g.Reaches a b ∧ g.Reaches b a

theorem SGraph.Reaches.refl (g : SGraph) (a : Nat) : g.Reaches a a :=
  Relation.ReflTransGen.refl

theorem SGraph.Reaches.trans {g : SGraph} {a b c : Nat}
    (h₁ : g.Reaches a b) (h₂ : g.Reaches b c) : g.Reaches a c :=
  Relation.ReflTransGen.trans h₁ h₂

theorem SGraph.Reaches.edge {g : SGraph} {a b : Nat} (h : b ∈ g.succ a) :
    g.Reaches a b :=
  Relation.ReflTransGen.single h

theorem SGraph.SameScc.symm {g : SGraph} {a b : Nat}
    (h : g.SameScc a b) : g.SameScc b a :=
  ⟨h.2, h.1⟩

theorem SGraph.sameScc_trans {g : SGraph} {a b c : Nat}
    (h₁ : g.SameScc a b) (h₂ : g.SameScc b c) : g.SameScc a c :=
  ⟨h₁.1.trans h₂.1, h₂.2.trans h₁.2⟩

/-!
## State observations for the Tarjan invariant
-/

/-- Discovery index of `w` (`None` while unvisited). -/
def dIx (st : TarjanSt) (w : Nat) : Option Nat := (st.states w).index

/-- Current lowlink value of `w`. -/
def llk (st : TarjanSt) (w : Nat) : Nat := (st.states w).lowlink

/-- The on-stack flag of `w`. -/
def onStk (st : TarjanSt) (w : Nat) : Bool := (st.states w).onStack

/-- `w` has been discovered. -/
def Visited (st : TarjanSt) (w : Nat) : Prop := dIx st w ≠ none

/-- The number of not-yet-discovered nodes, which bounds the remaining
recursion depth of `visit`. -/
def unvis (g : SGraph) (st : TarjanSt) : Nat :=
  ((List.range g.n).filter fun w => dIx st w == none).length

/-- The invariant of a `tarjan` run, relative to the list `grays` of
nodes whose `visit` call is currently in progress (innermost first; the
driver runs with `grays = []`).  A node is *fully processed* when it is
visited and not gray; it is *completed* when it is visited and off the
stack, which coincides with membership in an emitted component. -/
structure TInv (g : SGraph) (grays : List Nat) (st : TarjanSt) : Prop where
  vis_lt : ∀ w, Visited st w → w < g.n
  idx_lt : ∀ w d, dIx st w = some d → d < st.counter
  idx_inj : ∀ w₁ w₂ d, dIx st w₁ = some d → dIx st w₂ = some d → w₁ = w₂
  ll_le : ∀ w d, dIx st w = some d → llk st w ≤ d
  stack_vis : ∀ w ∈ st.stack, Visited st w ∧ onStk st w = true
  stack_on : ∀ w, onStk st w = true → w ∈ st.stack
  stack_nodup : st.stack.Nodup
  grays_sub : ∀ w ∈ grays, w ∈ st.stack
  fp_ll_lt : ∀ w ∈ st.stack, w ∉ grays → ∀ d, dIx st w = some d →
    llk st w < d
  witness : ∀ w ∈ st.stack, ∃ z ∈ st.stack,
    dIx st z = some (llk st w) ∧ g.Reaches w z
  edgeP : ∀ u, Visited st u → u ∉ grays → ∀ y ∈ g.succ u,
    Visited st y ∧ (onStk st y = false ∨
      (∃ dy, dIx st y = some dy ∧ llk st u ≤ dy) ∨
      (llk st u ≤ llk st y ∧ y ∉ grays))
  comp_flat : ∀ w, (Visited st w ∧ onStk st w = false) ↔
    w ∈ st.sccs.flatten
  flat_nodup : st.sccs.flatten.Nodup
  comp_nonempty : ∀ c ∈ st.sccs, c ≠ []
  comp_mutual : ∀ c ∈ st.sccs, ∀ a ∈ c, ∀ b ∈ c, g.SameScc a b
  comp_max : ∀ c ∈ st.sccs, ∀ a ∈ c, ∀ b : Nat, g.SameScc a b → b ∈ c
  comp_closed : ∀ u, Visited st u → onStk st u = false →
    ∀ y ∈ g.succ u, Visited st y ∧ onStk st y = false
  comp_order : ∀ (i j : Nat) (hi : i < st.sccs.length)
    (hj : j < st.sccs.length), i ≠ j →
    ∀ u ∈ st.sccs.get ⟨i, hi⟩, ∀ y ∈ g.succ u,
    y ∈ st.sccs.get ⟨j, hj⟩ → j < i

/-- Transitive closure of `comp_closed`: everything reachable from a
completed node is completed. -/
theorem completed_reach {g : SGraph} {grays : List Nat} {st : TarjanSt}
    (inv : TInv g grays st) {a b : Nat} (h : g.Reaches a b)
    (ha : Visited st a ∧ onStk st a = false) :
    Visited st b ∧ onStk st b = false := by
  induction h with
  | refl => exact ha
  | tail hr he ih => exact inv.comp_closed _ ih.1 ih.2 _ he

/-- Counting lemma for the fuel argument: if discovery only grows and
some listed node is newly discovered, the undiscovered count strictly
drops. -/
theorem countP_lt_of_pointwise {α : Type} {l : List α} {p q : α → Bool}
    (h : ∀ a ∈ l, q a = true → p a = true) {v : α} (hv : v ∈ l)
    (hp : p v = true) (hq : q v = false) :
    l.countP q < l.countP p := by
  induction l with
  | nil => exact absurd hv (by simp)
  | cons a t ih =>
    rw [List.countP_cons, List.countP_cons]
    rcases List.mem_cons.mp hv with hva | hvt
    · subst hva
      rw [hp, hq, if_pos rfl, if_neg Bool.false_ne_true]
      have : t.countP q ≤ t.countP p :=
        List.countP_mono_left (fun x hx => h x (List.mem_cons_of_mem _ hx))
      omega
    · have hle : (if q a = true then 1 else 0) ≤
          (if p a = true then 1 else 0) := by
        by_cases hqa : q a = true
        · rw [if_pos hqa, if_pos (h a (by simp) hqa)]
        · rw [if_neg hqa]
          omega
      have := ih (fun x hx => h x (List.mem_cons_of_mem _ hx)) hvt
      omega

theorem unvis_le_of_mono {g : SGraph} {st st' : TarjanSt}
    (h : ∀ w, Visited st w → Visited st' w) :
    unvis g st' ≤ unvis g st := by
  unfold unvis
  rw [← List.countP_eq_length_filter, ← List.countP_eq_length_filter]
  refine List.countP_mono_left ?_
  intro w _ hw
  simp only [beq_iff_eq] at hw ⊢
  by_contra hc
  exact (h w hc) hw

theorem unvis_lt_of_new {g : SGraph} {st st' : TarjanSt}
    (h : ∀ w, Visited st w → Visited st' w) {v : Nat} (hvn : v < g.n)
    (hnew : ¬ Visited st v) (hnow : Visited st' v) :
    unvis g st' < unvis g st := by
  unfold unvis
  rw [← List.countP_eq_length_filter, ← List.countP_eq_length_filter]
  refine countP_lt_of_pointwise ?_ (List.mem_range.mpr hvn) ?_ ?_
  · intro a _ ha
    simp only [beq_iff_eq] at ha ⊢
    by_contra hc
    exact (h a hc) ha
  · simp only [beq_iff_eq]
    unfold Visited at hnew
    simpa using hnew
  · unfold Visited at hnow
    rw [beq_eq_false_iff_ne]
    exact hnow

/-- Complete characterization of the SCC pop loop: the stack is split at
the root's (unique) occurrence, the loop pops everything through the
root in stack order, clearing the on-stack flags of exactly the popped
nodes.  The stop condition compares `Debug` strings, which
(`nodeDebugEq_eq_beq`) coincides with index equality. -/
theorem popScc_cons (v w : Nat) (rest : List Nat)
    (states : Nat → TarjanNodeState) (acc : List Nat) :
    popScc v (w :: rest) states acc =
      (if nodeDebugEq w v then
        some (acc ++ [w], rest,
          Function.update states w { states w with onStack := false })
      else popScc v rest
        (Function.update states w { states w with onStack := false })
        (acc ++ [w])) := rfl

theorem popScc_spec (v : Nat) :
    ∀ (A B : List Nat) (states : Nat → TarjanNodeState)
      (acc : List Nat), v ∉ A →
      popScc v (A ++ v :: B) states acc
        = some (acc ++ (A ++ [v]), B,
            fun w => if w ∈ A ++ [v] then
              { states w with onStack := false } else states w) := by
  intro A
  induction A with
  | nil =>
    intro B states acc _
    rw [List.nil_append, popScc_cons]
    simp only [nodeDebugEq_eq_beq, beq_self_eq_true, if_true]
    refine congrArg some (congrArg₂ Prod.mk (by simp)
      (congrArg (Prod.mk B) ?_))
    funext w
    by_cases hw : w = v
    · subst hw
      rw [Function.update_same, if_pos (by simp)]
    · rw [Function.update_noteq hw, if_neg (by simp [hw])]
  | cons a A ih =>
    intro B states acc hv
    have hav : ¬(a = v) := fun hc => hv (by simp [hc])
    rw [List.cons_append, popScc_cons]
    simp only [nodeDebugEq_eq_beq]
    rw [if_neg (by simp [hav]), ih B _ _ (fun hc => hv (by simp [hc]))]
    refine congrArg some (congrArg₂ Prod.mk (by simp)
      (congrArg (Prod.mk B) ?_))
    funext w
    by_cases hw : w = a
    · subst hw
      have hr : w ∈ (w :: A) ++ [v] := by simp
      by_cases hmem : w ∈ A ++ [v]
      · rw [if_pos hmem, if_pos hr, Function.update_same]
      · rw [if_neg hmem, if_pos hr, Function.update_same]
    · rw [Function.update_noteq hw]
      by_cases hmem : w ∈ A ++ [v]
      · rw [if_pos hmem, if_pos (by
          rcases List.mem_append.mp hmem with h | h
          · exact List.mem_append.mpr (Or.inl (List.mem_cons_of_mem _ h))
          · exact List.mem_append.mpr (Or.inr h))]
      · rw [if_neg hmem, if_neg (by
          intro hc
          rcases List.mem_append.mp hc with h | h
          · rcases List.mem_cons.mp h with h' | h'
            · exact hw h'
            · exact hmem (List.mem_append.mpr (Or.inl h'))
          · exact hmem (List.mem_append.mpr (Or.inr h)))]

/-- The entry sequence of `visit`: mark `v` with the next counter value
(as both discovery index and initial lowlink), set its on-stack flag and
push it. -/
def pushSt (st : TarjanSt) (v : Nat) : TarjanSt :=
  { states := Function.update st.states v
      ⟨some st.counter, st.counter, true⟩,
    stack := v :: st.stack, counter := st.counter + 1,
    sccs := st.sccs }

theorem pushSt_dIx_ne (st : TarjanSt) (v w : Nat) (h : w ≠ v) :
    dIx (pushSt st v) w = dIx st w := by
  unfold pushSt dIx
  simp only [Function.update_noteq h]

theorem pushSt_llk_ne (st : TarjanSt) (v w : Nat) (h : w ≠ v) :
    llk (pushSt st v) w = llk st w := by
  unfold pushSt llk
  simp only [Function.update_noteq h]

theorem pushSt_onStk_ne (st : TarjanSt) (v w : Nat) (h : w ≠ v) :
    onStk (pushSt st v) w = onStk st w := by
  unfold pushSt onStk
  simp only [Function.update_noteq h]

theorem pushSt_dIx_self (st : TarjanSt) (v : Nat) :
    dIx (pushSt st v) v = some st.counter := by
  unfold pushSt dIx
  simp only [Function.update_same]

theorem pushSt_llk_self (st : TarjanSt) (v : Nat) :
    llk (pushSt st v) v = st.counter := by
  unfold pushSt llk
  simp only [Function.update_same]

theorem pushSt_onStk_self (st : TarjanSt) (v : Nat) :
    onStk (pushSt st v) v = true := by
  unfold pushSt onStk
  simp only [Function.update_same]

theorem pushSt_vis_ne (st : TarjanSt) (v w : Nat) (h : w ≠ v) :
    Visited (pushSt st v) w ↔ Visited st w := by
  unfold Visited
  rw [pushSt_dIx_ne st v w h]

/-- Marking a fresh node `v` and pushing it preserves the invariant,
with `v` added to the gray list. -/
theorem mark_push_inv {g : SGraph} {G : List Nat} {st : TarjanSt}
    {v : Nat} (inv : TInv g G st) (hv : ¬ Visited st v)
    (hvn : v < g.n) :
    TInv g (v :: G) (pushSt st v) := by
  have hvstk : v ∉ st.stack := fun hc => hv (inv.stack_vis v hc).1
  have hvflat : v ∉ st.sccs.flatten := fun hc =>
    hv ((inv.comp_flat v).mpr hc).1
  have hstk : (pushSt st v).stack = v :: st.stack := rfl
  have hctr : (pushSt st v).counter = st.counter + 1 := rfl
  have hsccs : (pushSt st v).sccs = st.sccs := rfl
  refine ⟨?_, ?_, ?_, ?_, ?_, ?_, ?_, ?_, ?_, ?_, ?_, ?_, ?_, ?_, ?_,
    ?_, ?_, ?_⟩
  · -- vis_lt
    intro w hw
    by_cases hwv : w = v
    · subst hwv; exact hvn
    · exact inv.vis_lt w ((pushSt_vis_ne st v w hwv).mp hw)
  · -- idx_lt
    intro w d hd
    rw [hctr]
    by_cases hwv : w = v
    · subst hwv
      rw [pushSt_dIx_self] at hd
      have : d = st.counter := (Option.some.inj hd).symm
      omega
    · rw [pushSt_dIx_ne st v w hwv] at hd
      have := inv.idx_lt w d hd
      omega
  · -- idx_inj
    intro w₁ w₂ d h₁ h₂
    by_cases h1v : w₁ = v
    · by_cases h2v : w₂ = v
      · rw [h1v, h2v]
      · rw [h1v, pushSt_dIx_self] at h₁
        rw [pushSt_dIx_ne st v w₂ h2v] at h₂
        have hd : d = st.counter := (Option.some.inj h₁).symm
        subst hd
        exact absurd (inv.idx_lt w₂ _ h₂) (by omega)
    · rw [pushSt_dIx_ne st v w₁ h1v] at h₁
      by_cases h2v : w₂ = v
      · rw [h2v, pushSt_dIx_self] at h₂
        have hd : d = st.counter := (Option.some.inj h₂).symm
        subst hd
        exact absurd (inv.idx_lt w₁ _ h₁) (by omega)
      · rw [pushSt_dIx_ne st v w₂ h2v] at h₂
        exact inv.idx_inj w₁ w₂ d h₁ h₂
  · -- ll_le
    intro w d hd
    by_cases hwv : w = v
    · subst hwv
      rw [pushSt_dIx_self] at hd
      rw [pushSt_llk_self, ← Option.some.inj hd]
    · rw [pushSt_dIx_ne st v w hwv] at hd
      rw [pushSt_llk_ne st v w hwv]
      exact inv.ll_le w d hd
  · -- stack_vis
    intro w hw
    rw [hstk] at hw
    rcases List.mem_cons.mp hw with hwv | hws
    · subst hwv
      refine ⟨?_, pushSt_onStk_self st w⟩
      unfold Visited
      rw [pushSt_dIx_self]
      simp
    · have hwv : w ≠ v := fun hc => hvstk (hc ▸ hws)
      obtain ⟨h1, h2⟩ := inv.stack_vis w hws
      exact ⟨(pushSt_vis_ne st v w hwv).mpr h1,
        by rw [pushSt_onStk_ne st v w hwv]; exact h2⟩
  · -- stack_on
    intro w hw
    rw [hstk]
    by_cases hwv : w = v
    · subst hwv; simp
    · rw [pushSt_onStk_ne st v w hwv] at hw
      exact List.mem_cons_of_mem _ (inv.stack_on w hw)
  · -- stack_nodup
    rw [hstk]
    exact List.nodup_cons.mpr ⟨hvstk, inv.stack_nodup⟩
  · -- grays_sub
    intro w hw
    rw [hstk]
    rcases List.mem_cons.mp hw with hwv | hwG
    · subst hwv; simp
    · exact List.mem_cons_of_mem _ (inv.grays_sub w hwG)
  · -- fp_ll_lt
    intro w hw hng d hd
    have hwv : w ≠ v := fun hc => hng (by rw [hc]; simp)
    rw [hstk] at hw
    have hws : w ∈ st.stack := by
      rcases List.mem_cons.mp hw with h | h
      · exact absurd h hwv
      · exact h
    rw [pushSt_llk_ne st v w hwv]
    rw [pushSt_dIx_ne st v w hwv] at hd
    exact inv.fp_ll_lt w hws (fun hc => hng (List.mem_cons_of_mem _ hc))
      d hd
  · -- witness
    intro w hw
    rw [hstk] at hw
    rcases List.mem_cons.mp hw with hwv | hws
    · subst hwv
      refine ⟨w, by rw [hstk]; simp, ?_, SGraph.Reaches.refl g w⟩
      rw [pushSt_llk_self, pushSt_dIx_self]
    · have hwv : w ≠ v := fun hc => hvstk (hc ▸ hws)
      obtain ⟨z, hz, hzd, hzr⟩ := inv.witness w hws
      have hzv : z ≠ v := fun hc => hvstk (hc ▸ hz)
      refine ⟨z, by rw [hstk]; exact List.mem_cons_of_mem _ hz, ?_, hzr⟩
      rw [pushSt_dIx_ne st v z hzv, pushSt_llk_ne st v w hwv]
      exact hzd
  · -- edgeP
    intro u hu hng y hy
    have huv : u ≠ v := fun hc => hng (by rw [hc]; simp)
    have hu' := (pushSt_vis_ne st v u huv).mp hu
    obtain ⟨hyv, hdisj⟩ := inv.edgeP u hu'
      (fun hc => hng (List.mem_cons_of_mem _ hc)) y hy
    have hyvne : y ≠ v := fun hc => hv (hc ▸ hyv)
    refine ⟨(pushSt_vis_ne st v y hyvne).mpr hyv, ?_⟩
    rcases hdisj with h | h | h
    · exact Or.inl (by rw [pushSt_onStk_ne st v y hyvne]; exact h)
    · obtain ⟨dy, hdy, hle⟩ := h
      exact Or.inr (Or.inl ⟨dy,
        by rw [pushSt_dIx_ne st v y hyvne]; exact hdy,
        by rw [pushSt_llk_ne st v u huv]; exact hle⟩)
    · obtain ⟨hle, hng2⟩ := h
      refine Or.inr (Or.inr ⟨?_, ?_⟩)
      · rw [pushSt_llk_ne st v u huv, pushSt_llk_ne st v y hyvne]
        exact hle
      · intro hc
        rcases List.mem_cons.mp hc with h | h
        · exact hyvne h
        · exact hng2 h
  · -- comp_flat
    intro w
    rw [hsccs]
    by_cases hwv : w = v
    · subst hwv
      constructor
      · intro hcc
        rw [pushSt_onStk_self] at hcc
        exact absurd hcc.2 (by simp)
      · intro hc
        exact absurd hc hvflat
    · rw [show (Visited (pushSt st v) w ∧ onStk (pushSt st v) w = false)
          ↔ (Visited st w ∧ onStk st w = false) by
        rw [pushSt_vis_ne st v w hwv, pushSt_onStk_ne st v w hwv]]
      exact inv.comp_flat w
  · -- flat_nodup
    rw [hsccs]
    exact inv.flat_nodup
  · -- comp_nonempty
    rw [hsccs]
    exact inv.comp_nonempty
  · -- comp_mutual
    rw [hsccs]
    exact inv.comp_mutual
  · -- comp_max
    rw [hsccs]
    exact inv.comp_max
  · -- comp_closed
    intro u hu hon y hy
    have huv : u ≠ v := by
      intro hc
      subst hc
      rw [pushSt_onStk_self] at hon
      exact absurd hon (by simp)
    rw [pushSt_onStk_ne st v u huv] at hon
    obtain ⟨h1, h2⟩ := inv.comp_closed u
      ((pushSt_vis_ne st v u huv).mp hu) hon y hy
    have hyv : y ≠ v := fun hc => hv (hc ▸ h1)
    exact ⟨(pushSt_vis_ne st v y hyv).mpr h1,
      by rw [pushSt_onStk_ne st v y hyv]; exact h2⟩
  · -- comp_order
    exact inv.comp_order

/-- The exit sequence of a popping `visit`: clear the on-stack flags of
the popped component `C`, truncate the stack to `S₀` and append `C` to
the emitted components. -/
def popSt (st : TarjanSt) (C S₀ : List Nat) : TarjanSt :=
  { states := fun w => if w ∈ C then
      { st.states w with onStack := false } else st.states w,
    stack := S₀, counter := st.counter, sccs := st.sccs ++ [C] }

theorem popSt_dIx (st : TarjanSt) (C S₀ : List Nat) (w : Nat) :
    dIx (popSt st C S₀) w = dIx st w := by
  unfold popSt dIx
  by_cases h : w ∈ C <;> simp [h]

theorem popSt_llk (st : TarjanSt) (C S₀ : List Nat) (w : Nat) :
    llk (popSt st C S₀) w = llk st w := by
  unfold popSt llk
  by_cases h : w ∈ C <;> simp [h]

theorem popSt_vis (st : TarjanSt) (C S₀ : List Nat) (w : Nat) :
    Visited (popSt st C S₀) w ↔ Visited st w := by
  unfold Visited
  rw [popSt_dIx]

theorem popSt_onStk_mem (st : TarjanSt) {C : List Nat} (S₀ : List Nat)
    {w : Nat} (h : w ∈ C) : onStk (popSt st C S₀) w = false := by
  unfold popSt onStk
  simp [h]

theorem popSt_onStk_not_mem (st : TarjanSt) {C : List Nat}
    (S₀ : List Nat) {w : Nat} (h : w ∉ C) :
    onStk (popSt st C S₀) w = onStk st w := by
  unfold popSt onStk
  simp [h]

/-- The heart of the algorithm's correctness: when `visit v` finds
`lowlink v = index v`, the nodes popped off the stack — `v` and every
node pushed above it that survived — form exactly the strongly connected
component of `v`, no edge leads from them back into the surviving
stack, and clearing them re-establishes the invariant with `v` no
longer gray. -/
theorem pop_step {g : SGraph} {grays₀ : List Nat} {st₂ : TarjanSt}
    {v dv : Nat} {seg S₀ : List Nat}
    (inv : TInv g (v :: grays₀) st₂)
    (hstk : st₂.stack = seg ++ v :: S₀)
    (hdv : dIx st₂ v = some dv)
    (hllv : llk st₂ v = dv)
    (hseg_fresh : ∀ w ∈ seg, ∃ d, dIx st₂ w = some d ∧ dv < d)
    (hseg_ng : ∀ w ∈ seg, w ∉ v :: grays₀)
    (hseg_min : ∀ w ∈ seg, llk st₂ v ≤ llk st₂ w)
    (hseg_reach : ∀ w ∈ seg, g.Reaches v w)
    (hS₀ : ∀ w ∈ S₀, ∃ d, dIx st₂ w = some d ∧ d < dv)
    (hG₀ : ∀ w ∈ grays₀, w ∈ S₀)
    (hvedge : ∀ y ∈ g.succ v, Visited st₂ y ∧ (onStk st₂ y = false ∨
      (∃ dy, dIx st₂ y = some dy ∧ llk st₂ v ≤ dy) ∨
      (llk st₂ v ≤ llk st₂ y ∧ y ∉ v :: grays₀))) :
    TInv g grays₀ (popSt st₂ (seg ++ [v]) S₀) := by
  have hvstk : v ∈ st₂.stack := by rw [hstk]; simp
  have hvseg : v ∉ seg := by
    intro hc
    obtain ⟨d, hd, hlt⟩ := hseg_fresh v hc
    rw [hdv] at hd
    have := Option.some.inj hd
    omega
  have hvS₀ : v ∉ S₀ := by
    intro hc
    obtain ⟨d, hd, hlt⟩ := hS₀ v hc
    rw [hdv] at hd
    have := Option.some.inj hd
    omega
  -- index bookkeeping: the popped segment carries indices `≥ dv`, the
  -- surviving stack indices `< dv`
  have hCidx : ∀ w ∈ seg ++ [v], ∃ d, dIx st₂ w = some d ∧ dv ≤ d := by
    intro w hw
    rcases List.mem_append.mp hw with h | h
    · obtain ⟨d, hd, hlt⟩ := hseg_fresh w h
      exact ⟨d, hd, by omega⟩
    · rw [show w = v by simpa using h]
      exact ⟨dv, hdv, le_rfl⟩
  have hdisjC : ∀ w ∈ seg ++ [v], w ∉ S₀ := by
    intro w hw hw0
    obtain ⟨d, hd, hge⟩ := hCidx w hw
    obtain ⟨d', hd', hlt⟩ := hS₀ w hw0
    rw [hd] at hd'
    have := Option.some.inj hd'
    omega
  have hCstack : ∀ w ∈ seg ++ [v], w ∈ st₂.stack := by
    intro w hw
    rw [hstk]
    rcases List.mem_append.mp hw with h | h
    · exact List.mem_append.mpr (Or.inl h)
    · exact List.mem_append.mpr (Or.inr (by simp at h; simp [h]))
  have hCll : ∀ w ∈ seg ++ [v], dv ≤ llk st₂ w := by
    intro w hw
    rcases List.mem_append.mp hw with h | h
    · rw [← hllv]
      exact hseg_min w h
    · rw [show w = v by simpa using h, hllv]
  have hCreach : ∀ w ∈ seg ++ [v], g.Reaches v w := by
    intro w hw
    rcases List.mem_append.mp hw with h | h
    · exact hseg_reach w h
    · rw [show w = v by simpa using h]
      exact SGraph.Reaches.refl g v
  -- (B): every popped node reaches the root `v`, by strong descending
  -- induction on its discovery index via the on-stack lowlink witness.
  have hB : ∀ d : Nat, ∀ w ∈ seg, dIx st₂ w = some d → g.Reaches w v := by
    intro d
    induction d using Nat.strong_induction_on with
    | _ d ih =>
      intro w hw hdw
      have hwstk : w ∈ st₂.stack := hCstack w (List.mem_append.mpr
        (Or.inl hw))
      have hwng := hseg_ng w hw
      have hll_lt : llk st₂ w < d := inv.fp_ll_lt w hwstk hwng d hdw
      obtain ⟨z, hz_stk, hz_d, hz_reach⟩ := inv.witness w hwstk
      rw [hstk] at hz_stk
      rcases List.mem_append.mp hz_stk with hz | hz
      · obtain ⟨dz, hdz, hdzgt⟩ := hseg_fresh z hz
        rw [hdz] at hz_d
        have hzl : dz = llk st₂ w := Option.some.inj hz_d
        exact hz_reach.trans (ih dz (by omega) z hz (by rw [hdz, hzl]))
      · rcases List.mem_cons.mp hz with hzv | hzS
        · rw [hzv] at hz_reach
          exact hz_reach
        · obtain ⟨dz, hdz, hdzlt⟩ := hS₀ z hzS
          rw [hdz] at hz_d
          have h1 : dz = llk st₂ w := Option.some.inj hz_d
          have h2 : dv ≤ llk st₂ w := by
            rw [← hllv]
            exact hseg_min w hw
          omega
  have hBr : ∀ w ∈ seg ++ [v], g.Reaches w v := by
    intro w hw
    rcases List.mem_append.mp hw with h | h
    · obtain ⟨d, hd, _⟩ := hseg_fresh w h
      exact hB d w h hd
    · rw [show w = v by simpa using h]
      exact SGraph.Reaches.refl g v
  -- edge facts out of the popped component: no edge escapes back into
  -- the surviving stack
  have hCedge : ∀ u ∈ seg ++ [v], ∀ y ∈ g.succ u,
      Visited st₂ y ∧ (onStk st₂ y = false ∨ y ∈ seg ++ [v]) := by
    intro u hu y hy
    have hull : dv ≤ llk st₂ u := hCll u hu
    have hfact : Visited st₂ y ∧ (onStk st₂ y = false ∨
        (∃ dy, dIx st₂ y = some dy ∧ llk st₂ u ≤ dy) ∨
        (llk st₂ u ≤ llk st₂ y ∧ y ∉ v :: grays₀)) := by
      rcases List.mem_append.mp hu with hus | huv
      · exact inv.edgeP u (inv.stack_vis u (hCstack u
          (List.mem_append.mpr (Or.inl hus)))).1 (hseg_ng u hus) y hy
      · rw [show u = v by simpa using huv] at hy ⊢
        exact hvedge y hy
    refine ⟨hfact.1, ?_⟩
    cases hON : onStk st₂ y with
    | false => exact Or.inl rfl
    | true =>
      refine Or.inr ?_
      have hy_stk := inv.stack_on y hON
      rw [hstk] at hy_stk
      rcases List.mem_append.mp hy_stk with h | h
      · exact List.mem_append.mpr (Or.inl h)
      · rcases List.mem_cons.mp h with hyv | hyS
        · exact List.mem_append.mpr (Or.inr (by simp [hyv]))
        · -- `y` survives on the stack below `v`: impossible
          exfalso
          obtain ⟨dy', hdy', hdy'lt⟩ := hS₀ y hyS
          rcases hfact.2 with hcase | hcase | hcase
          · rw [hON] at hcase
            exact absurd hcase (by simp)
          · obtain ⟨dy, hdy, hle⟩ := hcase
            rw [hdy'] at hdy
            have := Option.some.inj hdy
            omega
          · obtain ⟨hle, hng⟩ := hcase
            have hyf : llk st₂ y < dy' := inv.fp_ll_lt y
              (inv.stack_on y hON) hng dy' hdy'
            omega
  -- mutual reachability inside the component
  have hCmut : ∀ a ∈ seg ++ [v], ∀ b ∈ seg ++ [v], g.SameScc a b := by
    intro a ha b hb
    exact ⟨(hBr a ha).trans (hCreach b hb), (hBr b hb).trans (hCreach a ha)⟩
  -- maximality: any mutual-reachability partner of a popped node is
  -- itself popped
  have hvON : onStk st₂ v = true := (inv.stack_vis v hvstk).2
  have hCmax : ∀ a ∈ seg ++ [v], ∀ b : Nat, g.SameScc a b →
      b ∈ seg ++ [v] := by
    intro a ha b hab
    have hvb : g.SameScc v b :=
      SGraph.sameScc_trans ⟨hCreach a ha, hBr a ha⟩ hab
    have hQ : ∀ x : Nat, g.Reaches v x →
        (x ∈ seg ++ [v] ∨ (Visited st₂ x ∧ onStk st₂ x = false)) := by
      intro x hx
      induction hx with
      | refl => exact Or.inl (by simp)
      | tail hr he ih =>
        rcases ih with hC | hComp
        · have h := hCedge _ hC _ he
          rcases h.2 with h' | h'
          · exact Or.inr ⟨h.1, h'⟩
          · exact Or.inl h'
        · exact Or.inr (inv.comp_closed _ hComp.1 hComp.2 _ he)
    rcases hQ b hvb.1 with h | h
    · exact h
    · exfalso
      have hfin := completed_reach inv hvb.2 h
      rw [hvON] at hfin
      exact absurd hfin.2 (by simp)
  -- component members are visited, and their flags were set
  have hCvis : ∀ w ∈ seg ++ [v], Visited st₂ w ∧ onStk st₂ w = true :=
    fun w hw => inv.stack_vis w (hCstack w hw)
  -- surviving stack facts
  have hS₀stack : ∀ w ∈ S₀, w ∈ st₂.stack := by
    intro w hw
    rw [hstk]
    exact List.mem_append.mpr (Or.inr (List.mem_cons_of_mem _ hw))
  have hS₀notC : ∀ w ∈ S₀, w ∉ seg ++ [v] := by
    intro w hw hc
    exact hdisjC w hc hw
  have hndS₀ : S₀.Nodup := by
    have h := inv.stack_nodup
    rw [hstk] at h
    exact (List.Nodup.of_append_right h).of_cons
  have hvg : v ∉ grays₀ := by
    intro hc
    exact hvS₀ (hG₀ v hc)
  -- now each invariant field of the popped state
  refine ⟨?_, ?_, ?_, ?_, ?_, ?_, ?_, ?_, ?_, ?_, ?_, ?_, ?_, ?_, ?_,
    ?_, ?_, ?_⟩
  · intro w hw
    exact inv.vis_lt w ((popSt_vis ..).mp hw)
  · intro w d hd
    rw [popSt_dIx] at hd
    exact inv.idx_lt w d hd
  · intro w₁ w₂ d h₁ h₂
    rw [popSt_dIx] at h₁ h₂
    exact inv.idx_inj w₁ w₂ d h₁ h₂
  · intro w d hd
    rw [popSt_dIx] at hd
    rw [popSt_llk]
    exact inv.ll_le w d hd
  · intro w hw
    have hw' := hS₀stack w hw
    obtain ⟨h1, h2⟩ := inv.stack_vis w hw'
    exact ⟨(popSt_vis ..).mpr h1,
      by rw [popSt_onStk_not_mem st₂ S₀ (hS₀notC w hw)]; exact h2⟩
  · intro w hw
    by_cases hc : w ∈ seg ++ [v]
    · rw [popSt_onStk_mem st₂ S₀ hc] at hw
      exact absurd hw (by simp)
    · rw [popSt_onStk_not_mem st₂ S₀ hc] at hw
      have := inv.stack_on w hw
      rw [hstk] at this
      rcases List.mem_append.mp this with h | h
      · exact absurd (List.mem_append.mpr (Or.inl h)) hc
      · rcases List.mem_cons.mp h with h' | h'
        · exact absurd (List.mem_append.mpr (Or.inr (by simp [h']))) hc
        · exact h'
  · exact hndS₀
  · intro w hw
    exact hG₀ w hw
  · intro w hw hng d hd
    rw [popSt_dIx] at hd
    rw [popSt_llk]
    refine inv.fp_ll_lt w (hS₀stack w hw) ?_ d hd
    intro hc
    rcases List.mem_cons.mp hc with h | h
    · exact hvS₀ (h ▸ hw)
    · exact hng h
  · intro w hw
    obtain ⟨z, hz, hzd, hzr⟩ := inv.witness w (hS₀stack w hw)
    -- the witness has index `llk w < dv`, so it survives below `v`
    obtain ⟨d', hd', hd'lt⟩ := hS₀ w hw
    have hllw : llk st₂ w ≤ d' := inv.ll_le w d' hd'
    have hzS₀ : z ∈ S₀ := by
      rw [hstk] at hz
      rcases List.mem_append.mp hz with h | h
      · obtain ⟨dz, hdz, hdzgt⟩ := hseg_fresh z h
        rw [hdz] at hzd
        have := Option.some.inj hzd
        omega
      · rcases List.mem_cons.mp h with h' | h'
        · rw [h'] at hzd
          rw [hdv] at hzd
          have := Option.some.inj hzd
          omega
        · exact h'
    exact ⟨z, hzS₀, by rw [popSt_dIx, popSt_llk]; exact hzd, hzr⟩
  · -- edgeP
    intro u hu hng y hy
    rw [popSt_vis] at hu
    by_cases hc : u ∈ seg ++ [v]
    · have h := hCedge u hc y hy
      refine ⟨(popSt_vis ..).mpr h.1, Or.inl ?_⟩
      rcases h.2 with h' | h'
      · by_cases hyc : y ∈ seg ++ [v]
        · exact popSt_onStk_mem st₂ S₀ hyc
        · rw [popSt_onStk_not_mem st₂ S₀ hyc]
          exact h'
      · exact popSt_onStk_mem st₂ S₀ h'
    · have hung : u ∉ v :: grays₀ := by
        intro h
        rcases List.mem_cons.mp h with h' | h'
        · exact hc (List.mem_append.mpr (Or.inr (by simp [h'])))
        · exact hng h'
      obtain ⟨h1, h2⟩ := inv.edgeP u hu hung y hy
      refine ⟨(popSt_vis ..).mpr h1, ?_⟩
      rcases h2 with h | h | h
      · refine Or.inl ?_
        by_cases hyc : y ∈ seg ++ [v]
        · exact popSt_onStk_mem st₂ S₀ hyc
        · rw [popSt_onStk_not_mem st₂ S₀ hyc]
          exact h
      · obtain ⟨dy, hdy, hle⟩ := h
        exact Or.inr (Or.inl ⟨dy, by rw [popSt_dIx]; exact hdy,
          by rw [popSt_llk]; exact hle⟩)
      · obtain ⟨hle, hng'⟩ := h
        exact Or.inr (Or.inr ⟨by rw [popSt_llk, popSt_llk]; exact hle,
          fun hcy => hng' (List.mem_cons_of_mem _ hcy)⟩)
  · -- comp_flat
    intro w
    have hflat : (popSt st₂ (seg ++ [v]) S₀).sccs.flatten
        = st₂.sccs.flatten ++ (seg ++ [v]) := by
      show (st₂.sccs ++ [seg ++ [v]]).flatten = _
      rw [List.flatten_append]
      simp
    rw [hflat]
    constructor
    · intro ⟨h1, h2⟩
      rw [popSt_vis] at h1
      by_cases hc : w ∈ seg ++ [v]
      · exact List.mem_append.mpr (Or.inr hc)
      · rw [popSt_onStk_not_mem st₂ S₀ hc] at h2
        exact List.mem_append.mpr (Or.inl ((inv.comp_flat w).mp ⟨h1, h2⟩))
    · intro h
      rcases List.mem_append.mp h with h | h
      · have := (inv.comp_flat w).mpr h
        have hwc : w ∉ seg ++ [v] := by
          intro hc
          rw [(hCvis w hc).2] at this
          exact absurd this.2 (by simp)
        exact ⟨(popSt_vis ..).mpr this.1,
          by rw [popSt_onStk_not_mem st₂ S₀ hwc]; exact this.2⟩
      · exact ⟨(popSt_vis ..).mpr (hCvis w h).1, popSt_onStk_mem st₂ S₀ h⟩
  · -- flat_nodup
    show (st₂.sccs ++ [seg ++ [v]]).flatten.Nodup
    rw [List.flatten_append]
    simp only [List.flatten_cons, List.flatten_nil, List.append_nil]
    rw [List.nodup_append]
    refine ⟨inv.flat_nodup, ?_, ?_⟩
    · have h := inv.stack_nodup
      rw [hstk] at h
      have : (seg ++ [v]).Nodup := by
        refine @List.Nodup.of_append_left _ _ S₀ ?_
        rw [List.append_assoc]
        simpa using h
      exact this
    · intro w hwf hwc
      have := (inv.comp_flat w).mpr hwf
      rw [(hCvis w hwc).2] at this
      exact absurd this.2 (by simp)
  · -- comp_nonempty
    intro c hc
    show c ≠ []
    rcases List.mem_append.mp hc with h | h
    · exact inv.comp_nonempty c h
    · rw [show c = seg ++ [v] by simpa using h]
      simp
  · -- comp_mutual
    intro c hc a ha b hb
    rcases List.mem_append.mp hc with h | h
    · exact inv.comp_mutual c h a ha b hb
    · rw [show c = seg ++ [v] by simpa using h] at ha hb
      exact hCmut a ha b hb
  · -- comp_max
    intro c hc a ha b hab
    rcases List.mem_append.mp hc with h | h
    · exact inv.comp_max c h a ha b hab
    · rw [show c = seg ++ [v] by simpa using h] at ha ⊢
      exact hCmax a ha b hab
  · -- comp_closed
    intro u hu hon y hy
    rw [popSt_vis] at hu
    by_cases hc : u ∈ seg ++ [v]
    · have h := hCedge u hc y hy
      refine ⟨(popSt_vis ..).mpr h.1, ?_⟩
      rcases h.2 with h' | h'
      · by_cases hyc : y ∈ seg ++ [v]
        · exact popSt_onStk_mem st₂ S₀ hyc
        · rw [popSt_onStk_not_mem st₂ S₀ hyc]
          exact h'
      · exact popSt_onStk_mem st₂ S₀ h'
    · rw [popSt_onStk_not_mem st₂ S₀ hc] at hon
      obtain ⟨h1, h2⟩ := inv.comp_closed u hu hon y hy
      have hyc : y ∉ seg ++ [v] := by
        intro hcy
        rw [(hCvis y hcy).2] at h2
        exact absurd h2 (by simp)
      exact ⟨(popSt_vis ..).mpr h1,
        by rw [popSt_onStk_not_mem st₂ S₀ hyc]; exact h2⟩
  · -- comp_order
    intro i j hi hj hij u hu y hy hyj
    have hlen : (popSt st₂ (seg ++ [v]) S₀).sccs.length
        = st₂.sccs.length + 1 := by
      show (st₂.sccs ++ [seg ++ [v]]).length = _
      simp
    have hget : ∀ (k : Nat) (hk : k <
        (popSt st₂ (seg ++ [v]) S₀).sccs.length),
        (popSt st₂ (seg ++ [v]) S₀).sccs.get ⟨k, hk⟩
        = if hk' : k < st₂.sccs.length then st₂.sccs.get ⟨k, hk'⟩
          else seg ++ [v] := by
      intro k hk
      show (st₂.sccs ++ [seg ++ [v]]).get ⟨k, _⟩ = _
      by_cases hk' : k < st₂.sccs.length
      · rw [dif_pos hk']
        have := @List.getElem_append_left _ k st₂.sccs [seg ++ [v]] hk'
          (by show k < (st₂.sccs ++ [seg ++ [v]]).length; exact hk)
        simpa using this
      · rw [dif_neg hk']
        rw [hlen] at hk
        have hkeq : k = st₂.sccs.length := by omega
        have := @List.getElem_append_right _ st₂.sccs [seg ++ [v]] k
          (by omega)
          (by simp only [List.length_append, List.length_cons,
            List.length_nil]; omega)
        rw [show (List.get (st₂.sccs ++ [seg ++ [v]]) ⟨k, _⟩)
          = (st₂.sccs ++ [seg ++ [v]])[k] from rfl, this]
        simp [hkeq]
    rw [hlen] at hi hj
    rw [hget i (by rw [hlen]; omega)] at hu
    rw [hget j (by rw [hlen]; omega)] at hyj
    by_cases hi' : i < st₂.sccs.length
    · rw [dif_pos hi'] at hu
      by_cases hj' : j < st₂.sccs.length
      · rw [dif_pos hj'] at hyj
        exact inv.comp_order i j hi' hj' hij u hu y hy hyj
      · -- old component with an edge into the popped one: impossible
        exfalso
        rw [dif_neg hj'] at hyj
        have hcompu : Visited st₂ u ∧ onStk st₂ u = false :=
          (inv.comp_flat u).mpr (List.mem_flatten.mpr
            ⟨_, List.get_mem .., hu⟩)
        have := inv.comp_closed u hcompu.1 hcompu.2 y hy
        rw [(hCvis y hyj).2] at this
        exact absurd this.2 (by simp)
    · rw [dif_neg hi'] at hu
      by_cases hj' : j < st₂.sccs.length
      · omega
      · omega

/-- A non-popping `visit` completion: `v` leaves the gray list but stays
on the stack; its lowlink is strictly below its index and all its edges
have been processed. -/
theorem ungray_inv {g : SGraph} {G : List Nat} {st : TarjanSt}
    {v dv : Nat} (inv : TInv g (v :: G) st)
    (hdv : dIx st v = some dv)
    (hll : llk st v < dv)
    (hvedge : ∀ y ∈ g.succ v, Visited st y ∧ (onStk st y = false ∨
      (∃ dy, dIx st y = some dy ∧ llk st v ≤ dy) ∨
      (llk st v ≤ llk st y ∧ y ∉ v :: G))) :
    TInv g G st := by
  refine ⟨inv.vis_lt, inv.idx_lt, inv.idx_inj, inv.ll_le, inv.stack_vis,
    inv.stack_on, inv.stack_nodup, ?_, ?_, inv.witness, ?_,
    inv.comp_flat, inv.flat_nodup, inv.comp_nonempty, inv.comp_mutual,
    inv.comp_max, inv.comp_closed, inv.comp_order⟩
  · intro w hw
    exact inv.grays_sub w (List.mem_cons_of_mem _ hw)
  · intro w hw hng d hd
    by_cases hwv : w = v
    · rw [hwv] at hd ⊢
      rw [hdv] at hd
      rw [← Option.some.inj hd]
      exact hll
    · refine inv.fp_ll_lt w hw ?_ d hd
      intro hc
      rcases List.mem_cons.mp hc with h | h
      · exact hwv h
      · exact hng h
  · intro u hu hng y hy
    by_cases huv : u = v
    · rw [huv]
      obtain ⟨h1, h2⟩ := hvedge y (huv ▸ hy)
      refine ⟨h1, ?_⟩
      rcases h2 with h | h | h
      · exact Or.inl h
      · exact Or.inr (Or.inl h)
      · exact Or.inr (Or.inr ⟨h.1,
          fun hc => h.2 (List.mem_cons_of_mem _ hc)⟩)
    · obtain ⟨h1, h2⟩ := inv.edgeP u hu (by
        intro hc
        rcases List.mem_cons.mp hc with h | h
        · exact huv h
        · exact hng h) y hy
      refine ⟨h1, ?_⟩
      rcases h2 with h | h | h
      · exact Or.inl h
      · exact Or.inr (Or.inl h)
      · exact Or.inr (Or.inr ⟨h.1,
          fun hc => h.2 (List.mem_cons_of_mem _ hc)⟩)

/-- The state written by the lowlink fold of `visit_list`. -/
def foldSt (st : TarjanSt) (v x : Nat) : TarjanSt :=
  { states := Function.update st.states v
      ⟨(st.states v).index, x, (st.states v).onStack⟩,
    stack := st.stack, counter := st.counter, sccs := st.sccs }

theorem foldSt_dIx (st : TarjanSt) (v x w : Nat) :
    dIx (foldSt st v x) w = dIx st w := by
  unfold foldSt dIx
  by_cases hwv : w = v
  · rw [hwv]
    simp only [Function.update_same]
  · simp only [Function.update_noteq hwv]

theorem foldSt_onStk (st : TarjanSt) (v x w : Nat) :
    onStk (foldSt st v x) w = onStk st w := by
  unfold foldSt onStk
  by_cases hwv : w = v
  · rw [hwv]
    simp only [Function.update_same]
  · simp only [Function.update_noteq hwv]

theorem foldSt_vis (st : TarjanSt) (v x w : Nat) :
    Visited (foldSt st v x) w ↔ Visited st w := by
  unfold Visited
  rw [foldSt_dIx]

theorem foldSt_llk_ne (st : TarjanSt) (v x w : Nat) (h : w ≠ v) :
    llk (foldSt st v x) w = llk st w := by
  unfold foldSt llk
  simp only [Function.update_noteq h]

theorem foldSt_llk_self (st : TarjanSt) (v x : Nat) :
    llk (foldSt st v x) v = x := by
  unfold foldSt llk
  simp only [Function.update_same]

theorem foldSt_states_ne (st : TarjanSt) (v x w : Nat) (h : w ≠ v) :
    (foldSt st v x).states w = st.states w := by
  unfold foldSt
  simp only [Function.update_noteq h]

/-- The lowlink fold of `visit_list`: replacing the gray node `v`'s
lowlink by a smaller value that still has an on-stack reachable witness
preserves the invariant. -/
theorem lower_ll_inv {g : SGraph} {Gall : List Nat} {st : TarjanSt}
    {v x : Nat} (inv : TInv g Gall st) (hgray : v ∈ Gall)
    (hx : x ≤ llk st v)
    (hwit : ∃ z ∈ st.stack, dIx st z = some x ∧ g.Reaches v z) :
    TInv g Gall (foldSt st v x) := by
  have hvstk : v ∈ st.stack := inv.grays_sub v hgray
  have hLlle : ∀ w, llk (foldSt st v x) w ≤ llk st w := by
    intro w
    by_cases hwv : w = v
    · rw [hwv, foldSt_llk_self]
      exact hx
    · rw [foldSt_llk_ne st v x w hwv]
  have hstk : (foldSt st v x).stack = st.stack := rfl
  have hsccs : (foldSt st v x).sccs = st.sccs := rfl
  refine ⟨?_, ?_, ?_, ?_, ?_, ?_, ?_, ?_, ?_, ?_, ?_, ?_, ?_, ?_, ?_,
    ?_, ?_, ?_⟩
  · intro w hw
    exact inv.vis_lt w ((foldSt_vis ..).mp hw)
  · intro w d hd
    rw [foldSt_dIx] at hd
    exact inv.idx_lt w d hd
  · intro w₁ w₂ d h₁ h₂
    rw [foldSt_dIx] at h₁ h₂
    exact inv.idx_inj w₁ w₂ d h₁ h₂
  · intro w d hd
    rw [foldSt_dIx] at hd
    exact le_trans (hLlle w) (inv.ll_le w d hd)
  · intro w hw
    rw [hstk] at hw
    obtain ⟨h1, h2⟩ := inv.stack_vis w hw
    exact ⟨(foldSt_vis ..).mpr h1, by rw [foldSt_onStk]; exact h2⟩
  · intro w hw
    rw [foldSt_onStk] at hw
    rw [hstk]
    exact inv.stack_on w hw
  · rw [hstk]
    exact inv.stack_nodup
  · intro w hw
    rw [hstk]
    exact inv.grays_sub w hw
  · intro w hw hng d hd
    have hwv : w ≠ v := fun hc => hng (hc ▸ hgray)
    rw [foldSt_dIx] at hd
    rw [foldSt_llk_ne st v x w hwv]
    rw [hstk] at hw
    exact inv.fp_ll_lt w hw hng d hd
  · intro w hw
    rw [hstk] at hw
    by_cases hwv : w = v
    · obtain ⟨z, hz, hzd, hzr⟩ := hwit
      refine ⟨z, by rw [hstk]; exact hz, ?_, by rw [hwv]; exact hzr⟩
      rw [foldSt_dIx, hwv, foldSt_llk_self]
      exact hzd
    · obtain ⟨z, hz, hzd, hzr⟩ := inv.witness w hw
      refine ⟨z, by rw [hstk]; exact hz, ?_, hzr⟩
      rw [foldSt_dIx, foldSt_llk_ne st v x w hwv]
      exact hzd
  · intro u hu hng y hy
    have huv : u ≠ v := fun hc => hng (hc ▸ hgray)
    obtain ⟨h1, h2⟩ := inv.edgeP u ((foldSt_vis ..).mp hu) hng y hy
    refine ⟨(foldSt_vis ..).mpr h1, ?_⟩
    rcases h2 with h | h | h
    · exact Or.inl (by rw [foldSt_onStk]; exact h)
    · obtain ⟨dy, hdy, hle⟩ := h
      exact Or.inr (Or.inl ⟨dy, by rw [foldSt_dIx]; exact hdy,
        by rw [foldSt_llk_ne st v x u huv]; exact hle⟩)
    · obtain ⟨hle, hng'⟩ := h
      have hyv : y ≠ v := fun hc => hng' (hc ▸ hgray)
      refine Or.inr (Or.inr ⟨?_, hng'⟩)
      rw [foldSt_llk_ne st v x u huv, foldSt_llk_ne st v x y hyv]
      exact hle
  · intro w
    rw [hsccs]
    constructor
    · intro ⟨h1, h2⟩
      rw [foldSt_onStk] at h2
      exact (inv.comp_flat w).mp ⟨(foldSt_vis ..).mp h1, h2⟩
    · intro h
      obtain ⟨h1, h2⟩ := (inv.comp_flat w).mpr h
      exact ⟨(foldSt_vis ..).mpr h1, by rw [foldSt_onStk]; exact h2⟩
  · rw [hsccs]
    exact inv.flat_nodup
  · rw [hsccs]
    exact inv.comp_nonempty
  · rw [hsccs]
    exact inv.comp_mutual
  · rw [hsccs]
    exact inv.comp_max
  · intro u hu hon y hy
    rw [foldSt_onStk] at hon
    obtain ⟨h1, h2⟩ := inv.comp_closed u ((foldSt_vis ..).mp hu) hon y hy
    exact ⟨(foldSt_vis ..).mpr h1, by rw [foldSt_onStk]; exact h2⟩
  · exact inv.comp_order

/-- Bookkeeping for the stack segment pushed above the gray node `v`
during its `visit`: fresh nodes (not visited at `v`'s entry state
`stE`), discovered after `v`, not gray, dominated by `v`'s lowlink, and
reachable from `v`. -/
def SegOk (g : SGraph) (v dv : Nat) (grays₀ : List Nat)
    (stE st : TarjanSt) (seg : List Nat) : Prop :=
  ∀ w ∈ seg, (∃ d, dIx st w = some d ∧ dv < d) ∧ (w ∉ v :: grays₀) ∧
    llk st v ≤ llk st w ∧ g.Reaches v w ∧ ¬ Visited stE w

/-- History facts of a `visit v` run relative to its entry state `stE`:
previously visited nodes are untouched, discovery only grows, and newly
discovered nodes got fresh indices and are reachable from `v`. -/
def HistOk (g : SGraph) (v : Nat) (stE st : TarjanSt) : Prop :=
  (∀ w, Visited stE w → w ≠ v → st.states w = stE.states w) ∧
  (∀ w, Visited stE w → Visited st w) ∧
  stE.counter ≤ st.counter ∧
  (∀ w, ¬ Visited stE w → Visited st w →
    (∃ d, dIx st w = some d ∧ stE.counter ≤ d) ∧ g.Reaches v w)

/-- The postcondition of a successful `visit g fuel v st = some st'`
relative to the gray context `G` of the caller. -/
def VisitPost (g : SGraph) (G : List Nat) (v : Nat)
    (st st' : TarjanSt) : Prop :=
  TInv g G st' ∧
  dIx st' v = some st.counter ∧
  (∀ w, Visited st w → st'.states w = st.states w) ∧
  (∀ w, Visited st w → Visited st' w) ∧
  (∀ w, ¬ Visited st w → Visited st' w →
    (∃ d, dIx st' w = some d ∧ st.counter ≤ d) ∧ g.Reaches v w) ∧
  st.counter < st'.counter ∧
  unvis g st' < unvis g st ∧
  ((st'.stack = st.stack ∧ onStk st' v = false ∧
      llk st' v = st.counter) ∨
   (∃ seg, st'.stack = seg ++ v :: st.stack ∧ onStk st' v = true ∧
     llk st' v < st.counter ∧
     ∀ w ∈ seg, ¬ Visited st w ∧
       (∃ d, dIx st' w = some d ∧ st.counter < d) ∧
       llk st' v ≤ llk st' w ∧ g.Reaches v w ∧ w ∉ G ∧ w ≠ v))

theorem visitList_nil (rec : Nat → TarjanSt → Option TarjanSt)
    (v : Nat) (st : TarjanSt) : visitList rec v [] st = some st := rfl

theorem visitList_cons (rec : Nat → TarjanSt → Option TarjanSt)
    (v w : Nat) (ws : List Nat) (st : TarjanSt) :
    visitList rec v (w :: ws) st =
      (match (st.states w).index with
      | none =>
        match rec w st with
        | none => none
        | some st' =>
          visitList rec v ws
            (foldSt st' v
              (min (st'.states v).lowlink (st'.states w).lowlink))
      | some dw =>
        if (st.states w).onStack then
          visitList rec v ws
            (foldSt st v (min (st.states v).lowlink dw))
        else visitList rec v ws st) := rfl

theorem unvis_foldSt (g : SGraph) (st : TarjanSt) (v x : Nat) :
    unvis g (foldSt st v x) = unvis g st := by
  unfold unvis
  congr 1
  refine List.filter_congr ?_
  intro a _
  rw [foldSt_dIx]

/-- Correctness of the successor loop of `visit`, assuming the
recursive-call specification at the next smaller fuel: it succeeds,
preserves the invariant and the in-progress stack discipline, only
lowers `v`'s lowlink (always with an on-stack witness), and establishes
the processed-edge facts for every listed successor. -/
theorem visitList_spec {g : SGraph} (hok : g.Ok)
    {grays₀ : List Nat} {v dv : Nat} {S₀ : List Nat} {stE : TarjanSt}
    {f : Nat} {rec : Nat → TarjanSt → Option TarjanSt}
    (hrec : ∀ (w : Nat) (st : TarjanSt), TInv g (v :: grays₀) st →
      ¬ Visited st w → w < g.n → unvis g st < f →
      ∃ st', rec w st = some st' ∧ VisitPost g (v :: grays₀) w st st') :
    ∀ (ws : List Nat) (st : TarjanSt) (seg : List Nat),
      TInv g (v :: grays₀) st →
      (∀ y ∈ ws, y ∈ g.succ v) →
      v < g.n →
      dIx st v = some dv →
      dv = stE.counter →
      onStk st v = true →
      unvis g st < f →
      st.stack = seg ++ v :: S₀ →
      SegOk g v dv grays₀ stE st seg →
      HistOk g v stE st →
      ¬ Visited stE v →
      ∃ st', visitList rec v ws st = some st' ∧
        TInv g (v :: grays₀) st' ∧
        dIx st' v = some dv ∧
        onStk st' v = true ∧
        llk st' v ≤ llk st v ∧
        unvis g st' ≤ unvis g st ∧
        (∀ u, Visited st u → u ≠ v → st'.states u = st.states u) ∧
        (∀ u, Visited st u → Visited st' u) ∧
        st.counter ≤ st'.counter ∧
        HistOk g v stE st' ∧
        (∃ seg', st'.stack = seg' ++ v :: S₀ ∧
          SegOk g v dv grays₀ stE st' seg') ∧
        (∀ y ∈ ws, Visited st' y ∧ (onStk st' y = false ∨
          (∃ dy, dIx st' y = some dy ∧ llk st' v ≤ dy) ∨
          (llk st' v ≤ llk st' y ∧ y ∉ v :: grays₀))) := by
  intro ws
  induction ws with
  | nil =>
    intro st seg inv hsucc hvn hdIx hanchor hvOn hfuel hstk hSeg hHist
      hEv
    exact ⟨st, rfl, inv, hdIx, hvOn, le_refl _, le_refl _,
      fun u _ _ => rfl, fun u h => h, le_refl _, hHist,
      ⟨seg, hstk, hSeg⟩, fun y hy => absurd hy (by simp)⟩
  | cons w ws' ih =>
    intro st seg inv hsucc hvn hdIx hanchor hvOn hfuel hstk hSeg hHist
      hEv
    have hwsucc : w ∈ g.succ v := hsucc w (by simp)
    have hwn : w < g.n := hok v hvn w hwsucc
    have hsucc' : ∀ y ∈ ws', y ∈ g.succ v :=
      fun y hy => hsucc y (List.mem_cons_of_mem _ hy)
    have hvstk : v ∈ st.stack := inv.grays_sub v (by simp)
    have hVv : Visited st v := by
      unfold Visited
      rw [hdIx]
      simp
    have hdvlt : dv < st.counter := inv.idx_lt v dv hdIx
    have hllle : llk st v ≤ dv := inv.ll_le v dv hdIx
    rw [visitList_cons]
    cases hwi : (st.states w).index with
    | some dw =>
      have hdw : dIx st w = some dw := hwi
      have hVw : Visited st w := by
        unfold Visited
        rw [hdw]
        simp
      cases hON : (st.states w).onStack with
      | true =>
        -- frond: `w` is a visited on-stack successor; fold `index w`
        have hONw : onStk st w = true := hON
        have hwstk : w ∈ st.stack := inv.stack_on w hONw
        have hx_le : min (llk st v) dw ≤ llk st v := min_le_left ..
        have hwit : ∃ z ∈ st.stack,
            dIx st z = some (min (llk st v) dw) ∧ g.Reaches v z := by
          rcases le_total (llk st v) dw with hcmp | hcmp
          · rw [min_eq_left hcmp]
            exact inv.witness v hvstk
          · rw [min_eq_right hcmp]
            exact ⟨w, hwstk, hdw, SGraph.Reaches.edge hwsucc⟩
        have hinv'' : TInv g (v :: grays₀)
            (foldSt st v (min (llk st v) dw)) :=
          lower_ll_inv inv (by simp) hx_le hwit
        have hseg'' : SegOk g v dv grays₀ stE
            (foldSt st v (min (llk st v) dw)) seg := by
          intro u hu
          obtain ⟨⟨d, hd, hdgt⟩, hng, hll, hre, hnE⟩ := hSeg u hu
          have huv : u ≠ v := fun hc => hng (by rw [hc]; simp)
          refine ⟨⟨d, by rw [foldSt_dIx]; exact hd, hdgt⟩, hng, ?_,
            hre, hnE⟩
          rw [foldSt_llk_self, foldSt_llk_ne st _ _ u huv]
          exact le_trans hx_le hll
        have hhist'' : HistOk g v stE
            (foldSt st v (min (llk st v) dw)) := by
          obtain ⟨h1, h2, h3, h4⟩ := hHist
          refine ⟨?_, ?_, h3, ?_⟩
          · intro u hu huv
            rw [foldSt_states_ne st _ _ u huv]
            exact h1 u hu huv
          · intro u hu
            exact (foldSt_vis ..).mpr (h2 u hu)
          · intro u hu hu'
            rw [foldSt_vis] at hu'
            obtain ⟨⟨d, hd, hdge⟩, hre⟩ := h4 u hu hu'
            exact ⟨⟨d, by rw [foldSt_dIx]; exact hd, hdge⟩, hre⟩
        obtain ⟨st', heq, hinv', hdIx', hvOn', hll', hunvis', hframe',
            hmono', hctr', hhist', hseg', hedge'⟩ :=
          ih (foldSt st v (min (llk st v) dw)) seg hinv'' hsucc' hvn
            (by rw [foldSt_dIx]; exact hdIx) hanchor
            (by rw [foldSt_onStk]; exact hvOn)
            (by rw [unvis_foldSt]; exact hfuel)
            (by show st.stack = _; exact hstk) hseg'' hhist'' hEv
        have hdIxw' : dIx st' w = some dw := by
          by_cases hwv : w = v
          · rw [hwv] at hdw ⊢
            rw [hdIx] at hdw
            rw [hdIx']
            exact hdw
          · have := hframe' w ((foldSt_vis ..).mpr hVw) hwv
            unfold dIx
            rw [this, foldSt_states_ne st _ _ w hwv]
            exact hdw
        refine ⟨st', ?_, hinv', hdIx', hvOn', ?_, ?_, ?_, ?_, ?_,
          hhist', hseg', ?_⟩
        · exact heq
        · exact le_trans hll' (by rw [foldSt_llk_self]; exact hx_le)
        · rw [unvis_foldSt] at hunvis'
          exact hunvis'
        · intro u hu huv
          rw [hframe' u ((foldSt_vis ..).mpr hu) huv,
            foldSt_states_ne st _ _ u huv]
        · intro u hu
          exact hmono' u ((foldSt_vis ..).mpr hu)
        · exact hctr'
        · intro y hy
          rcases List.mem_cons.mp hy with hyw | hyt
          · rw [hyw]
            constructor
            · exact hmono' w ((foldSt_vis ..).mpr hVw)
            · refine Or.inr (Or.inl ⟨dw, hdIxw', ?_⟩)
              exact le_trans hll'
                (by rw [foldSt_llk_self]; exact min_le_right ..)
          · exact hedge' y hyt
      | false =>
        -- `w` is already completed: no state change
        have hONw : onStk st w = false := hON
        obtain ⟨st', heq, hinv', hdIx', hvOn', hll', hunvis', hframe',
            hmono', hctr', hhist', hseg', hedge'⟩ :=
          ih st seg inv hsucc' hvn hdIx hanchor hvOn hfuel hstk hSeg
            hHist hEv
        simp only []
        rw [if_neg (by simp)]
        have hwv : w ≠ v := by
          intro hc
          rw [hc] at hONw
          rw [hvOn] at hONw
          exact absurd hONw (by simp)
        refine ⟨st', heq, hinv', hdIx', hvOn', hll', hunvis', hframe',
          hmono', hctr', hhist', hseg', ?_⟩
        intro y hy
        rcases List.mem_cons.mp hy with hyw | hyt
        · rw [hyw]
          refine ⟨hmono' w hVw, Or.inl ?_⟩
          unfold onStk
          rw [hframe' w hVw hwv]
          exact hONw
        · exact hedge' y hyt
    | none =>
      -- tree edge: recurse into the unvisited successor
      have hnw : ¬ Visited st w := by
        unfold Visited dIx
        rw [hwi]
        simp
      obtain ⟨stw, hrecw, Pinv, Pdix, Pframe, Pmono, Pnew, Pctr,
        Punvis, Pstack⟩ := hrec w st inv hnw hwn hfuel
      have hwv : w ≠ v := fun hc => hnw (hc ▸ hVv)
      have hsv : stw.states v = st.states v := Pframe v hVv
      have hdIxw : dIx stw v = some dv := by
        unfold dIx
        rw [hsv]
        exact hdIx
      have hllw : llk stw v = llk st v := by
        unfold llk
        rw [hsv]
      have hOnw : onStk stw v = true := by
        unfold onStk
        rw [hsv]
        exact hvOn
      have hx_le : min (llk stw v) (llk stw w) ≤ llk stw v :=
        min_le_left ..
      have hwit : ∃ z ∈ stw.stack,
          dIx stw z = some (min (llk stw v) (llk stw w)) ∧
          g.Reaches v z := by
        rcases Pstack with ⟨hsame, hwoff, hllctr⟩ | ⟨segw, hsw, hwon,
            hllw2, hsegw⟩
        · -- the child popped its own component: the minimum is `v`'s
          have hmin : min (llk stw v) (llk stw w) = llk stw v := by
            rw [hllctr, hllw]
            exact min_eq_left (by omega)
          rw [hmin, hllw]
          obtain ⟨z, hz, hzd, hzr⟩ := inv.witness v hvstk
          have hVz : Visited st z := (inv.stack_vis z hz).1
          refine ⟨z, by rw [hsame]; exact hz, ?_, hzr⟩
          unfold dIx
          rw [Pframe z hVz]
          exact hzd
        · rcases le_total (llk stw v) (llk stw w) with hcmp | hcmp
          · rw [min_eq_left hcmp, hllw]
            obtain ⟨z, hz, hzd, hzr⟩ := inv.witness v hvstk
            have hVz : Visited st z := (inv.stack_vis z hz).1
            refine ⟨z, ?_, ?_, hzr⟩
            · rw [hsw]
              exact List.mem_append.mpr (Or.inr
                (List.mem_cons_of_mem _ hz))
            · unfold dIx
              rw [Pframe z hVz]
              exact hzd
          · rw [min_eq_right hcmp]
            have hwstkw : w ∈ stw.stack := Pinv.stack_on w hwon
            obtain ⟨z, hz, hzd, hzr⟩ := Pinv.witness w hwstkw
            exact ⟨z, hz, hzd,
              (SGraph.Reaches.edge hwsucc).trans hzr⟩
      have hinv'' : TInv g (v :: grays₀)
          (foldSt stw v (min (llk stw v) (llk stw w))) :=
        lower_ll_inv Pinv (by simp) hx_le hwit
      -- the new segment above `v`
      obtain ⟨seg'', hstk'', hseg''⟩ : ∃ seg'',
          (foldSt stw v (min (llk stw v) (llk stw w))).stack
            = seg'' ++ v :: S₀ ∧
          SegOk g v dv grays₀ stE
            (foldSt stw v (min (llk stw v) (llk stw w))) seg'' := by
        have hsegold : ∀ u ∈ seg,
            (∃ d, dIx (foldSt stw v (min (llk stw v) (llk stw w))) u
              = some d ∧ dv < d) ∧ u ∉ v :: grays₀ ∧
            llk (foldSt stw v (min (llk stw v) (llk stw w))) v
              ≤ llk (foldSt stw v (min (llk stw v) (llk stw w))) u ∧
            g.Reaches v u ∧ ¬ Visited stE u := by
          intro u hu
          obtain ⟨⟨d, hd, hdgt⟩, hng, hll, hre, hnE⟩ := hSeg u hu
          have huv : u ≠ v := fun hc => hng (by rw [hc]; simp)
          have hVu : Visited st u := (inv.stack_vis u
            (by rw [hstk]; exact List.mem_append.mpr (Or.inl hu))).1
          have hrecu : (foldSt stw v
              (min (llk stw v) (llk stw w))).states u = st.states u := by
            rw [foldSt_states_ne stw _ _ u huv]
            exact Pframe u hVu
          refine ⟨⟨d, by unfold dIx; rw [hrecu]; exact hd, hdgt⟩, hng,
            ?_, hre, hnE⟩
          have h1 : llk (foldSt stw v (min (llk stw v) (llk stw w))) u
              = llk st u := congrArg TarjanNodeState.lowlink hrecu
          rw [h1, foldSt_llk_self]
          exact le_trans (by rw [hllw]; exact min_le_left ..) hll
        rcases Pstack with ⟨hsame, hwoff, hllctr⟩ | ⟨segw, hsw, hwon,
            hllw2, hsegw⟩
        · refine ⟨seg, ?_, hsegold⟩
          show stw.stack = _
          rw [hsame]
          exact hstk
        · refine ⟨segw ++ w :: seg, ?_, ?_⟩
          · show stw.stack = _
            rw [hsw, hstk]
            simp
          · intro u hu
            rcases List.mem_append.mp hu with husw | hucons
            · obtain ⟨hnu, ⟨d, hd, hdgt⟩, hllu, hru, hngu, hnv⟩ :=
                hsegw u husw
              have huv : u ≠ v := fun hc => hngu (by rw [hc]; simp)
              refine ⟨⟨d, by rw [foldSt_dIx]; exact hd, by omega⟩,
                hngu, ?_, (SGraph.Reaches.edge hwsucc).trans hru,
                fun hc => hnu ((hHist.2.1) u hc)⟩
              rw [foldSt_llk_self, foldSt_llk_ne stw _ _ u huv]
              exact le_trans (min_le_right ..) hllu
            · rcases List.mem_cons.mp hucons with huw | huseg
              · rw [huw]
                refine ⟨⟨st.counter, by rw [foldSt_dIx]; exact Pdix,
                    by omega⟩, ?_, ?_, SGraph.Reaches.edge hwsucc,
                  fun hc => hnw ((hHist.2.1) w hc)⟩
                · intro hc
                  rcases List.mem_cons.mp hc with hcv | hcg
                  · exact hwv hcv
                  · exact hnw (inv.stack_vis w (inv.grays_sub w
                      (List.mem_cons_of_mem _ hcg))).1
                · rw [foldSt_llk_self, foldSt_llk_ne stw _ _ w hwv]
                  exact min_le_right ..
              · exact hsegold u huseg
      have hVstw : Visited stw w := by
        unfold Visited
        rw [Pdix]
        simp
      have hhist'' : HistOk g v stE
          (foldSt stw v (min (llk stw v) (llk stw w))) := by
        obtain ⟨h1, h2, h3, h4⟩ := hHist
        refine ⟨?_, ?_, ?_, ?_⟩
        · intro u hu huv
          rw [foldSt_states_ne stw _ _ u huv,
            Pframe u (h2 u hu)]
          exact h1 u hu huv
        · intro u hu
          exact (foldSt_vis ..).mpr (Pmono u (h2 u hu))
        · show stE.counter ≤ stw.counter
          omega
        · intro u hu hu'
          rw [foldSt_vis] at hu'
          by_cases hVu : Visited st u
          · by_cases huv : u = v
            · refine ⟨⟨dv, ?_, le_of_eq hanchor.symm⟩, ?_⟩
              · rw [huv, foldSt_dIx]
                exact hdIxw
              · rw [huv]
                exact SGraph.Reaches.refl g v
            · obtain ⟨⟨d, hd, hge⟩, hre⟩ := h4 u hu hVu
              refine ⟨⟨d, ?_, hge⟩, hre⟩
              unfold dIx
              rw [foldSt_states_ne stw _ _ u huv, Pframe u hVu]
              exact hd
          · obtain ⟨⟨d, hd, hge⟩, hrw⟩ := Pnew u hVu hu'
            refine ⟨⟨d, by rw [foldSt_dIx]; exact hd, by omega⟩,
              (SGraph.Reaches.edge hwsucc).trans hrw⟩
      obtain ⟨st', heq, hinv', hdIx', hvOn', hll', hunvis', hframe',
          hmono', hctr', hhist', hseg', hedge'⟩ :=
        ih (foldSt stw v (min (llk stw v) (llk stw w))) seg'' hinv''
          hsucc' hvn (by rw [foldSt_dIx]; exact hdIxw) hanchor
          (by rw [foldSt_onStk]; exact hOnw)
          (by rw [unvis_foldSt]; omega)
          hstk'' hseg'' hhist'' hEv
      simp only []
      rw [hrecw]
      simp only []
      have hllchain : llk st' v ≤ llk st v := by
        refine le_trans hll' ?_
        rw [foldSt_llk_self]
        exact le_trans (min_le_left ..) (le_of_eq hllw)
      refine ⟨st', heq, hinv', hdIx', hvOn', hllchain, ?_, ?_, ?_,
        ?_, hhist', hseg', ?_⟩
      · rw [unvis_foldSt] at hunvis'
        exact le_trans hunvis' (le_of_lt Punvis)
      · intro u hu huv
        rw [hframe' u ((foldSt_vis ..).mpr (Pmono u hu)) huv,
          foldSt_states_ne stw _ _ u huv]
        exact Pframe u hu
      · intro u hu
        exact hmono' u ((foldSt_vis ..).mpr (Pmono u hu))
      · exact le_trans (le_of_lt Pctr) hctr'
      · intro y hy
        rcases List.mem_cons.mp hy with hyw | hyt
        · rw [hyw]
          refine ⟨hmono' w ((foldSt_vis ..).mpr hVstw),
            Or.inr (Or.inl ⟨st.counter, ?_, ?_⟩)⟩
          · unfold dIx
            rw [hframe' w ((foldSt_vis ..).mpr hVstw) hwv,
              foldSt_states_ne stw _ _ w hwv]
            exact Pdix
          · have hdvc : dv < st.counter := hdvlt
            omega
        · exact hedge' y hyt

theorem popSt_states_not_mem (st : TarjanSt) {C : List Nat}
    (S₀ : List Nat) {w : Nat} (h : w ∉ C) :
    (popSt st C S₀).states w = st.states w := by
  unfold popSt
  simp [h]

theorem visit_succ (g : SGraph) (f v : Nat) (st : TarjanSt) :
    visit g (f + 1) v st =
      (match visitList (fun w s => visit g f w s) v (g.succ v)
          (pushSt st v) with
      | none => none
      | some st₂ =>
        match (st₂.states v).index with
        | none => none
        | some dv =>
          if (st₂.states v).lowlink = dv then
            match popScc v st₂.stack st₂.states [] with
            | none => none
            | some (scc, stack', states') =>
              some { states := states', stack := stack',
                     counter := st₂.counter, sccs := st₂.sccs ++ [scc] }
          else some st₂) := rfl

/-- Full specification of a successful `visit`: on a well-formed
successor map, a `visit` call on an unvisited node with enough fuel
succeeds and satisfies the visit postcondition relative to the caller's
gray context. -/
theorem visit_spec {g : SGraph} (hok : g.Ok) :
    ∀ (f : Nat) (G : List Nat) (v : Nat) (st : TarjanSt),
      TInv g G st → ¬ Visited st v → v < g.n → unvis g st < f →
      ∃ st', visit g f v st = some st' ∧ VisitPost g G v st st' := by
  intro f
  induction f with
  | zero =>
    intro G v st _ _ _ hfuel
    exact absurd hfuel (Nat.not_lt_zero _)
  | succ f ih =>
    intro G v st inv hv hvn hfuel
    have inv₁ : TInv g (v :: G) (pushSt st v) := mark_push_inv inv hv hvn
    have hV1v : Visited (pushSt st v) v := by
      unfold Visited
      rw [pushSt_dIx_self]
      simp
    have hpmono : ∀ w, Visited st w → Visited (pushSt st v) w := by
      intro w hw
      by_cases hwv : w = v
      · rw [hwv]
        exact hV1v
      · exact (pushSt_vis_ne st v w hwv).mpr hw
    have hfuel₁ : unvis g (pushSt st v) < f := by
      have := unvis_lt_of_new hpmono hvn hv hV1v
      omega
    have hhist₁ : HistOk g v st (pushSt st v) := by
      refine ⟨?_, hpmono, Nat.le_succ _, ?_⟩
      · intro w _ hwv
        exact Function.update_noteq hwv _ _
      · intro w hw hw'
        by_cases hwv : w = v
        · rw [hwv]
          exact ⟨⟨st.counter, pushSt_dIx_self st v, le_refl _⟩,
            SGraph.Reaches.refl g v⟩
        · exact absurd ((pushSt_vis_ne st v w hwv).mp hw') hw
    obtain ⟨st₂, heq₂, hinv₂, hdIx₂, hvOn₂, hll₂, hunvis₂, hframe₂,
        hmono₂, hctr₂, hhist₂, ⟨seg', hstk₂, hSeg₂⟩, hedge₂⟩ :=
      @visitList_spec g hok G v st.counter st.stack st f
        (fun w s => visit g f w s)
        (fun w s hinvs hnw hwn hfu => ih (v :: G) w s hinvs hnw hwn hfu)
        (g.succ v) (pushSt st v) [] inv₁ (fun y hy => hy) hvn
        (pushSt_dIx_self st v) rfl (pushSt_onStk_self st v) hfuel₁
        rfl (fun w hw => absurd hw (by simp)) hhist₁ hv
    have hll₂' : llk st₂ v ≤ st.counter := by
      have h1 : llk (pushSt st v) v = st.counter := pushSt_llk_self st v
      rw [← h1]
      exact hll₂
    have hctr₂' : st.counter + 1 ≤ st₂.counter := hctr₂
    have hV₂v : Visited st₂ v := by
      unfold Visited
      rw [hdIx₂]
      simp
    by_cases hpop : (st₂.states v).lowlink = st.counter
    · -- the component rooted at `v` is complete: pop it
      have hvseg' : v ∉ seg' := fun hc => ((hSeg₂ v hc).2.1) (by simp)
      have hveq : visit g (f + 1) v st
          = some (popSt st₂ (seg' ++ [v]) st.stack) := by
        rw [visit_succ, heq₂]
        simp only []
        rw [show (st₂.states v).index = some st.counter from hdIx₂]
        simp only []
        rw [if_pos hpop, hstk₂,
          popScc_spec v seg' st.stack st₂.states [] hvseg']
        rfl
      have hS₀fact : ∀ w ∈ st.stack,
          ∃ d, dIx st₂ w = some d ∧ d < st.counter := by
        intro w hw
        have hVw : Visited st w := (inv.stack_vis w hw).1
        have hwv : w ≠ v := fun hc => hv (hc ▸ hVw)
        cases hd : dIx st w with
        | none => exact absurd hd hVw
        | some d =>
          refine ⟨d, ?_, inv.idx_lt w d hd⟩
          unfold dIx
          rw [hhist₂.1 w hVw hwv]
          exact hd
      have hinvF : TInv g G (popSt st₂ (seg' ++ [v]) st.stack) :=
        pop_step hinv₂ hstk₂ hdIx₂ hpop
          (fun w hw => (hSeg₂ w hw).1)
          (fun w hw => (hSeg₂ w hw).2.1)
          (fun w hw => (hSeg₂ w hw).2.2.1)
          (fun w hw => (hSeg₂ w hw).2.2.2.1)
          hS₀fact (fun w hw => inv.grays_sub w hw) hedge₂
      have hmonoF : ∀ w, Visited st w →
          Visited (popSt st₂ (seg' ++ [v]) st.stack) w := by
        intro w hw
        rw [popSt_vis]
        exact hhist₂.2.1 w hw
      refine ⟨popSt st₂ (seg' ++ [v]) st.stack, hveq, hinvF, ?_, ?_,
        hmonoF, ?_, ?_, ?_, Or.inl ⟨rfl, ?_, ?_⟩⟩
      · rw [popSt_dIx]
        exact hdIx₂
      · intro w hw
        have hwv : w ≠ v := fun hc => hv (hc ▸ hw)
        have hwken : w ∉ seg' ++ [v] := by
          intro hc
          rcases List.mem_append.mp hc with h1 | h2
          · exact (hSeg₂ w h1).2.2.2.2 hw
          · exact hwv (by simpa using h2)
        rw [popSt_states_not_mem st₂ st.stack hwken]
        exact hhist₂.1 w hw hwv
      · intro w hnw hw'
        rw [popSt_vis] at hw'
        obtain ⟨⟨d, hd, hge⟩, hre⟩ := hhist₂.2.2.2 w hnw hw'
        exact ⟨⟨d, by rw [popSt_dIx]; exact hd, hge⟩, hre⟩
      · show st.counter < st₂.counter
        omega
      · exact unvis_lt_of_new hmonoF hvn hv
          ((popSt_vis st₂ (seg' ++ [v]) st.stack v).mpr hV₂v)
      · exact popSt_onStk_mem st₂ st.stack (by simp)
      · rw [popSt_llk]
        exact hpop
    · -- `v`'s lowlink went below its index: leave its nodes on the stack
      have hplt : llk st₂ v < st.counter := lt_of_le_of_ne hll₂' hpop
      have hinvG : TInv g G st₂ := ungray_inv hinv₂ hdIx₂ hplt hedge₂
      have hveq : visit g (f + 1) v st = some st₂ := by
        rw [visit_succ, heq₂]
        simp only []
        rw [show (st₂.states v).index = some st.counter from hdIx₂]
        simp only []
        rw [if_neg hpop]
      refine ⟨st₂, hveq, hinvG, hdIx₂, ?_, hhist₂.2.1, hhist₂.2.2.2,
        ?_, ?_, Or.inr ⟨seg', hstk₂, hvOn₂, hplt, ?_⟩⟩
      · intro w hw
        have hwv : w ≠ v := fun hc => hv (hc ▸ hw)
        exact hhist₂.1 w hw hwv
      · show st.counter < st₂.counter
        omega
      · exact unvis_lt_of_new hhist₂.2.1 hvn hv hV₂v
      · intro w hw
        obtain ⟨hfresh, hng, hmin, hre, hnE⟩ := hSeg₂ w hw
        exact ⟨hnE, hfresh, hmin, hre,
          fun hc => hng (List.mem_cons_of_mem _ hc),
          fun hc => hng (by rw [hc]; simp)⟩

theorem tarjanLoop_cons (g : SGraph) (v : Nat) (vs : List Nat)
    (st : TarjanSt) :
    tarjanLoop g (v :: vs) st =
      (if (st.states v).index = none then
        match visit g (g.n + 1) v st with
        | none => none
        | some st' => tarjanLoop g vs st'
      else tarjanLoop g vs st) := rfl

theorem unvis_le (g : SGraph) (st : TarjanSt) : unvis g st ≤ g.n := by
  unfold unvis
  have h := List.length_filter_le
    (fun w => dIx st w == none) (List.range g.n)
  simpa using h

/-- The invariant holds in the initial state. -/
theorem TInv_init (g : SGraph) : TInv g [] tarjanInit := by
  have hnv : ∀ w, ¬ Visited tarjanInit w := fun w hc => hc rfl
  refine ⟨?_, ?_, ?_, ?_, ?_, ?_, List.nodup_nil, ?_, ?_, ?_, ?_, ?_,
    List.nodup_nil, ?_, ?_, ?_, ?_, ?_⟩
  · intro w hw
    exact absurd hw (hnv w)
  · intro w d hd
    refine absurd ?_ (hnv w)
    unfold Visited
    rw [hd]
    simp
  · intro w₁ w₂ d h1 h2
    refine absurd ?_ (hnv w₁)
    unfold Visited
    rw [h1]
    simp
  · intro w d hd
    refine absurd ?_ (hnv w)
    unfold Visited
    rw [hd]
    simp
  · intro w hw
    exact absurd hw (List.not_mem_nil w)
  · intro w hw
    exact absurd (show (false : Bool) = true from hw) (by simp)
  · intro w hw
    exact absurd hw (List.not_mem_nil w)
  · intro w hw
    exact absurd hw (List.not_mem_nil w)
  · intro w hw
    exact absurd hw (List.not_mem_nil w)
  · intro u hu
    exact absurd hu (hnv u)
  · intro w
    constructor
    · intro hw
      exact absurd hw.1 (hnv w)
    · intro hw
      exact absurd hw (List.not_mem_nil w)
  · intro c hc
    exact absurd hc (List.not_mem_nil c)
  · intro c hc
    exact absurd hc (List.not_mem_nil c)
  · intro c hc
    exact absurd hc (List.not_mem_nil c)
  · intro u hu
    exact absurd hu (hnv u)
  · intro i j hi
    exact absurd hi (Nat.not_lt_zero i)

/-- The driver loop visits every still-unvisited listed node,
preserving the empty-gray invariant and the empty stack between
top-level calls. -/
theorem tarjanLoop_spec {g : SGraph} (hok : g.Ok) :
    ∀ (vs : List Nat) (st : TarjanSt), (∀ u ∈ vs, u < g.n) →
      TInv g [] st → st.stack = [] →
      ∃ st', tarjanLoop g vs st = some st' ∧ TInv g [] st' ∧
        st'.stack = [] ∧ (∀ w, Visited st w → Visited st' w) ∧
        (∀ u ∈ vs, Visited st' u) := by
  intro vs
  induction vs with
  | nil =>
    intro st _ inv hstk
    exact ⟨st, rfl, inv, hstk, fun w h => h,
      fun u hu => absurd hu (List.not_mem_nil u)⟩
  | cons v vs ih =>
    intro st hvs inv hstk
    rw [tarjanLoop_cons]
    by_cases hvis : (st.states v).index = none
    · rw [if_pos hvis]
      have hnv : ¬ Visited st v := fun hc => hc hvis
      have hvn : v < g.n := hvs v (by simp)
      obtain ⟨st₁, heq₁, hinv₁, hdIx₁, hframe₁, hmono₁, hnew₁, hctr₁,
          hunvis₁, hstack₁⟩ :=
        visit_spec hok (g.n + 1) [] v st inv hnv hvn
          (by have := unvis_le g st; omega)
      have hstk₁ : st₁.stack = [] := by
        rcases hstack₁ with ⟨hsame, _, _⟩ | ⟨seg, hseq, hon, hll, hsegf⟩
        · rw [hsame, hstk]
        · exfalso
          have hvstk₁ : v ∈ st₁.stack := by
            rw [hseq]
            simp
          obtain ⟨z, hz, hzd, _⟩ := hinv₁.witness v hvstk₁
          rw [hseq, hstk] at hz
          rcases List.mem_append.mp hz with hzseg | hzv
          · obtain ⟨_, ⟨d, hd, hdgt⟩, _⟩ := hsegf z hzseg
            rw [hzd] at hd
            have hdev := Option.some.inj hd
            omega
          · have hzv' : z = v := by simpa using hzv
            rw [hzv', hdIx₁] at hzd
            have := Option.some.inj hzd
            omega
      rw [heq₁]
      obtain ⟨st', heq', hinv', hstk', hmono', hall'⟩ :=
        ih st₁ (fun u hu => hvs u (List.mem_cons_of_mem _ hu))
          hinv₁ hstk₁
      refine ⟨st', heq', hinv', hstk',
        fun w hw => hmono' w (hmono₁ w hw), ?_⟩
      intro u hu
      rcases List.mem_cons.mp hu with huv | hut
      · rw [huv]
        refine hmono' v ?_
        unfold Visited
        rw [hdIx₁]
        simp
      · exact hall' u hut
    · rw [if_neg hvis]
      have hVv : Visited st v := hvis
      obtain ⟨st', heq', hinv', hstk', hmono', hall'⟩ :=
        ih st (fun u hu => hvs u (List.mem_cons_of_mem _ hu)) inv hstk
      refine ⟨st', heq', hinv', hstk', hmono', ?_⟩
      intro u hu
      rcases List.mem_cons.mp hu with huv | hut
      · rw [huv]
        exact hmono' v hVv
      · exact hall' u hut

/-!
## Reachable store states

The store states reachable from `VecGraph::default()` through the public
mutation surface (§6 of the specification): node/edge insertion, checked
single removals, and batch removal.  Each step relates a state to a
successor only when the operation succeeds (returns `some`). -/

/-- One public mutation, as data. -/
inductive GOp (N E : Type) where
  | addN (d : N)
  | addE (d : E) (a b : Nat)
  | remE (ix : Nat)
  | remN (v : Nat)
  | batch (ns es : List Nat)
  | batchSeq (ns es : List Nat)

/-- Apply one public mutation, keeping only the successor state. -/
def applyGOp (g : VecGraph N E) : GOp N E → Option (VecGraph N E)
  | .addN d => (g.addNode d).map (·.2)
  | .addE d a b => (g.addEdge d a b).map (·.2)
  | .remE ix => (g.removeEdge ix).map (·.2)
  | .remN v => (g.removeNode v).map (·.2)
  | .batch ns es => (g.removeNodesEdgesUnchecked ns es).map (·.2.2)
  | .batchSeq ns es => (g.removeNodesEdgesSeq ns es).map (·.2.2)

/-- Run a sequence of public mutations. -/
def runOps (g : VecGraph N E) (ops : List (GOp N E)) :
    Option (VecGraph N E) :=
  ops.foldlM applyGOp g

/-- The store states reachable from the empty store through successful
public mutations. -/
inductive Reachable : VecGraph N E → Prop
  | empty : Reachable (VecGraph.empty N E)
  | step {g : VecGraph N E} {op g'} :
      Reachable g → applyGOp g op = some g' → Reachable g'

theorem reachable_runOps {g g' : VecGraph N E} {ops : List (GOp N E)}
    (h : Reachable g) (hr : runOps g ops = some g') : Reachable g' := by
  induction ops generalizing g with
  | nil =>
    simp only [runOps, List.foldlM_nil, pure, Option.some.injEq] at hr
    exact hr ▸ h
  | cons op ops ih =>
    simp only [runOps, List.foldlM_cons] at hr
    cases hap : applyGOp g op with
    | none => rw [hap] at hr; exact absurd hr (by simp)
    | some g₁ =>
      rw [hap] at hr
      exact ih (Reachable.step h hap) hr

/-!
## Concrete stores used as failing inputs

`gPar3` is the store over payload types `(Nat, Nat)` obtained from the
empty store by adding two nodes `0, 1` and three parallel edges `0 → 1`
with payloads `100, 101, 102`; node 0's outgoing chain is
`2 → 1 → 0 → END` (most recent first).  `gC4` is obtained by adding four
nodes, four edges `2 → 3` (payloads 200-203), two edges `0 → 1`
(payloads 204, 205), and then removing edge 2 — the swap-compaction of
that removal relocates edge 5 (payload 205) to slot 2, leaving node 0's
outgoing chain as `2 → 4 → END`, an ascending index sequence. -/

/-- Two nodes, three parallel edges `0 → 1`. -/
def gPar3 : VecGraph Nat Nat :=
  ⟨[⟨0, 2, u32Max⟩, ⟨1, u32Max, 2⟩],
   [⟨100, u32Max, u32Max, 0, 1⟩, ⟨101, 0, 0, 0, 1⟩, ⟨102, 1, 1, 0, 1⟩]⟩

theorem gPar3_reachable : Reachable gPar3 := by
  apply @reachable_runOps Nat Nat (VecGraph.empty Nat Nat) gPar3
    [.addN 0, .addN 1, .addE 100 0 1, .addE 101 0 1, .addE 102 0 1]
    Reachable.empty
  decide

/-- The result of the batch removal of edge 1 from `gPar3`: edge 0's
outgoing/incoming continuation fields are left as the dangling value 2
(the dead slot its deleted predecessor was compacted to), not `END`. -/
def gBatchRes : VecGraph Nat Nat :=
  ⟨[⟨0, 1, u32Max⟩, ⟨1, u32Max, 1⟩],
   [⟨100, u32Max, u32Max, 0, 1⟩, ⟨102, 2, 2, 0, 1⟩]⟩

/-- The result of removing edge 1 from `gPar3` with the element-wise
`remove_edge`: the chains are spliced, edge 1 (old edge 2) continues to
edge 0. -/
def gSeqRes : VecGraph Nat Nat :=
  ⟨[⟨0, 1, u32Max⟩, ⟨1, u32Max, 1⟩],
   [⟨100, u32Max, u32Max, 0, 1⟩, ⟨102, 0, 0, 0, 1⟩]⟩

/-- Four nodes; edges `2 → 3` (payloads 200, 201, 203) and `0 → 1`
(payloads 204, 205) after the removal of one `2 → 3` edge relocated
payload 205 to slot 2.  Node 0's outgoing chain is `2 → 4 → END`. -/
def gC4 : VecGraph Nat Nat :=
  ⟨[⟨0, 2, u32Max⟩, ⟨1, u32Max, 2⟩, ⟨2, 3, u32Max⟩, ⟨3, u32Max, 3⟩],
   [⟨200, u32Max, u32Max, 2, 3⟩, ⟨201, 0, 0, 2, 3⟩, ⟨205, 4, 4, 0, 1⟩,
    ⟨203, 1, 1, 2, 3⟩, ⟨204, u32Max, u32Max, 0, 1⟩]⟩

theorem gC4_reachable : Reachable gC4 := by
  apply @reachable_runOps Nat Nat (VecGraph.empty Nat Nat) gC4
    [.addN 0, .addN 1, .addN 2, .addN 3,
     .addE 200 2 3, .addE 201 2 3, .addE 202 2 3, .addE 203 2 3,
     .addE 204 0 1, .addE 205 0 1, .remE 2]
    Reachable.empty
  decide

/-!
## Array-length bookkeeping for reachable states
-/

theorem listSwapRemove_length {l : List α} {ix : Nat} {x : α} {l' : List α}
    (h : listSwapRemove l ix = some (x, l')) :
    l'.length = l.length - 1 := by
  unfold listSwapRemove at h
  cases h1 : l[ix]? with
  | none => rw [h1] at h; exact absurd h (by simp)
  | some y =>
    cases h2 : l.getLast? with
    | none => rw [h1, h2] at h; exact absurd h (by simp)
    | some last =>
      rw [h1, h2] at h
      simp only [Option.some.injEq, Prod.mk.injEq] at h
      rw [← h.2]
      simp

theorem spliceWalk_length {edges : List (EdgeRepr E)} {d : Bool}
    {tgt rep : Nat} :
    ∀ {fuel cur : Nat} {edges' : List (EdgeRepr E)},
      spliceWalk edges d tgt rep fuel cur = some edges' →
      edges'.length = edges.length := by
  intro fuel
  induction fuel with
  | zero => intro cur edges' h; exact absurd h (by simp [spliceWalk])
  | succ f ih =>
    intro cur edges' h
    rw [spliceWalk] at h
    by_cases he : isEnd cur
    · rw [if_pos he] at h
      simp only [Option.some.injEq] at h
      rw [← h]
    · rw [if_neg he] at h
      cases h1 : edges[cur]? with
      | none => rw [h1] at h; exact absurd h (by simp)
      | some ce =>
        rw [h1] at h
        try simp only [] at h
        by_cases h2 : ce.next d = tgt
        · rw [if_pos h2] at h
          simp only [Option.some.injEq] at h
          rw [← h]; simp
        · rw [if_neg h2] at h
          exact ih h

theorem spliceOut_length {nodes : List (NodeRepr N)}
    {edges : List (EdgeRepr E)} {d : Bool} {vNode ix rep : Nat}
    {nodes' : List (NodeRepr N)} {edges' : List (EdgeRepr E)}
    (h : spliceOut nodes edges d vNode ix rep = some (nodes', edges')) :
    nodes'.length = nodes.length ∧ edges'.length = edges.length := by
  unfold spliceOut at h
  cases h1 : nodes[vNode]? with
  | none => rw [h1] at h; exact absurd h (by simp)
  | some nr =>
    rw [h1] at h
    try simp only [] at h
    by_cases h2 : nr.next d = ix
    · rw [if_pos h2] at h
      simp only [Option.some.injEq, Prod.mk.injEq] at h
      refine ⟨?_, ?_⟩ <;> simp [← h.1, ← h.2]
    · rw [if_neg h2] at h
      cases h3 : spliceWalk edges d ix rep (edges.length + 1) (nr.next d) with
      | none => rw [h3] at h; exact absurd h (by simp)
      | some edges₂ =>
        rw [h3] at h
        simp only [Option.some.injEq, Prod.mk.injEq] at h
        exact ⟨by rw [← h.1], by rw [← h.2]; exact spliceWalk_length h3⟩

theorem removeEdgeUnchecked_length {g : VecGraph N E} {ix : Nat}
    {x : E} {g' : VecGraph N E}
    (h : g.removeEdgeUnchecked ix = some (x, g')) :
    g'.nodes.length = g.nodes.length ∧
    g'.edges.length = g.edges.length - 1 ∧
    ix < g.edges.length := by
  unfold VecGraph.removeEdgeUnchecked at h
  cases h1 : g.edges[ix]? with
  | none => rw [h1] at h; exact absurd h (by simp)
  | some er =>
    rw [h1] at h
    try simp only [] at h
    have hix : ix < g.edges.length := by
      by_contra hc
      rw [List.getElem?_eq_none (by omega)] at h1
      exact absurd h1 (by simp)
    cases h2 : spliceOut g.nodes g.edges false er.src ix er.nextOut with
    | none => rw [h2] at h; exact absurd h (by simp)
    | some p1 =>
      obtain ⟨nodes₁, edges₁⟩ := p1
      rw [h2] at h
      try simp only [] at h
      cases h3 : spliceOut nodes₁ edges₁ true er.dst ix er.nextIn with
      | none => rw [h3] at h; exact absurd h (by simp)
      | some p2 =>
        obtain ⟨nodes₂, edges₂⟩ := p2
        rw [h3] at h
        try simp only [] at h
        cases h4 : listSwapRemove edges₂ ix with
        | none => rw [h4] at h; exact absurd h (by simp)
        | some p3 =>
          obtain ⟨removed, edges₃⟩ := p3
          rw [h4] at h
          try simp only [] at h
          have hl1 := spliceOut_length h2
          have hl2 := spliceOut_length h3
          have hl3 := listSwapRemove_length h4
          by_cases h5 : ix < edges₃.length
          · rw [if_pos h5] at h
            simp only [Option.some.injEq, Prod.mk.injEq] at h
            rw [← h.2]
            refine ⟨by simpa using hl1.1 ▸ hl2.1, by simp; omega, hix⟩
          · rw [if_neg h5] at h
            simp only [Option.some.injEq, Prod.mk.injEq] at h
            rw [← h.2]
            exact ⟨hl1.1 ▸ hl2.1, by simp; omega, hix⟩

theorem removeEdgeFold_length {g : VecGraph N E} {l : List Nat}
    {g' : VecGraph N E}
    (h : l.foldlM
      (fun (h : VecGraph N E) eix =>
        (h.removeEdgeUnchecked eix).map Prod.snd) g = some g') :
    g'.nodes.length = g.nodes.length ∧
    g'.edges.length ≤ g.edges.length := by
  induction l generalizing g with
  | nil =>
    simp only [List.foldlM_nil, pure, Option.some.injEq] at h
    simp [← h]
  | cons a t ih =>
    simp only [List.foldlM_cons] at h
    cases h1 : (g.removeEdgeUnchecked a).map Prod.snd with
    | none => rw [h1] at h; exact absurd h (by simp)
    | some g₁ =>
      rw [h1] at h
      have ⟨hn, he⟩ := ih h
      cases h2 : g.removeEdgeUnchecked a with
      | none => rw [h2] at h1; exact absurd h1 (by simp)
      | some p =>
        rw [h2] at h1
        simp only [Option.map_some', Option.some.injEq] at h1
        have := removeEdgeUnchecked_length h2
        rw [← h1] at hn he
        constructor
        · rw [hn]; exact this.1
        · calc g'.edges.length ≤ p.2.edges.length := he
            _ ≤ g.edges.length := by omega

theorem removeNodeUnchecked_length {g : VecGraph N E} {v : Nat}
    {x : N} {g' : VecGraph N E}
    (h : g.removeNodeUnchecked v = some (x, g')) :
    g'.nodes.length = g.nodes.length - 1 ∧
    g'.edges.length ≤ g.edges.length := by
  unfold VecGraph.removeNodeUnchecked at h
  cases h1 : g.outgoingIxs v with
  | none => rw [h1] at h; exact absurd h (by simp [Option.bind])
  | some outs =>
    rw [h1] at h
    simp only [Option.bind_eq_bind, Option.some_bind] at h
    cases h2 : outs.foldlM
        (fun (hh : VecGraph N E) eix =>
          (hh.removeEdgeUnchecked eix).map Prod.snd) g with
    | none => rw [h2] at h; exact absurd h (by simp)
    | some g₁ =>
      rw [h2] at h
      simp only [Option.some_bind] at h
      cases h3 : g₁.incomingIxs v with
      | none => rw [h3] at h; exact absurd h (by simp)
      | some ins =>
        rw [h3] at h
        simp only [Option.some_bind] at h
        cases h4 : ins.foldlM
            (fun (hh : VecGraph N E) eix =>
              (hh.removeEdgeUnchecked eix).map Prod.snd) g₁ with
        | none => rw [h4] at h; exact absurd h (by simp)
        | some g₂ =>
          rw [h4] at h
          simp only [Option.some_bind] at h
          cases h5 : listSwapRemove g₂.nodes v with
          | none => rw [h5] at h; exact absurd h (by simp)
          | some p =>
            obtain ⟨removedNode, nodes₃⟩ := p
            rw [h5] at h
            try simp only [] at h
            have hf1 := removeEdgeFold_length h2
            have hf2 := removeEdgeFold_length h4
            have hsw := listSwapRemove_length h5
            by_cases h6 : v < nodes₃.length
            · rw [if_pos h6] at h
              simp only [Option.some.injEq, Prod.mk.injEq] at h
              rw [← h.2]
              constructor
              · simp only []
                omega
              · simp only [List.length_map]
                omega
            · rw [if_neg h6] at h
              simp only [Option.some.injEq, Prod.mk.injEq] at h
              rw [← h.2]
              constructor
              · simp only []
                omega
              · simp only []
                omega

theorem swapLoop_data_length {α : Type} :
    ∀ (fuel : Nat) (dord : List (Bool × Nat)) (data : List α) (i j : Nat)
      {k : Nat} {dord' : List (Bool × Nat)} {data' : List α},
      swapLoop dord data i j fuel = some (k, dord', data') →
      data'.length = data.length ∧ dord'.length = dord.length := by
  intro fuel
  induction fuel with
  | zero =>
    intro dord data i j k dord' data' h
    exact absurd h (by simp [swapLoop])
  | succ f ih =>
    intro dord data i j k dord' data' h
    simp only [swapLoop] at h
    split at h
    · exact absurd h (by simp)
    · split at h
      · exact absurd h (by simp)
      · split at h
        · simp only [Option.some.injEq, Prod.mk.injEq] at h
          refine ⟨by rw [← h.2.2], by rw [← h.2.1]; simp⟩
        · split at h
          · exact absurd h (by simp)
          · split at h
            · exact absurd h (by simp)
            · split at h
              · simp only [Option.some.injEq, Prod.mk.injEq] at h
                refine ⟨by rw [← h.2.2], by rw [← h.2.1]; simp⟩
              · split at h
                · split at h
                  · have := ih _ _ _ _ h
                    simpa using this
                  · exact absurd h (by simp)
                · exact absurd h (by simp)

theorem swapRemove_data_length {α : Type} {dord : List (Bool × Nat)}
    {data : List α} {k : Nat} {dord' : List (Bool × Nat)} {data' : List α}
    (h : swapRemove dord data = some (k, dord', data')) :
    data'.length = data.length ∧ dord'.length = dord.length := by
  unfold swapRemove at h
  split at h
  · simp only [Option.some.injEq, Prod.mk.injEq] at h
    exact ⟨by rw [h.2.2], by rw [h.2.1]⟩
  · exact swapLoop_data_length _ _ _ _ _ h

theorem mapM_option_length {α β : Type} {f : α → Option β} :
    ∀ {l : List α} {l' : List β}, l.mapM f = some l' → l'.length = l.length := by
  intro l
  induction l with
  | nil =>
    intro l' h
    simp only [List.mapM_nil, pure, Option.some.injEq] at h
    simp [← h]
  | cons a t ih =>
    intro l' h
    rw [List.mapM_cons] at h
    cases hfa : f a with
    | none => rw [hfa] at h; exact absurd h (by simp [Bind.bind])
    | some b =>
      rw [hfa] at h
      simp only [Bind.bind, Option.some_bind] at h
      cases hmt : t.mapM f with
      | none => rw [hmt] at h; exact absurd h (by simp)
      | some bs =>
        rw [hmt] at h
        simp only [Option.some_bind, pure, Option.some.injEq] at h
        rw [← h]
        simp [ih hmt]

theorem removeNodesEdgesUnchecked_length {g : VecGraph N E}
    {delNodes delEdges : List Nat} {cn : List N} {ce : List E}
    {g' : VecGraph N E}
    (h : g.removeNodesEdgesUnchecked delNodes delEdges = some (cn, ce, g')) :
    g'.nodes.length ≤ g.nodes.length ∧
    g'.edges.length ≤ g.edges.length := by
  unfold VecGraph.removeNodesEdgesUnchecked at h
  simp only [Option.bind_eq_bind, bind, Option.bind_eq_some, pure,
    Option.some.injEq, Prod.mk.injEq] at h
  obtain ⟨⟨ce₁, dordE₁⟩, h1, ⟨cn₁, ce₂, dordN₁, dordE₂⟩, h2,
    ⟨aliveE, dordE₃, edgesData⟩, h3, edges₂, h4, nodes₁, h5,
    ⟨aliveN, dordN₂, nodesData⟩, h6, edges₃, h7, hcn, hce, hg⟩ := h
  subst hg
  constructor
  · have hnd := (swapRemove_data_length h6).1
    have hn1 := mapM_option_length h5
    show (nodesData.take aliveN).length ≤ g.nodes.length
    simp only [List.length_take]
    omega
  · have hed := (swapRemove_data_length h3).1
    have he2 := mapM_option_length h4
    have he3 := mapM_option_length h7
    simp only [List.length_take] at he2
    show edges₃.length ≤ g.edges.length
    omega

/-- Any `Option`-monadic fold whose step never grows either record array
keeps both lengths bounded by the initial state's. -/
theorem foldlM_graph_bound {β : Type}
    (f : (β × VecGraph N E) → Nat → Option (β × VecGraph N E))
    (hf : ∀ acc ix r, f acc ix = some r →
      r.2.nodes.length ≤ acc.2.nodes.length ∧
      r.2.edges.length ≤ acc.2.edges.length) :
    ∀ (l : List Nat) (acc r : β × VecGraph N E),
      List.foldlM f acc l = some r →
      r.2.nodes.length ≤ acc.2.nodes.length ∧
      r.2.edges.length ≤ acc.2.edges.length := by
  intro l
  induction l with
  | nil =>
    intro acc r hh
    simp only [List.foldlM_nil, pure, Option.some.injEq] at hh
    simp [← hh]
  | cons a t ih =>
    intro acc r hh
    simp only [List.foldlM_cons] at hh
    cases h1 : f acc a with
    | none => rw [h1] at hh; exact absurd hh (by simp [Bind.bind])
    | some acc' =>
      rw [h1] at hh
      simp only [Bind.bind, Option.some_bind] at hh
      have := ih acc' r hh
      have := hf acc a acc' h1
      omega

theorem removeNodesEdgesSeq_length {g : VecGraph N E}
    {ns es : List Nat} {cn : List N} {ce : List E} {g' : VecGraph N E}
    (h : g.removeNodesEdgesSeq ns es = some (cn, ce, g')) :
    g'.nodes.length ≤ g.nodes.length ∧
    g'.edges.length ≤ g.edges.length := by
  unfold VecGraph.removeNodesEdgesSeq at h
  simp only [Option.bind_eq_bind, bind, Option.bind_eq_some, pure,
    Option.some.injEq, Prod.mk.injEq] at h
  obtain ⟨p1, h1, p2, h2, hcn, hce, hg⟩ := h
  subst hg
  have e1 := foldlM_graph_bound _ ?hfE es ([], g) p1 h1
  case hfE =>
    intro acc ix r hs
    by_cases hex : acc.2.existsEdge ix
    · simp only [hex, if_true] at hs
      simp only [Option.bind_eq_bind, Option.bind_eq_some, pure,
        Option.some.injEq] at hs
      obtain ⟨p, hp, hr⟩ := hs
      have := removeEdgeUnchecked_length
        (by rw [← Prod.mk.eta (p := p)] at hp; exact hp)
      rw [← hr]
      refine ⟨?_, ?_⟩
      · show p.2.nodes.length ≤ acc.2.nodes.length
        omega
      · show p.2.edges.length ≤ acc.2.edges.length
        omega
    · simp only [hex] at hs
      simp only [Bool.false_eq_true, if_false, Option.some.injEq] at hs
      rw [← hs]
      exact ⟨le_refl _, le_refl _⟩
  have e2 := foldlM_graph_bound _ ?hfN ns ([], p1.2) p2 h2
  case hfN =>
    intro acc v r hs
    by_cases hex : acc.2.existsNode v
    · simp only [hex, if_true] at hs
      simp only [Option.bind_eq_bind, Option.bind_eq_some, pure,
        Option.some.injEq] at hs
      obtain ⟨p, hp, hr⟩ := hs
      have := removeNodeUnchecked_length
        (by rw [← Prod.mk.eta (p := p)] at hp; exact hp)
      rw [← hr]
      refine ⟨?_, ?_⟩
      · show p.2.nodes.length ≤ acc.2.nodes.length
        omega
      · show p.2.edges.length ≤ acc.2.edges.length
        omega
    · simp only [hex] at hs
      simp only [Bool.false_eq_true, if_false, Option.some.injEq] at hs
      rw [← hs]
      exact ⟨le_refl _, le_refl _⟩
  have e1' : p1.2.nodes.length ≤ g.nodes.length ∧
      p1.2.edges.length ≤ g.edges.length := e1
  have e2' : p2.2.nodes.length ≤ p1.2.nodes.length ∧
      p2.2.edges.length ≤ p1.2.edges.length := e2
  exact ⟨by omega, by omega⟩

/-!
## Correctness of the `swap_remove` delete-compaction helper
-/

theorem list_set_same {l : List α} {i : Nat} {x : α} (h : l[i]? = some x) :
    l.set i x = l := by
  apply List.ext_getElem?
  intro p
  by_cases hp : p = i
  · subst hp
    have hi : p < l.length := by
      by_contra hc
      rw [List.getElem?_eq_none (by omega)] at h
      exact absurd h (by simp)
    rw [List.getElem?_set_eq hi, h]
  · rw [List.getElem?_set_ne (fun he => hp he.symm)]

/-- Specification of the downward scan: started at `j` with a known
clear-flag stopper at `q ≤ j`, it lands on the greatest `j' ≤ j` whose
flag is clear, every position strictly between `j'` and `j` carrying a
set flag. -/
theorem jScan_finds (dord : List (Bool × Nat)) :
    ∀ j q, q ≤ j → j < dord.length →
      (dord[q]?.map Prod.fst = some false) →
      ∃ j', jScan dord j = some j' ∧ q ≤ j' ∧ j' ≤ j ∧
        (dord[j']?.map Prod.fst = some false) ∧
        (∀ p, j' < p → p ≤ j → dord[p]?.map Prod.fst = some true) := by
  intro j
  induction j with
  | zero =>
    intro q hq hlen hflag
    have hq0 : q = 0 := by omega
    subst hq0
    cases h0 : dord[0]? with
    | none => rw [h0] at hflag; exact absurd hflag (by simp)
    | some fl =>
      rw [h0] at hflag
      simp only [Option.map_some', Option.some.injEq] at hflag
      refine ⟨0, ?_, le_refl 0, le_refl 0, by rw [h0]; simp [hflag], ?_⟩
      · rw [jScan, h0]
        simp [hflag]
      · intro p hp1 hp2; omega
  | succ j ih =>
    intro q hq hlen hflag
    cases h0 : dord[j + 1]? with
    | none =>
      exact absurd h0 (by rw [List.getElem?_eq_getElem hlen]; simp)
    | some fl =>
      cases hb : fl.1 with
      | false =>
        refine ⟨j + 1, ?_, hq, le_refl _, by rw [h0]; simp [hb], ?_⟩
        · rw [jScan, h0]
          simp [hb]
        · intro p hp1 hp2; omega
      | true =>
        have hqj : q ≤ j := by
          rcases Nat.lt_or_ge q (j + 1) with h | h
          · omega
          · have : q = j + 1 := by omega
            subst this
            rw [h0] at hflag
            simp only [Option.map_some', Option.some.injEq] at hflag
            rw [hflag] at hb; cases hb
        obtain ⟨j', hscan, hqj', hj'le, hflag', hmid⟩ :=
          ih q hqj (by omega) hflag
        refine ⟨j', ?_, hqj', by omega, hflag', ?_⟩
        · rw [jScan, h0]
          simpa [hb] using hscan
        · intro p hp1 hp2
          rcases Nat.lt_or_ge p (j + 1) with h | h
          · exact hmid p hp1 (by omega)
          · have : p = j + 1 := by omega
            subst this
            rw [h0]; simp [hb]

/-- Specification of the upward scan: started at `i` with a known
set-flag stopper at `q ≥ i` and fuel exceeding `q - i`, it lands on the
least `i' ≥ i` whose flag is set, every position in `[i, i')` carrying a
clear flag. -/
theorem iScan_finds (dord : List (Bool × Nat)) :
    ∀ fuel i q, i ≤ q → q < dord.length → q - i < fuel →
      (dord[q]?.map Prod.fst = some true) →
      ∃ i', iScan dord fuel i = some i' ∧ i ≤ i' ∧ i' ≤ q ∧
        (dord[i']?.map Prod.fst = some true) ∧
        (∀ p, i ≤ p → p < i' → dord[p]?.map Prod.fst = some false) := by
  intro fuel
  induction fuel with
  | zero => intro i q hiq hq hfuel; omega
  | succ f ih =>
    intro i q hiq hq hfuel hflag
    cases h0 : dord[i]? with
    | none =>
      exact absurd h0
        (by rw [List.getElem?_eq_getElem (by omega)]; simp)
    | some fl =>
      cases hb : fl.1 with
      | true =>
        refine ⟨i, ?_, le_refl _, hiq, by rw [h0]; simp [hb], ?_⟩
        · rw [iScan, h0]
          simp [hb]
        · intro p hp1 hp2; omega
      | false =>
        have hiq' : i < q := by
          rcases Nat.lt_or_ge i q with h | h
          · exact h
          · have : i = q := by omega
            subst this
            rw [h0] at hflag
            simp only [Option.map_some', Option.some.injEq] at hflag
            rw [hflag] at hb; cases hb
        obtain ⟨i', hscan, hii', hi'q, hflag', hlow⟩ :=
          ih (i + 1) q (by omega) hq (by omega) hflag
        refine ⟨i', ?_, by omega, hi'q, hflag', ?_⟩
        · rw [iScan, h0]
          simpa [hb] using hscan
        · intro p hp1 hp2
          rcases Nat.lt_or_ge p (i + 1) with h | h
          · have : p = i := by omega
            subst this
            rw [h0]; simp [hb]
          · exact hlow p h hp2

/-- Tracking invariant of the compaction loop, at the entry of an outer
iteration with cursors `(i, j)`: the entry at position `p` records in its
second component the original position of the element now at `p`; the
recorded positions pair up (the permutation performed so far is an
involution), the data array travels with the entries, the flag field is
the original flag of the recorded position; positions strictly between
the cursors are untouched, positions below `i` hold survivors, positions
above `j` hold deleted elements, and a deleted element at position `i`
can only be the untouched original one. -/
def SwapInv (flags : List Bool) (data₀ : List α)
    (dord : List (Bool × Nat)) (data : List α) (i j : Nat) : Prop :=
  dord.length = flags.length ∧ data.length = flags.length ∧
  i ≤ j ∧ j < flags.length ∧
  (∀ p, i < p → p ≤ j →
    ∃ b, flags[p]? = some b ∧ dord[p]? = some (b, p)) ∧
  (∀ fl, dord[i]? = some fl → fl.1 = true → fl.2 = i) ∧
  (∀ p fl, dord[p]? = some fl →
    fl.2 < flags.length ∧
    (∃ fl', dord[fl.2]? = some fl' ∧ fl'.2 = p) ∧
    data[p]? = data₀[fl.2]? ∧
    flags[fl.2]? = some fl.1 ∧
    (p < i → fl.1 = false) ∧
    (j < p → fl.1 = true))

/-- What holds of the final configuration: the recorded original
positions still pair up as an involution, the data array carries the
original element of each recorded position, and positions below the
returned count hold exactly the surviving (clear-flag) elements. -/
def SwapPost (flags : List Bool) (data₀ : List α) (k : Nat)
    (dord : List (Bool × Nat)) (data : List α) : Prop :=
  dord.length = flags.length ∧ data.length = flags.length ∧
  k ≤ flags.length ∧
  (∀ p fl, dord[p]? = some fl →
    fl.2 < flags.length ∧
    (∃ fl', dord[fl.2]? = some fl' ∧ fl'.2 = p) ∧
    data[p]? = data₀[fl.2]? ∧
    (p < k → flags[fl.2]? = some false) ∧
    (k ≤ p → flags[fl.2]? = some true))

theorem swapLoop_correct {α : Type} (flags : List Bool) (data₀ : List α) :
    ∀ fuel (dord : List (Bool × Nat)) (data : List α) (i j : Nat),
      SwapInv flags data₀ dord data i j → j - i < fuel →
      ∃ k dord' data',
        swapLoop dord data i j fuel = some (k, dord', data') ∧
        SwapPost flags data₀ k dord' data' := by
  intro fuel
  induction fuel with
  | zero =>
    intro dord data i j hinv hfuel
    obtain ⟨hdlen, hdatalen, hij, hjn, hmid, hposI, htrk⟩ := hinv
    omega
  | succ f ih =>
    intro dord data i j hinv hfuel
    obtain ⟨hdlen, hdatalen, hij, hjn, hmid, hposI, htrk⟩ := hinv
    have hi_lt : i < dord.length := by omega
    have hdi : dord[i]? = some dord[i] := List.getElem?_eq_getElem hi_lt
    -- the sentinel at `i` lets the downward scan stop at `i` at the latest
    have hsentA : (dord.set i (false, dord[i].2))[i]?.map Prod.fst
        = some false := by
      rw [List.getElem?_set_eq (by simpa using hi_lt)]
      simp
    obtain ⟨j', hjscan, hij', hj'j, hjflag, hjhigh⟩ :=
      jScan_finds (dord.set i (false, dord[i].2)) j i hij
        (by simp only [List.length_set]; omega) hsentA
    have hrestore : (dord.set i (false, dord[i].2)).set i
        (dord[i].1, dord[i].2) = dord := by
      rw [List.set_set, Prod.mk.eta]
      exact list_set_same hdi
    by_cases hieqj : i = j'
    · -- first exit: the cursors met during the downward scan
      refine ⟨if dord[i].1 then i else i + 1, dord, data, ?_, ?_, ?_, ?_, ?_⟩
      · rw [swapLoop, hdi]
        simp only [hjscan, hrestore]
        rw [if_pos hieqj]
      · exact hdlen
      · exact hdatalen
      · split <;> omega
      · intro p fl hp
        obtain ⟨h1, h2, h3, h4, h5, h6⟩ := htrk p fl hp
        refine ⟨h1, h2, h3, ?_, ?_⟩
        · intro hpk
          rcases Nat.lt_or_ge p i with hcase | hcase
          · rw [h4, h5 hcase]
          · have hpi : p = i := by split at hpk <;> omega
            subst hpi
            have hfl : fl = dord[p] := by
              rw [hp] at hdi
              exact Option.some.inj hdi
            split at hpk
            · omega
            · rename_i hb
              rw [Bool.not_eq_true] at hb
              rw [h4, hfl, hb]
        · intro hpk
          have hft : fl.1 = true := by
            rcases Nat.lt_or_ge j p with hcase | hcase
            · exact h6 hcase
            · rcases Nat.lt_or_ge i p with hcase2 | hcase2
              · have := hjhigh p (by omega) (by omega)
                rw [List.getElem?_set_ne (by omega), hp] at this
                simpa using this
              · have hpi : p = i := by split at hpk <;> omega
                subst hpi
                have hfl : fl = dord[p] := by
                  rw [hp] at hdi
                  exact Option.some.inj hdi
                split at hpk
                · rename_i hb
                  rw [hfl]
                  exact hb
                · omega
          rw [h4, hft]
    · -- the element at `j'` is an untouched survivor
      have hij'' : i < j' := by omega
      obtain ⟨bj, hbj, hdj⟩ := hmid j' hij'' hj'j
      have hbj_false : bj = false := by
        have := hjflag
        rw [List.getElem?_set_ne (by omega), hdj] at this
        simpa using this
      subst hbj_false
      -- the sentinel at `j'` lets the upward scan stop at `j'` at the latest
      have hsentB : ((dord.set j' (true, j'))[j']?).map Prod.fst
          = some true := by
        rw [List.getElem?_set_eq (by first | omega | (simp only [List.length_set]; omega))]
        simp
      obtain ⟨i', hiscan, hii', hi'j', hiflag, hilow⟩ :=
        iScan_finds (dord.set j' (true, j'))
          ((dord.set j' (true, j')).length + 1) i j' (by omega)
          (by simp only [List.length_set]; omega) (by simp only [List.length_set]; omega) hsentB
      have hrestore2 : (dord.set j' (true, j')).set j' (false, j')
          = dord := by
        rw [List.set_set]
        exact list_set_same hdj
      by_cases hieqj2 : i' = j'
      · -- second exit: the upward scan ran into the sentinel
        refine ⟨i' + 1, dord, data, ?_, ?_, ?_, ?_, ?_⟩
        · rw [swapLoop, hdi]
          simp only [hjscan, hrestore, hdj, hrestore2, hiscan]
          rw [if_neg hieqj, if_pos hieqj2]
        · exact hdlen
        · exact hdatalen
        · omega
        · intro p fl hp
          obtain ⟨h1, h2, h3, h4, h5, h6⟩ := htrk p fl hp
          refine ⟨h1, h2, h3, ?_, ?_⟩
          · intro hpk
            have hff : fl.1 = false := by
              rcases Nat.lt_or_ge p i with hcase | hcase
              · exact h5 hcase
              · rcases Nat.lt_or_ge p j' with hcase2 | hcase2
                · have := hilow p hcase (by omega)
                  rw [List.getElem?_set_ne (by omega), hp] at this
                  simpa using this
                · have hpj' : p = j' := by omega
                  subst hpj'
                  rw [hdj] at hp
                  have := Option.some.inj hp
                  rw [← this]
            rw [h4, hff]
          · intro hpk
            have hft : fl.1 = true := by
              rcases Nat.lt_or_ge j p with hcase | hcase
              · exact h6 hcase
              · have := hjhigh p (by omega) (by omega)
                rw [List.getElem?_set_ne (by omega), hp] at this
                simpa using this
            rw [h4, hft]
      · -- swap case: exchange the survivor at `j'` with the deleted
        -- element at `i'` and continue with the cursors `(i', j' - 1)`
        have hi'j'' : i' < j' := by omega
        have hi'_lt : i' < dord.length := by omega
        have hei : dord[i']? = some (true, i') := by
          have hflag : dord[i']?.map Prod.fst = some true := by
            have := hiflag
            rw [List.getElem?_set_ne (by omega)] at this
            exact this
          rcases Nat.lt_or_ge i i' with hcase | hcase
          · obtain ⟨b'', hb'', hd''⟩ := hmid i' hcase (by omega)
            rw [hd''] at hflag ⊢
            simp only [Option.map_some', Option.some.injEq] at hflag
            rw [hflag]
          · have hii : i' = i := by omega
            subst hii
            rw [hdi] at hflag
            simp only [Option.map_some', Option.some.injEq] at hflag
            have h2i := hposI dord[i'] hdi hflag
            rw [hdi]
            simp only [Option.some.injEq]
            rw [← Prod.mk.eta (p := dord[i']), hflag, h2i]
        have hxi : data[i']? = some data[i'] :=
          List.getElem?_eq_getElem (by omega)
        have hxj : data[j']? = some data[j'] :=
          List.getElem?_eq_getElem (by omega)
        -- the invariant holds of the configuration after the swap
        have hinv' : SwapInv flags data₀
            ((dord.set i' (false, j')).set j' (true, i'))
            ((data.set i' data[j']).set j' data[i']) i' (j' - 1) := by
          refine ⟨by simpa using hdlen, by simpa using hdatalen,
            by omega, by omega, ?_, ?_, ?_⟩
          · intro p hp1 hp2
            rw [List.getElem?_set_ne (by omega),
              List.getElem?_set_ne (by omega)]
            exact hmid p (by omega) (by omega)
          · intro fl hfl htrue
            rw [List.getElem?_set_ne (by omega),
              List.getElem?_set_eq (by simpa using hi'_lt)] at hfl
            have := Option.some.inj hfl
            rw [← this] at htrue
            exact absurd htrue (by simp)
          · intro p fl hp
            by_cases hp1 : p = i'
            · rw [hp1] at hp
              rw [hp1]
              rw [List.getElem?_set_ne (by omega),
                List.getElem?_set_eq (by simpa using hi'_lt)] at hp
              have hfl : (false, j') = fl := Option.some.inj hp
              subst hfl
              obtain ⟨g1, g2, g3, g4, g5, g6⟩ := htrk j' (false, j') hdj
              refine ⟨g1, ?_, ?_, g4, ?_, ?_⟩
              · refine ⟨(true, i'), ?_, rfl⟩
                show ((dord.set i' (false, j')).set j' (true, i'))[j']?
                  = some (true, i')
                rw [List.getElem?_set_eq (by first | omega | (simp only [List.length_set]; omega))]
              · show ((data.set i' data[j']).set j' data[i'])[i']?
                  = data₀[j']?
                rw [List.getElem?_set_ne (by omega),
                  List.getElem?_set_eq (by first | omega | (simp only [List.length_set]; omega))]
                rw [← g3, hxj]
              · intro hlt; omega
              · intro hlt; omega
            · by_cases hp2 : p = j'
              · rw [hp2] at hp
                rw [hp2]
                rw [List.getElem?_set_eq (by first | omega | (simp only [List.length_set]; omega))] at hp
                have hfl : (true, i') = fl := Option.some.inj hp
                subst hfl
                obtain ⟨g1, g2, g3, g4, g5, g6⟩ := htrk i' (true, i') hei
                refine ⟨g1, ?_, ?_, g4, ?_, ?_⟩
                · refine ⟨(false, j'), ?_, rfl⟩
                  show ((dord.set i' (false, j')).set j' (true, i'))[i']?
                    = some (false, j')
                  rw [List.getElem?_set_ne (by omega),
                    List.getElem?_set_eq (by simpa using hi'_lt)]
                · show ((data.set i' data[j']).set j' data[i'])[j']?
                    = data₀[i']?
                  rw [List.getElem?_set_eq (by first | omega | (simp only [List.length_set]; omega))]
                  rw [← g3, hxi]
                · intro hlt; omega
                · intro hlt; rfl
              · rw [List.getElem?_set_ne (by omega),
                  List.getElem?_set_ne (by omega)] at hp
                obtain ⟨g1, g2, g3, g4, g5, g6⟩ := htrk p fl hp
                obtain ⟨fl', hfl', hfl'2⟩ := g2
                have hne1 : fl.2 ≠ i' := by
                  intro he
                  rw [he, hei] at hfl'
                  have h9 := Option.some.inj hfl'
                  rw [← h9] at hfl'2
                  exact hp1 hfl'2.symm
                have hne2 : fl.2 ≠ j' := by
                  intro he
                  rw [he, hdj] at hfl'
                  have h9 := Option.some.inj hfl'
                  rw [← h9] at hfl'2
                  exact hp2 hfl'2.symm
                refine ⟨g1, ?_, ?_, g4, ?_, ?_⟩
                · refine ⟨fl', ?_, hfl'2⟩
                  rw [List.getElem?_set_ne (by omega),
                    List.getElem?_set_ne (by omega)]
                  exact hfl'
                · rw [List.getElem?_set_ne (by omega),
                    List.getElem?_set_ne (by omega)]
                  exact g3
                · intro hlt
                  rcases Nat.lt_or_ge p i with hcase | hcase
                  · exact g5 hcase
                  · have := hilow p hcase (by omega)
                    rw [List.getElem?_set_ne (by omega), hp] at this
                    simpa using this
                · intro hlt
                  rcases Nat.lt_or_ge j p with hcase | hcase
                  · exact g6 hcase
                  · have := hjhigh p (by omega) (by omega)
                    rw [List.getElem?_set_ne (by omega), hp] at this
                    simpa using this
        obtain ⟨k, dord', data', hrec, hpost⟩ :=
          ih _ _ i' (j' - 1) hinv' (by omega)
        refine ⟨k, dord', data', ?_, hpost⟩
        rw [swapLoop, hdi]
        simp only [hjscan, hrestore, hdj, hrestore2, hiscan, hei,
          hxi, hxj]
        rw [if_neg hieqj, if_neg hieqj2, if_pos hi'j'']
        exact hrec

theorem zip_range_getElem? (flags : List Bool) (p : Nat) :
    (flags.zip (List.range flags.length))[p]? =
      (flags[p]?).map (fun b => (b, p)) := by
  cases hp : flags[p]? with
  | none =>
    have hlen : flags.length ≤ p := by
      by_contra hc
      rw [List.getElem?_eq_getElem (by omega)] at hp
      exact absurd hp (by simp)
    rw [List.getElem?_eq_none (by simp [hlen])]
    simp
  | some b =>
    have hlen : p < flags.length := by
      by_contra hc
      rw [List.getElem?_eq_none (by omega)] at hp
      exact absurd hp (by simp)
    simp only [Option.map_some']
    rw [List.getElem?_zip_eq_some]
    exact ⟨hp, by rw [List.getElem?_range hlen]⟩

/-- Top-level correctness of the compaction pass started from the
identity table. -/
theorem swapRemove_post {α : Type} (flags : List Bool) (data₀ : List α)
    (hlen : data₀.length = flags.length) :
    ∃ k dord' data',
      swapRemove (flags.zip (List.range flags.length)) data₀
        = some (k, dord', data') ∧
      SwapPost flags data₀ k dord' data' := by
  have hziplen : (flags.zip (List.range flags.length)).length
      = flags.length := by simp
  by_cases h0 : flags.length = 0
  · refine ⟨0, flags.zip (List.range flags.length), data₀, ?_, ?_, ?_, ?_, ?_⟩
    · unfold swapRemove
      rw [if_pos (by simp [h0])]
    · exact hziplen
    · exact hlen
    · omega
    · intro p fl hp
      rw [List.getElem?_eq_none (by simp [h0])] at hp
      exact absurd hp (by simp)
  · have hinit : SwapInv flags data₀ (flags.zip (List.range flags.length))
        data₀ 0 (flags.length - 1) := by
      refine ⟨hziplen, hlen, by omega, by omega, ?_, ?_, ?_⟩
      · intro p hp1 hp2
        have hp : p < flags.length := by omega
        refine ⟨flags[p], List.getElem?_eq_getElem hp, ?_⟩
        rw [zip_range_getElem?, List.getElem?_eq_getElem hp]
        simp
      · intro fl hfl _
        rw [zip_range_getElem?] at hfl
        cases hb : flags[0]? with
        | none => rw [hb] at hfl; exact absurd hfl (by simp)
        | some b =>
          rw [hb] at hfl
          simp only [Option.map_some', Option.some.injEq] at hfl
          rw [← hfl]
      · intro p fl hp
        rw [zip_range_getElem?] at hp
        cases hb : flags[p]? with
        | none => rw [hb] at hp; exact absurd hp (by simp)
        | some b =>
          rw [hb] at hp
          simp only [Option.map_some', Option.some.injEq] at hp
          have hpn : p < flags.length := by
            by_contra hc
            rw [List.getElem?_eq_none (by omega)] at hb
            exact absurd hb (by simp)
          subst hp
          refine ⟨hpn, ⟨(b, p), ?_, rfl⟩, rfl, hb, ?_, ?_⟩
          · rw [zip_range_getElem?, hb]
            simp
          · intro h'; omega
          · intro h'; omega
    obtain ⟨k, dord', data', hrun, hpost⟩ :=
      swapLoop_correct flags data₀ (flags.length + 1)
        (flags.zip (List.range flags.length)) data₀ 0 (flags.length - 1)
        hinit (by omega)
    refine ⟨k, dord', data', ?_, hpost⟩
    unfold swapRemove
    rw [if_neg (by simpa using h0), hziplen]
    exact hrun

theorem map_getElem?_range {α : Type} (l : List α) :
    (List.range l.length).map (fun q => l[q]?) = l.map some := by
  induction l with
  | nil => simp
  | cons a t ih =>
    rw [List.length_cons, List.range_succ_eq_map, List.map_cons,
      List.map_map, List.map_cons]
    congr 1
    · simp
    · rw [← ih]
      apply List.map_congr_left
      intro q _
      simp [Function.comp]

/-- The count of surviving elements computed by the compaction equals the
number of clear flags: the recorded original positions form a permutation
of the index range under which the clear flags are exactly the first `k`
positions. -/
theorem swapPost_count {α : Type} {flags : List Bool} {data₀ : List α}
    {k : Nat} {dord' : List (Bool × Nat)} {data' : List α}
    (hpost : SwapPost flags data₀ k dord' data') :
    k = (flags.filter (fun b => !b)).length := by
  obtain ⟨hdlen, hdatalen, hkn, htrk⟩ := hpost
  set n := flags.length with hn
  set o : Nat → Nat := fun p => ((dord'[p]?).map Prod.snd).getD 0 with ho
  have hsome : ∀ p, p < n → ∃ fl, dord'[p]? = some fl := by
    intro p hp
    rw [List.getElem?_eq_getElem (by omega)]
    exact ⟨_, rfl⟩
  have ho_eq : ∀ p fl, dord'[p]? = some fl → o p = fl.2 := by
    intro p fl hp
    rw [ho]
    simp only []
    rw [hp]
    simp
  have ho_lt : ∀ p, p < n → o p < n := by
    intro p hp
    obtain ⟨fl, hfl⟩ := hsome p hp
    rw [ho_eq p fl hfl]
    exact (htrk p fl hfl).1
  have ho_inv : ∀ p, p < n → o (o p) = p := by
    intro p hp
    obtain ⟨fl, hfl⟩ := hsome p hp
    obtain ⟨h1, ⟨fl', hfl', hfl'2⟩, h3, h4, h5⟩ := htrk p fl hfl
    rw [ho_eq p fl hfl, ho_eq fl.2 fl' hfl', hfl'2]
  have ho_flag_lt : ∀ p, p < k → flags[o p]? = some false := by
    intro p hp
    obtain ⟨fl, hfl⟩ := hsome p (by omega)
    rw [ho_eq p fl hfl]
    exact (htrk p fl hfl).2.2.2.1 hp
  have ho_flag_ge : ∀ p, k ≤ p → p < n → flags[o p]? = some true := by
    intro p hp hpn
    obtain ⟨fl, hfl⟩ := hsome p hpn
    rw [ho_eq p fl hfl]
    exact (htrk p fl hfl).2.2.2.2 hp
  -- the recorded original positions form a permutation of `range n`
  have hperm : ((List.range n).map o).Perm (List.range n) := by
    have hnodup : ((List.range n).map o).Nodup := by
      refine List.Nodup.map_on ?_ (List.nodup_range n)
      intro x hx y hy hxy
      rw [List.mem_range] at hx hy
      rw [← ho_inv x hx, hxy, ho_inv y hy]
    have hsub : ((List.range n).map o) ⊆ List.range n := by
      intro x hx
      rw [List.mem_map] at hx
      obtain ⟨p, hp, hpx⟩ := hx
      rw [List.mem_range] at hp
      rw [List.mem_range, ← hpx]
      exact ho_lt p hp
    refine (hnodup.subperm hsub).perm_of_length_le ?_
    simp
  -- count clear flags through the permutation
  have hcount : flags.countP (fun b => !b)
      = ((List.range n).map (fun p => flags[o p]?)).countP
          (fun x => x == some false) := by
    have h1 : flags.countP (fun b => !b)
        = (flags.map some).countP (fun x => x == some false) := by
      rw [List.countP_map]
      apply List.countP_congr
      intro b _
      cases b <;> simp [Function.comp]
    rw [h1, ← map_getElem?_range, ← hn]
    have h2 : ((List.range n).map (fun q => flags[q]?)).countP
        (fun x => x == some false)
        = (((List.range n).map o).map (fun q => flags[q]?)).countP
          (fun x => x == some false) := by
      refine (List.Perm.countP_eq _ ?_).symm
      exact hperm.map _
    rw [h2, List.map_map]
    rfl
  have hsplit : (List.range n) = List.range k
      ++ (List.range (n - k)).map (k + ·) := by
    rw [← List.range_add]
    congr 1
    omega
  have heval : ((List.range n).map (fun p => flags[o p]?)).countP
      (fun x => x == some false) = k := by
    rw [hsplit, List.map_append, List.countP_append, List.map_map]
    have hA : ((List.range k).map (fun p => flags[o p]?)).countP
        (fun x => x == some false) = k := by
      rw [List.countP_eq_length.mpr, List.length_map, List.length_range]
      intro x hx
      rw [List.mem_map] at hx
      obtain ⟨p, hp, hpx⟩ := hx
      rw [List.mem_range] at hp
      rw [← hpx, ho_flag_lt p hp]
      rfl
    have hB : ((List.range (n - k)).map
        ((fun p => flags[o p]?) ∘ (k + ·))).countP
        (fun x => x == some false) = 0 := by
      rw [List.countP_eq_zero]
      intro x hx
      rw [List.mem_map] at hx
      obtain ⟨q, hq, hqx⟩ := hx
      rw [List.mem_range] at hq
      rw [← hqx]
      simp only [Function.comp]
      rw [ho_flag_ge (k + q) (by omega) (by omega)]
      simp
    rw [hA, hB]
    omega
  rw [List.countP_eq_length_filter] at hcount
  omega

/-- **C6**: run on a flag array (alongside the identity old-index table
its callers build) and the data array its callback swaps, the
`swap_remove` delete-compaction helper succeeds and returns exactly the
number `k` of unflagged (surviving) elements; the swaps move the
survivors into exactly the positions `[0, k)` of the data array — for
every unflagged old position `i`, the stored entry sends `i` to a new
index below `k` at which the data array holds the original element — and
the stored old-index→new-index entries, restricted to the old positions
of survivors, form a bijection onto `[0, k)`. -/
theorem swap_remove_compaction_correct {α : Type}
    (flags : List Bool) (data₀ : List α)
    (hlen : data₀.length = flags.length) :
    ∃ k dord' data',
      swapRemove (flags.zip (List.range flags.length)) data₀
        = some (k, dord', data') ∧
      k = (flags.filter (fun b => !b)).length ∧
      data'.length = data₀.length ∧
      (∀ i : Nat, flags[i]? = some false →
        ∃ fl : Bool × Nat, dord'[i]? = some fl ∧
          fl.2 < k ∧ data'[fl.2]? = data₀[i]?) ∧
      (∀ (i i' : Nat) (fl fl' : Bool × Nat),
        flags[i]? = some false → flags[i']? = some false →
        dord'[i]? = some fl → dord'[i']? = some fl' → fl.2 = fl'.2 →
        i = i') ∧
      (∀ p, p < k → ∃ (i : Nat) (fl : Bool × Nat),
        flags[i]? = some false ∧
        dord'[i]? = some fl ∧ fl.2 = p) := by
  obtain ⟨k, dord', data', hrun, hpost⟩ := swapRemove_post flags data₀ hlen
  have hcount := swapPost_count hpost
  obtain ⟨hdlen, hdatalen, hkn, htrk⟩ := hpost
  have hlook : ∀ p, p < flags.length → ∃ fl, dord'[p]? = some fl := by
    intro p hp
    rw [List.getElem?_eq_getElem (by omega)]
    exact ⟨_, rfl⟩
  have hidx : ∀ i, flags[i]? = some false → i < flags.length := by
    intro i hi
    by_contra hc
    rw [List.getElem?_eq_none (by omega)] at hi
    exact absurd hi (by simp)
  refine ⟨k, dord', data', hrun, hcount, by omega, ?_, ?_, ?_⟩
  · intro i hi
    obtain ⟨fl, hfl⟩ := hlook i (hidx i hi)
    obtain ⟨h1, ⟨fl', hfl', hinvol⟩, h3, h4, h5⟩ := htrk i fl hfl
    obtain ⟨g1, g2, g3, g4, g5⟩ := htrk fl.2 fl' hfl'
    have hflk : fl.2 < k := by
      by_contra hc
      have := g5 (by omega)
      rw [hinvol, hi] at this
      exact absurd (Option.some.inj this) (by simp)
    refine ⟨fl, hfl, hflk, ?_⟩
    rw [g3, hinvol]
  · intro i i' fl fl' hi hi' hfl hfl' heq
    obtain ⟨h1, ⟨g, hg, hginv⟩, _⟩ := htrk i fl hfl
    obtain ⟨h1', ⟨g', hg', hginv'⟩, _⟩ := htrk i' fl' hfl'
    rw [heq, hg'] at hg
    have := Option.some.inj hg
    rw [← hginv, ← hginv', this]
  · intro p hp
    obtain ⟨fl₀, hfl₀⟩ := hlook p (by omega)
    obtain ⟨h1, ⟨fl', hfl', hinvol⟩, h3, h4, h5⟩ := htrk p fl₀ hfl₀
    exact ⟨fl₀.2, fl', h4 hp, hfl', hinvol⟩

theorem swap_remove_compaction_correct_witness :
    ∃ k dord' data',
      swapRemove (([true, false, true, false] : List Bool).zip
        (List.range ([true, false, true, false] : List Bool).length))
        ([10, 20, 30, 40] : List Nat) = some (k, dord', data') ∧
      k = (([true, false, true, false] : List Bool).filter
        (fun b => !b)).length ∧
      data'.length = ([10, 20, 30, 40] : List Nat).length ∧
      (∀ i : Nat, ([true, false, true, false] : List Bool)[i]? = some false →
        ∃ fl : Bool × Nat, dord'[i]? = some fl ∧ fl.2 < k ∧
          data'[fl.2]? = ([10, 20, 30, 40] : List Nat)[i]?) ∧
      (∀ (i i' : Nat) (fl fl' : Bool × Nat),
        ([true, false, true, false] : List Bool)[i]? = some false →
        ([true, false, true, false] : List Bool)[i']? = some false →
        dord'[i]? = some fl → dord'[i']? = some fl' → fl.2 = fl'.2 →
        i = i') ∧
      (∀ p, p < k → ∃ (i : Nat) (fl : Bool × Nat),
        ([true, false, true, false] : List Bool)[i]? = some false ∧
        dord'[i]? = some fl ∧ fl.2 = p) :=
  swap_remove_compaction_correct [true, false, true, false]
    [10, 20, 30, 40] (by decide)

/-!
## Adjacency chains as an inductive relation

`ChainList edges d s l` holds when the direction-`d` traversal started at
cursor `s` is the finite, `END`-terminated sequence `l` of edge indices.
It characterizes the output of `impl_get_edges` on well-formed stores and
supports induction over the chain structure in the `remove_edge`
proofs. -/

inductive ChainList (edges : List (EdgeRepr E)) (d : Bool) :
    Nat → List Nat → Prop
  | nil : ChainList edges d u32Max []
  | cons {s : Nat} {e : EdgeRepr E} {l : List Nat} :
      s ≠ u32Max → edges[s]? = some e →
      ChainList edges d (e.next d) l →
      ChainList edges d s (s :: l)

theorem chainWalk_zero (edges : List (EdgeRepr E)) (d : Bool) (s : Nat) :
    chainWalk edges d 0 s = ([], s) := rfl

theorem chainWalk_succ (edges : List (EdgeRepr E)) (d : Bool) (f s : Nat) :
    chainWalk edges d (f + 1) s =
      match edges[s]? with
      | none => ([], s)
      | some e =>
        let (l, t) := chainWalk edges d f (e.next d)
        (s :: l, t) := rfl

theorem chainList_of_walk {edges : List (EdgeRepr E)} {d : Bool}
    (hlen : edges.length ≤ u32Max) :
    ∀ {fuel s : Nat} {l : List Nat},
      chainWalk edges d fuel s = (l, u32Max) →
      ChainList edges d s l := by
  intro fuel
  induction fuel with
  | zero =>
    intro s l h
    rw [chainWalk_zero] at h
    rw [Prod.mk.injEq] at h
    obtain ⟨h1, h2⟩ := h
    rw [← h1, h2]
    exact ChainList.nil
  | succ f ih =>
    intro s l h
    rw [chainWalk_succ] at h
    cases he : edges[s]? with
    | none =>
      rw [he] at h
      simp only [] at h
      rw [Prod.mk.injEq] at h
      obtain ⟨h1, h2⟩ := h
      rw [← h1, h2]
      exact ChainList.nil
    | some e =>
      rw [he] at h
      simp only [] at h
      cases hw : chainWalk edges d f (e.next d) with
      | mk l₁ t₁ =>
        rw [hw] at h
        rw [Prod.mk.injEq] at h
        obtain ⟨h1, h2⟩ := h
        have hs : s ≠ u32Max := by
          intro hc
          subst hc
          rw [List.getElem?_eq_none (by omega)] at he
          exact absurd he (by simp)
        have h1' : s :: l₁ = l := h1
        have h2' : t₁ = u32Max := h2
        rw [← h1']
        have hrec : chainWalk edges d f (e.next d) = (l₁, u32Max) := by
          rw [hw, h2']
        exact ChainList.cons hs he (ih hrec)

theorem walk_of_chainList {edges : List (EdgeRepr E)} {d : Bool}
    (hlen : edges.length ≤ u32Max) :
    ∀ {l : List Nat} {s fuel : Nat},
      ChainList edges d s l → l.length < fuel →
      chainWalk edges d fuel s = (l, u32Max) := by
  intro l
  induction l with
  | nil =>
    intro s fuel h hfuel
    cases h with
    | nil =>
      cases fuel with
      | zero => omega
      | succ f =>
        rw [chainWalk_succ, List.getElem?_eq_none (by omega)]
  | cons a t ih =>
    intro s fuel h hfuel
    cases h with
    | cons hs he hrest =>
      cases fuel with
      | zero => simp at hfuel
      | succ f =>
        rw [chainWalk_succ, he]
        simp only []
        rw [ih hrest (by simp at hfuel; omega)]

theorem chainList_deterministic {edges : List (EdgeRepr E)} {d : Bool} :
    ∀ {l₁ l₂ : List Nat} {s : Nat},
      ChainList edges d s l₁ → ChainList edges d s l₂ → l₁ = l₂ := by
  intro l₁
  induction l₁ with
  | nil =>
    intro l₂ s h1 h2
    cases h1 with
    | nil =>
      cases h2 with
      | nil => rfl
      | cons hs he hrest => exact absurd rfl hs
  | cons a t ih =>
    intro l₂ s h1 h2
    cases h1 with
    | cons hs he hrest =>
      cases h2 with
      | nil => exact absurd rfl hs
      | cons hs' he' hrest' =>
        rw [he] at he'
        have := Option.some.inj he'
        rw [← this] at hrest'
        rw [ih hrest hrest']

theorem chainList_mem_lt {edges : List (EdgeRepr E)} {d : Bool} :
    ∀ {l : List Nat} {s : Nat}, ChainList edges d s l →
      ∀ q ∈ l, q < edges.length := by
  intro l
  induction l with
  | nil => intro s _ q hq; exact absurd hq (by simp)
  | cons a t ih =>
    intro s h q hq
    cases h with
    | cons hs he hrest =>
      rcases List.mem_cons.mp hq with hqa | hqt
      · subst hqa
        by_contra hc
        rw [List.getElem?_eq_none (by omega)] at he
        exact absurd he (by simp)
      · exact ih hrest q hqt

/-- A chain is insensitive to an update at a position it does not
visit. -/
theorem chainList_set_of_not_mem {edges : List (EdgeRepr E)} {d : Bool}
    {p : Nat} {x : EdgeRepr E} :
    ∀ {l : List Nat} {s : Nat}, ChainList edges d s l → p ∉ l →
      ChainList (edges.set p x) d s l := by
  intro l
  induction l with
  | nil =>
    intro s h _
    cases h with
    | nil => exact ChainList.nil
  | cons a t ih =>
    intro s h hp
    cases h with
    | cons hs he hrest =>
      refine ChainList.cons hs ?_ (ih hrest (fun hc => hp (by simp [hc])))
      rw [List.getElem?_set_ne (fun hc => hp (by simp [← hc]))]
      exact he

/-- A chain only depends on the direction-`d` continuation fields and
the record domain. -/
theorem chainList_congr {edges edges' : List (EdgeRepr E)} {d : Bool}
    (h : ∀ q : Nat, (edges[q]?).map (fun e : EdgeRepr E => e.next d)
      = (edges'[q]?).map (fun e : EdgeRepr E => e.next d)) :
    ∀ {l : List Nat} {s : Nat},
      ChainList edges d s l → ChainList edges' d s l := by
  intro l
  induction l with
  | nil =>
    intro s hc
    cases hc with
    | nil => exact ChainList.nil
  | cons a t ih =>
    intro s hc
    cases hc with
    | @cons _ e _ hs he hrest =>
      have hq := h a
      rw [he] at hq
      cases he' : edges'[a]? with
      | none => rw [he'] at hq; exact absurd hq (by simp)
      | some e' =>
        rw [he'] at hq
        simp only [Option.map_some', Option.some.injEq] at hq
        refine ChainList.cons hs he' ?_
        rw [← hq]
        exact ih hrest

theorem lt_length_of_lookup {l : List α} {n : Nat} {a : α}
    (h : l[n]? = some a) : n < l.length := by
  by_contra hc
  rw [List.getElem?_eq_none (by omega)] at h
  exact absurd h (by simp)

theorem isEnd_false_of_lt {v n : Nat} (hn : n ≤ u32Max) (hv : v < n) :
    isEnd v = false := by
  have h32 : v < 2 ^ 32 := by
    have : u32Max < 2 ^ 32 := by unfold u32Max; omega
    omega
  rcases Bool.eq_false_or_eq_true (isEnd v) with h | h
  · have := (isEnd_eq_u32Max h32).mp h
    omega
  · exact h

theorem EdgeRepr.next_setNext_same (e : EdgeRepr E) (d : Bool) (v : Nat) :
    (e.setNext d v).next d = v := by cases d <;> rfl

theorem EdgeRepr.next_setNext_other (e : EdgeRepr E) (d : Bool) (v : Nat) :
    (e.setNext d v).next (!d) = e.next (!d) := by cases d <;> rfl

theorem NodeRepr.nodeNext_setNext_same (n : NodeRepr N) (d : Bool) (v : Nat) :
    (n.setNext d v).next d = v := by cases d <;> rfl

theorem NodeRepr.nodeNext_setNext_other (n : NodeRepr N) (d : Bool) (v : Nat) :
    (n.setNext d v).next (!d) = n.next (!d) := by cases d <;> rfl

theorem spliceWalk_zero (edges : List (EdgeRepr E)) (d : Bool)
    (tgt rep cur : Nat) : spliceWalk edges d tgt rep 0 cur = none := rfl

theorem spliceWalk_succ (edges : List (EdgeRepr E)) (d : Bool)
    (tgt rep f cur : Nat) :
    spliceWalk edges d tgt rep (f + 1) cur =
      if isEnd cur then some edges
      else
        match edges[cur]? with
        | none => none
        | some ce =>
          if ce.next d = tgt then some (edges.set cur (ce.setNext d rep))
          else spliceWalk edges d tgt rep f (ce.next d) := rfl

/-- Correctness of the predecessor-seeking splice walk of
`remove_edge_unchecked`, on a duplicate-free terminating chain that
contains the target `ix` but does not start at it: the walk finds the
unique in-chain predecessor `p` of `ix`, redirects only that record's
direction-`d` continuation to `ix`'s own continuation, and the rewritten
store carries the chain with `ix` deleted. -/
theorem spliceWalk_spec {edges : List (EdgeRepr E)} {d : Bool}
    {ix : Nat} {er : EdgeRepr E}
    (hlen : edges.length ≤ u32Max)
    (her : edges[ix]? = some er) :
    ∀ {l : List Nat} {s fuel : Nat},
      ChainList edges d s l → l.Nodup → s ≠ ix → ix ∈ l →
      l.length < fuel →
      ∃ p ep, p ∈ l ∧ p ≠ ix ∧ edges[p]? = some ep ∧ ep.next d = ix ∧
        spliceWalk edges d ix (er.next d) fuel s
          = some (edges.set p (ep.setNext d (er.next d))) ∧
        ChainList (edges.set p (ep.setNext d (er.next d))) d s
          (l.erase ix) := by
  intro l
  induction l with
  | nil =>
    intro s fuel _ _ _ hmem _
    exact absurd hmem (by simp)
  | cons a t ih =>
    intro s fuel hc hnd hsix hmem hfuel
    cases hc with
    | @cons _ e _ hs he hrest =>
      cases fuel with
      | zero => simp at hfuel
      | succ f =>
        have ha : a < edges.length := lt_length_of_lookup he
        have hEnd : isEnd a = false := isEnd_false_of_lt hlen ha
        have hna : a ∉ t := (List.nodup_cons.mp hnd).1
        have hndt : t.Nodup := (List.nodup_cons.mp hnd).2
        by_cases hfound : e.next d = ix
        · -- `a` is the predecessor of `ix`.
          have hrest' := hrest
          rw [hfound] at hrest'
          cases hrest' with
          | nil => exact absurd (lt_length_of_lookup her) (by omega)
          | @cons _ e₂ t₂ hs₂ he₂ hrest₂ =>
            rw [her] at he₂
            have he₂' : er = e₂ := Option.some.inj he₂
            refine ⟨a, e, by simp, hsix, he, hfound, ?_, ?_⟩
            · rw [spliceWalk_succ, hEnd]
              simp [he, hfound]
            · have herase : (a :: ix :: t₂).erase ix = a :: t₂ := by
                simp [List.erase_cons, hsix]
              rw [herase]
              refine ChainList.cons (e := e.setNext d (er.next d)) hs ?_ ?_
              · rw [List.getElem?_set_eq ha]
              · rw [EdgeRepr.next_setNext_same]
                rw [he₂']
                exact chainList_set_of_not_mem hrest₂
                  (fun hc => hna (List.mem_cons_of_mem _ hc))
        · -- keep walking: the predecessor is further down the chain.
          have hmt : ix ∈ t := by
            rcases List.mem_cons.mp hmem with h | h
            · exact absurd h.symm hsix
            · exact h
          obtain ⟨p, ep, hpmem, hpix, hpe, hpnext, hwalk, hchain⟩ :=
            @ih (e.next d) f hrest hndt hfound hmt
              (by simp at hfuel ⊢; omega)
          have hap : a ≠ p := fun hc => hna (hc ▸ hpmem)
          refine ⟨p, ep, by simp [hpmem], hpix, hpe, hpnext, ?_, ?_⟩
          · rw [spliceWalk_succ, hEnd]
            simp only [Bool.false_eq_true, if_false, he, if_neg hfound]
            exact hwalk
          · have herase : (a :: t).erase ix = a :: t.erase ix := by
              rw [List.erase_cons,
                if_neg (by simp only [beq_iff_eq]; exact hsix)]
            rw [herase]
            refine ChainList.cons (e := e) hs ?_ ?_
            · rw [List.getElem?_set_ne (Ne.symm hap), he]
            · exact hchain

theorem EdgeRepr.data_setNext (e : EdgeRepr E) (d : Bool) (v : Nat) :
    (e.setNext d v).data = e.data := by cases d <;> rfl

theorem EdgeRepr.src_setNext (e : EdgeRepr E) (d : Bool) (v : Nat) :
    (e.setNext d v).src = e.src := by cases d <;> rfl

theorem EdgeRepr.dst_setNext (e : EdgeRepr E) (d : Bool) (v : Nat) :
    (e.setNext d v).dst = e.dst := by cases d <;> rfl

theorem NodeRepr.nodeData_setNext (n : NodeRepr N) (d : Bool) (v : Nat) :
    (n.setNext d v).data = n.data := by cases d <;> rfl

theorem nodup_length_le {l : List Nat} {n : Nat} (hnd : l.Nodup)
    (hlt : ∀ q ∈ l, q < n) : l.length ≤ n := by
  have hsub : l ⊆ List.range n := fun q hq =>
    List.mem_range.mpr (hlt q hq)
  have := (List.subperm_of_subset hnd hsub).length_le
  simpa using this

/-- Correctness of `splice_out`: on a store whose direction-`d` chain of
node `v` is the duplicate-free terminating list `l` containing the edge
`ix`, the splice succeeds and (i) only `v`'s node record changes, and
only its direction-`d` head; (ii) every edge record keeps its payload,
endpoints and other-direction continuation; (iii) `v`'s direction-`d`
chain afterwards is `l` with `ix` deleted; (iv) any direction-`d` chain
disjoint from `l` is untouched. -/
theorem spliceOut_spec {nodes : List (NodeRepr N)}
    {edges : List (EdgeRepr E)} {d : Bool} {v ix : Nat}
    {nr : NodeRepr N} {er : EdgeRepr E} {l : List Nat}
    (hlen : edges.length ≤ u32Max)
    (hnr : nodes[v]? = some nr)
    (hchain : ChainList edges d (nr.next d) l)
    (hnd : l.Nodup) (hmem : ix ∈ l)
    (her : edges[ix]? = some er) :
    ∃ nodes' edges',
      spliceOut nodes edges d v ix (er.next d) = some (nodes', edges') ∧
      edges'[ix]? = some er ∧
      nodes'.length = nodes.length ∧ edges'.length = edges.length ∧
      (∀ u : Nat, u ≠ v → nodes'[u]? = nodes[u]?) ∧
      (∃ nr', nodes'[v]? = some nr' ∧ nr'.data = nr.data ∧
        nr'.next (!d) = nr.next (!d) ∧
        ChainList edges' d (nr'.next d) (l.erase ix)) ∧
      (∀ q : Nat, (edges[q]?).map (fun e : EdgeRepr E => e.next (!d))
        = (edges'[q]?).map (fun e : EdgeRepr E => e.next (!d))) ∧
      (∀ q : Nat,
        (edges'[q]?).map (fun e : EdgeRepr E => (e.data, e.src, e.dst))
        = (edges[q]?).map (fun e : EdgeRepr E => (e.data, e.src, e.dst))) ∧
      (∀ s' l', ChainList edges d s' l' → (∀ q ∈ l', q ∉ l) →
        ChainList edges' d s' l') := by
  have hv : v < nodes.length := lt_length_of_lookup hnr
  by_cases hn : nr.next d = ix
  · -- head case: the node's chain head is rewritten in place.
    have hchain' := hchain
    rw [hn] at hchain'
    cases hchain' with
    | nil => exact absurd (lt_length_of_lookup her) (by omega)
    | @cons _ e₂ t₂ hs₂ he₂ hrest₂ =>
      rw [her] at he₂
      have he₂' : er = e₂ := Option.some.inj he₂
      refine ⟨nodes.set v (nr.setNext d (er.next d)), edges, ?_, her, ?_,
        rfl, ?_, ?_, fun q => rfl, fun q => rfl, fun s' l' hc _ => hc⟩
      · unfold spliceOut
        rw [hnr]
        simp [hn]
      · exact List.length_set ..
      · intro u hu
        exact List.getElem?_set_ne (Ne.symm hu)
      · refine ⟨nr.setNext d (er.next d), List.getElem?_set_eq hv,
          NodeRepr.nodeData_setNext .., NodeRepr.nodeNext_setNext_other .., ?_⟩
        rw [NodeRepr.nodeNext_setNext_same]
        have herase : (ix :: t₂).erase ix = t₂ := by
          simp [List.erase_cons]
        rw [herase, he₂']
        exact hrest₂
  · -- walk case: the predecessor's continuation is rewritten.
    have hlt := chainList_mem_lt hchain
    have hfuel : l.length < edges.length + 1 :=
      Nat.lt_succ_of_le (nodup_length_le hnd hlt)
    obtain ⟨p, ep, hpmem, hpix, hpe, hpnext, hwalk, hchain'⟩ :=
      spliceWalk_spec hlen her hchain hnd hn hmem hfuel
    have hple : p < edges.length := lt_length_of_lookup hpe
    refine ⟨nodes, edges.set p (ep.setNext d (er.next d)), ?_, ?_, rfl,
      List.length_set .., fun u _ => rfl, ?_, ?_, ?_, ?_⟩
    · unfold spliceOut
      rw [hnr]
      simp only [hn, if_false, hwalk]
    · rw [List.getElem?_set_ne hpix]
      exact her
    · exact ⟨nr, hnr, rfl, rfl, hchain'⟩
    · intro q
      by_cases hq : q = p
      · subst hq
        rw [List.getElem?_set_eq hple, hpe]
        simp only [Option.map_some', EdgeRepr.next_setNext_other]
      · rw [List.getElem?_set_ne (Ne.symm hq)]
    · intro q
      by_cases hq : q = p
      · subst hq
        rw [List.getElem?_set_eq hple, hpe]
        simp only [Option.map_some', EdgeRepr.data_setNext,
          EdgeRepr.src_setNext, EdgeRepr.dst_setNext]
      · rw [List.getElem?_set_ne (Ne.symm hq)]
    · intro s' l' hc hdisj
      exact chainList_set_of_not_mem hc (fun hcm => hdisj p hcm hpmem)

/-- The index relocation performed by the swap-compaction step of
`remove_edge_unchecked`: the record moved out of the last slot (old
index `m`) is afterwards found at the freed slot `ix`; every other
surviving index is unchanged. -/
def relocIx (m ix v : Nat) : Nat := if v = m then ix else v

theorem relocIx_end {m ix : Nat} (hm : m ≠ u32Max) :
    relocIx m ix u32Max = u32Max := by
  unfold relocIx
  rw [if_neg (Ne.symm hm)]

theorem relocIx_ne_end {m ix v : Nat} (hix : ix ≠ u32Max)
    (hv : v ≠ u32Max) : relocIx m ix v ≠ u32Max := by
  unfold relocIx
  split
  · exact hix
  · exact hv

theorem relocIx_inj {m ix j₁ j₂ : Nat} (h₁ : j₁ ≠ ix) (h₂ : j₂ ≠ ix)
    (h : relocIx m ix j₁ = relocIx m ix j₂) : j₁ = j₂ := by
  unfold relocIx at h
  split at h <;> split at h <;> omega

theorem mem_incidentIxs {edges : List (EdgeRepr E)} {d : Bool}
    {v q : Nat} :
    q ∈ incidentIxs edges d v ↔
      ∃ e : EdgeRepr E, edges[q]? = some e ∧
        (if d then e.dst else e.src) = v := by
  unfold incidentIxs
  rw [List.mem_filter, List.mem_range]
  constructor
  · rintro ⟨hq, hp⟩
    cases he : edges[q]? with
    | none => rw [he] at hp; simp at hp
    | some e =>
      rw [he] at hp
      simp only [beq_iff_eq] at hp
      exact ⟨e, rfl, hp⟩
  · rintro ⟨e, he, hep⟩
    refine ⟨lt_length_of_lookup he, ?_⟩
    rw [he]
    simp [hep]

theorem incidentIxs_nodup (edges : List (EdgeRepr E)) (d : Bool)
    (v : Nat) : (incidentIxs edges d v).Nodup := by
  unfold incidentIxs
  exact List.Nodup.filter _ (List.nodup_range _)

theorem nodup_length_le_sub {l : List Nat} {n ix : Nat} (hnd : l.Nodup)
    (hixn : ix < n) (hlt : ∀ q ∈ l, q < n ∧ q ≠ ix) :
    l.length ≤ n - 1 := by
  have hsub : l ⊆ (List.range n).erase ix := by
    intro q hq
    rw [List.Nodup.mem_erase_iff (List.nodup_range n)]
    exact ⟨(hlt q hq).2, List.mem_range.mpr (hlt q hq).1⟩
  have hle := (List.subperm_of_subset hnd hsub).length_le
  rw [List.length_erase_of_mem (List.mem_range.mpr hixn)] at hle
  simpa using hle

/-- Lookup characterization of `Vec::swap_remove`: position `ix` now
holds the former last element, every other surviving position is
unchanged. -/
theorem listSwapRemove_lookup {l : List α} {ix : Nat}
    (h : ix < l.length) :
    ∃ x l', listSwapRemove l ix = some (x, l') ∧ l[ix]? = some x ∧
      l'.length = l.length - 1 ∧
      ∀ q : Nat, l'[q]? =
        if q < l.length - 1 then
          (if q = ix then l[l.length - 1]? else l[q]?)
        else none := by
  have hx : l[ix]? = some l[ix] := List.getElem?_eq_getElem h
  have hlast : l.getLast? = some (l.get ⟨l.length - 1, by omega⟩) := by
    rw [List.getLast?_eq_getElem?]
    exact List.getElem?_eq_getElem (by omega)
  refine ⟨l[ix], (l.set ix (l.get ⟨l.length - 1, by omega⟩)).dropLast, ?_,
    hx, ?_, ?_⟩
  · unfold listSwapRemove
    rw [hx, hlast]
  · rw [List.length_dropLast, List.length_set]
  · intro q
    rw [List.getElem?_dropLast, List.length_set]
    by_cases hq : q < l.length - 1
    · rw [if_pos hq, if_pos hq]
      by_cases hqi : q = ix
      · subst hqi
        rw [if_pos rfl, List.getElem?_set_eq h]
        exact (List.getElem?_eq_getElem (by omega)).symm
      · rw [if_neg hqi, List.getElem?_set_ne (fun hc => hqi hc.symm)]
    · rw [if_neg hq, if_neg hq]

/-- Transport of a chain through the swap-relocation renaming: if every
surviving record of `edges₂` reappears in `edges₃` at its renamed
position with both continuation fields renamed, then any terminating
chain of `edges₂` avoiding the deleted index `ix` reappears in `edges₃`
with renamed head and members. -/
theorem chainList_rename {edges₂ edges₃ : List (EdgeRepr E)} {d : Bool}
    {ix : Nat} {rn : Nat → Nat}
    (hrnEnd : rn u32Max = u32Max)
    (hrnNE : ∀ v : Nat, v ≠ u32Max → rn v ≠ u32Max)
    (hlook : ∀ (q : Nat) (e : EdgeRepr E), edges₂[q]? = some e → q ≠ ix →
      edges₃[rn q]? =
        some ⟨e.data, rn e.nextOut, rn e.nextIn, e.src, e.dst⟩) :
    ∀ {l : List Nat} {s : Nat}, ChainList edges₂ d s l → ix ∉ l →
      ChainList edges₃ d (rn s) (l.map rn) := by
  intro l
  induction l with
  | nil =>
    intro s hc _
    cases hc with
    | nil => rw [hrnEnd]; exact ChainList.nil
  | cons a t ih =>
    intro s hc hmem
    cases hc with
    | @cons _ e _ hs he hrest =>
      have hax : a ≠ ix := fun hc' => hmem (by simp [hc'])
      have hlook' := hlook a e he hax
      rw [List.map_cons]
      refine ChainList.cons (hrnNE a hs) hlook' ?_
      have hnext : (⟨e.data, rn e.nextOut, rn e.nextIn, e.src, e.dst⟩ :
          EdgeRepr E).next d = rn (e.next d) := by
        cases d <;> rfl
      rw [hnext]
      exact ih hrest (fun hc' => hmem (by simp [hc']))

/-- On a well-formed store, each node's direction-`dd` chain is a
duplicate-free terminating `ChainList` that enumerates (as a multiset)
the node's incident edges. -/
theorem wf_chainList {g : VecGraph N E} (hwf : g.Wf) {v : Nat}
    {nr : NodeRepr N} (dd : Bool) (hnr : g.nodes[v]? = some nr) :
    ∃ l : List Nat, ChainList g.edges dd (nr.next dd) l ∧
      l.Perm (incidentIxs g.edges dd v) ∧ l.Nodup := by
  obtain ⟨hnlen, helen, hends, hchains⟩ := hwf
  have hv : v < g.nodes.length := lt_length_of_lookup hnr
  have hok : g.ChainOkAt dd v := by
    rcases hchains v hv with ⟨h0, h1⟩
    cases dd
    · exact h0
    · exact h1
  unfold VecGraph.ChainOkAt VecGraph.walkOf at hok
  rw [hnr] at hok
  simp only [Option.map_some'] at hok
  cases hw : chainWalk g.edges dd (g.edges.length + 1) (nr.next dd) with
  | mk L T =>
    rw [hw] at hok
    simp only [] at hok
    obtain ⟨hT, hperm⟩ := hok
    subst hT
    refine ⟨L, chainList_of_walk helen hw, hperm, ?_⟩
    exact hperm.nodup_iff.mpr (incidentIxs_nodup ..)

/-- Assembly of the final state of `remove_edge_unchecked`: given the
post-splice store `(nodes₂, edges₂)` (edge `ix` already spliced out of
every chain) and a compaction renaming `rn` under which every surviving
record of `edges₂` reappears with renamed continuations, the final store
`(nodes₃, edges₃)` preserves node payloads, preserves surviving edge
payloads and endpoints at the renamed positions, relocates every chain
verbatim (minus `ix`, renamed by `rn`), and is well-formed. -/
theorem removeEdge_assemble {N E : Type} {g : VecGraph N E} {ix : Nat}
    {er : EdgeRepr E}
    {nodes₂ : List (NodeRepr N)} {edges₂ : List (EdgeRepr E)}
    {nodes₃ : List (NodeRepr N)} {edges₃ : List (EdgeRepr E)}
    {rn : Nat → Nat}
    (hwf : g.Wf)
    (her : g.edges[ix]? = some er)
    (he₂len : edges₂.length = g.edges.length)
    (hdesc : ∀ (dd : Bool) (v : Nat) (nr : NodeRepr N),
      g.nodes[v]? = some nr →
      ∀ L : List Nat, ChainList g.edges dd (nr.next dd) L →
      ∃ nr₂ : NodeRepr N, nodes₂[v]? = some nr₂ ∧ nr₂.data = nr.data ∧
        ChainList edges₂ dd (nr₂.next dd) (L.erase ix))
    (hrec₂ : ∀ q : Nat,
      (edges₂[q]?).map (fun e : EdgeRepr E => (e.data, e.src, e.dst))
      = (g.edges[q]?).map (fun e : EdgeRepr E => (e.data, e.src, e.dst)))
    (hrnEnd : rn u32Max = u32Max)
    (hrnNE : ∀ w : Nat, w ≠ u32Max → rn w ≠ u32Max)
    (hrn_inj : ∀ j₁ j₂ : Nat, j₁ ≠ ix → j₂ ≠ ix → rn j₁ = rn j₂ → j₁ = j₂)
    (hrn_big : ∀ j : Nat, g.edges.length ≤ j → j ≠ ix → rn j = j)
    (hlook : ∀ (q : Nat) (e : EdgeRepr E), edges₂[q]? = some e → q ≠ ix →
      edges₃[rn q]? =
        some ⟨e.data, rn e.nextOut, rn e.nextIn, e.src, e.dst⟩)
    (hnodes₃ : ∀ (v : Nat) (nr₂ : NodeRepr N), nodes₂[v]? = some nr₂ →
      nodes₃[v]? = some ⟨nr₂.data, rn nr₂.nextOut, rn nr₂.nextIn⟩)
    (hn₃len : nodes₃.length = g.nodes.length)
    (he₃len : edges₃.length = g.edges.length - 1)
    (hsurj : ∀ q : Nat, q < g.edges.length - 1 →
      ∃ j : Nat, j ≠ ix ∧ rn j = q ∧ j < g.edges.length) :
    (∀ v : Nat, (nodes₃[v]?).map (fun nr : NodeRepr N => nr.data)
      = (g.nodes[v]?).map (fun nr : NodeRepr N => nr.data)) ∧
    (∀ j : Nat, j ≠ ix →
      (edges₃[rn j]?).map (fun e : EdgeRepr E => (e.data, e.src, e.dst))
      = (g.edges[j]?).map (fun e : EdgeRepr E => (e.data, e.src, e.dst))) ∧
    (∀ (dd : Bool) (v : Nat) (l : List Nat),
      g.walkOf dd v = some (l, u32Max) →
      VecGraph.walkOf ⟨nodes₃, edges₃⟩ dd v
        = some ((l.erase ix).map rn, u32Max)) ∧
    VecGraph.Wf ⟨nodes₃, edges₃⟩ := by
  have hWF := hwf
  obtain ⟨hnlen, helen, hends, hchains⟩ := hWF
  have hixlt : ix < g.edges.length := lt_length_of_lookup her
  have h₂some : ∀ j : Nat, j < g.edges.length →
      ∃ e₂ : EdgeRepr E, edges₂[j]? = some e₂ := by
    intro j hj
    exact ⟨_, List.getElem?_eq_getElem (by rw [he₂len]; exact hj)⟩
  have hep : ∀ (j : Nat) (e₂ ej : EdgeRepr E), edges₂[j]? = some e₂ →
      g.edges[j]? = some ej →
      e₂.data = ej.data ∧ e₂.src = ej.src ∧ e₂.dst = ej.dst := by
    intro j e₂ ej h₂ hj
    have h := hrec₂ j
    rw [h₂, hj] at h
    simp only [Option.map_some', Option.some.injEq, Prod.mk.injEq] at h
    exact h
  have hW : ∀ (dd : Bool) (v : Nat) (nr : NodeRepr N) (L : List Nat),
      g.nodes[v]? = some nr → ChainList g.edges dd (nr.next dd) L →
      L.Nodup →
      VecGraph.walkOf ⟨nodes₃, edges₃⟩ dd v
        = some ((L.erase ix).map rn, u32Max) := by
    intro dd v nr L hnr hL hnd
    obtain ⟨nr₂, hnr₂, hdata₂, hch₂⟩ := hdesc dd v nr hnr L hL
    have hmem3 : ix ∉ L.erase ix := by
      intro hc
      exact absurd (hnd.mem_erase_iff.mp hc).1 (by simp)
    have hch₃ : ChainList edges₃ dd (rn (nr₂.next dd))
        ((L.erase ix).map rn) :=
      chainList_rename hrnEnd hrnNE hlook hch₂ hmem3
    have hlen₃u : edges₃.length ≤ u32Max := by rw [he₃len]; omega
    have hflen : ((L.erase ix).map rn).length < edges₃.length + 1 := by
      rw [List.length_map, he₃len]
      have hbound : (L.erase ix).length ≤ g.edges.length - 1 := by
        by_cases hin : ix ∈ L
        · rw [List.length_erase_of_mem hin]
          have := nodup_length_le hnd (chainList_mem_lt hL)
          omega
        · rw [List.erase_of_not_mem hin]
          exact nodup_length_le_sub hnd hixlt
            (fun q hq => ⟨chainList_mem_lt hL q hq,
              fun hc => hin (hc ▸ hq)⟩)
      omega
    have hwalk := walk_of_chainList hlen₃u hch₃ hflen
    have hlook₃ := hnodes₃ v nr₂ hnr₂
    have hhd : (⟨nr₂.data, rn nr₂.nextOut, rn nr₂.nextIn⟩ :
        NodeRepr N).next dd = rn (nr₂.next dd) := by cases dd <;> rfl
    unfold VecGraph.walkOf
    show (nodes₃[v]?).map (fun nr : NodeRepr N =>
        chainWalk edges₃ dd (edges₃.length + 1) (nr.next dd))
      = some ((L.erase ix).map rn, u32Max)
    rw [hlook₃]
    simp only [Option.map_some']
    rw [hhd, hwalk]
  have c5 : ∀ v : Nat, (nodes₃[v]?).map (fun nr : NodeRepr N => nr.data)
      = (g.nodes[v]?).map (fun nr : NodeRepr N => nr.data) := by
    intro v
    by_cases hv : v < g.nodes.length
    · obtain ⟨nr, hnr⟩ : ∃ nr, g.nodes[v]? = some nr :=
        ⟨_, List.getElem?_eq_getElem hv⟩
      obtain ⟨L, hL, hpermL, hndL⟩ := wf_chainList hwf false hnr
      obtain ⟨nr₂, hnr₂, hdata₂, _⟩ := hdesc false v nr hnr L hL
      rw [hnr, hnodes₃ v nr₂ hnr₂, Option.map_some', Option.map_some']
      show some nr₂.data = some nr.data
      rw [hdata₂]
    · have h1 : g.nodes[v]? = none := List.getElem?_eq_none (by omega)
      have h2 : nodes₃[v]? = none :=
        List.getElem?_eq_none (by rw [hn₃len]; omega)
      rw [h1, h2]
  have c6 : ∀ j : Nat, j ≠ ix →
      (edges₃[rn j]?).map (fun e : EdgeRepr E => (e.data, e.src, e.dst))
      = (g.edges[j]?).map
        (fun e : EdgeRepr E => (e.data, e.src, e.dst)) := by
    intro j hj
    by_cases hjl : j < g.edges.length
    · obtain ⟨e₂, h₂⟩ := h₂some j hjl
      rw [hlook j e₂ h₂ hj]
      have h := hrec₂ j
      rw [h₂] at h
      simp only [Option.map_some'] at h ⊢
      exact h
    · rw [hrn_big j (by omega) hj,
        List.getElem?_eq_none (le_of_not_lt hjl),
        List.getElem?_eq_none (by rw [he₃len]; omega)]
  have c7 : ∀ (dd : Bool) (v : Nat) (l : List Nat),
      g.walkOf dd v = some (l, u32Max) →
      VecGraph.walkOf ⟨nodes₃, edges₃⟩ dd v
        = some ((l.erase ix).map rn, u32Max) := by
    intro dd v l hwk
    unfold VecGraph.walkOf at hwk
    cases hnr : g.nodes[v]? with
    | none => rw [hnr] at hwk; exact absurd hwk (by simp)
    | some nr =>
      rw [hnr] at hwk
      simp only [Option.map_some', Option.some.injEq] at hwk
      have hL : ChainList g.edges dd (nr.next dd) l :=
        chainList_of_walk helen hwk
      obtain ⟨L₀, hL₀, _, hnd₀⟩ := wf_chainList hwf dd hnr
      have hLL : l = L₀ := chainList_deterministic hL hL₀
      subst hLL
      exact hW dd v nr l hnr hL hnd₀
  have hok₃ : ∀ (dd : Bool) (v : Nat), v < nodes₃.length →
      VecGraph.ChainOkAt ⟨nodes₃, edges₃⟩ dd v := by
    intro dd v hv
    have hvn : v < g.nodes.length := by rw [← hn₃len]; exact hv
    obtain ⟨nr, hnr⟩ : ∃ nr, g.nodes[v]? = some nr :=
      ⟨_, List.getElem?_eq_getElem hvn⟩
    obtain ⟨L, hL, hperm, hnd⟩ := wf_chainList hwf dd hnr
    have hwalk₃ := hW dd v nr L hnr hL hnd
    unfold VecGraph.ChainOkAt
    rw [hwalk₃]
    refine ⟨rfl, ?_⟩
    have hnd₃ : ((L.erase ix).map rn).Nodup := by
      refine List.Nodup.map_on ?_ (hnd.erase ix)
      intro j₁ h₁ j₂ h₂ hr
      exact hrn_inj j₁ j₂ (hnd.mem_erase_iff.mp h₁).1
        (hnd.mem_erase_iff.mp h₂).1 hr
    refine (List.perm_ext_iff_of_nodup hnd₃ (incidentIxs_nodup ..)).mpr ?_
    intro q
    rw [List.mem_map]
    constructor
    · rintro ⟨j, hjmem, hjrn⟩
      have hjix : j ≠ ix := (hnd.mem_erase_iff.mp hjmem).1
      have hjL : j ∈ L := List.mem_of_mem_erase hjmem
      have hjinc : j ∈ incidentIxs g.edges dd v := hperm.mem_iff.mp hjL
      obtain ⟨ej, hj, hjep⟩ := mem_incidentIxs.mp hjinc
      obtain ⟨e₂, h₂⟩ := h₂some j (lt_length_of_lookup hj)
      have h₃ := hlook j e₂ h₂ hjix
      rw [hjrn] at h₃
      refine mem_incidentIxs.mpr ⟨_, h₃, ?_⟩
      obtain ⟨_, hs, hd⟩ := hep j e₂ ej h₂ hj
      cases dd
      · show e₂.src = v
        rw [hs]
        exact hjep
      · show e₂.dst = v
        rw [hd]
        exact hjep
    · intro hqinc
      obtain ⟨e₃, hq3, hep3⟩ := mem_incidentIxs.mp hqinc
      have hqlt : q < edges₃.length := lt_length_of_lookup hq3
      obtain ⟨j, hjix, hrnj, hjlt⟩ := hsurj q (by
        rw [← he₃len]; exact hqlt)
      obtain ⟨e₂, h₂⟩ := h₂some j hjlt
      have h₃ := hlook j e₂ h₂ hjix
      rw [hrnj, hq3] at h₃
      have he₃ : e₃ = ⟨e₂.data, rn e₂.nextOut, rn e₂.nextIn,
          e₂.src, e₂.dst⟩ := Option.some.inj h₃
      obtain ⟨ej, hj⟩ : ∃ ej, g.edges[j]? = some ej :=
        ⟨_, List.getElem?_eq_getElem hjlt⟩
      obtain ⟨_, hs, hd⟩ := hep j e₂ ej h₂ hj
      have hjinc : j ∈ incidentIxs g.edges dd v := by
        refine mem_incidentIxs.mpr ⟨ej, hj, ?_⟩
        rw [he₃] at hep3
        cases dd
        · show ej.src = v
          rw [← hs]
          exact hep3
        · show ej.dst = v
          rw [← hd]
          exact hep3
      have hjL : j ∈ L := hperm.mem_iff.mpr hjinc
      exact ⟨j, hnd.mem_erase_iff.mpr ⟨hjix, hjL⟩, hrnj⟩
  have hwf₃ : VecGraph.Wf ⟨nodes₃, edges₃⟩ := by
    refine ⟨?_, ?_, ?_, ?_⟩
    · show nodes₃.length ≤ u32Max
      rw [hn₃len]
      exact hnlen
    · show edges₃.length ≤ u32Max
      rw [he₃len]
      omega
    · show ∀ e ∈ edges₃, e.src < nodes₃.length ∧ e.dst < nodes₃.length
      intro e₃ hmem
      obtain ⟨q, hq⟩ := List.mem_iff_getElem?.mp hmem
      have hqlt : q < edges₃.length := lt_length_of_lookup hq
      obtain ⟨j, hjix, hrnj, hjlt⟩ := hsurj q (by
        rw [← he₃len]; exact hqlt)
      obtain ⟨e₂, h₂⟩ := h₂some j hjlt
      have h₃ := hlook j e₂ h₂ hjix
      rw [hrnj, hq] at h₃
      have he₃ : e₃ = ⟨e₂.data, rn e₂.nextOut, rn e₂.nextIn,
          e₂.src, e₂.dst⟩ := Option.some.inj h₃
      obtain ⟨ej, hj⟩ : ∃ ej, g.edges[j]? = some ej :=
        ⟨_, List.getElem?_eq_getElem hjlt⟩
      obtain ⟨_, hs, hd⟩ := hep j e₂ ej h₂ hj
      obtain ⟨hs', hd'⟩ := hends ej (List.mem_iff_getElem?.mpr ⟨j, hj⟩)
      rw [he₃]
      constructor
      · show e₂.src < nodes₃.length
        rw [hn₃len, hs]
        exact hs'
      · show e₂.dst < nodes₃.length
        rw [hn₃len, hd]
        exact hd'
    · intro v hv
      exact ⟨hok₃ false v hv, hok₃ true v hv⟩
  exact ⟨c5, c6, c7, hwf₃⟩

/-- The index-space invariant: both record arrays stay within the `u32`
index space, so `u32::MAX` is never a live index. -/
def LenOk (g : VecGraph N E) : Prop :=
  g.nodes.length ≤ u32Max ∧ g.edges.length ≤ u32Max

theorem reachable_lenOk {g : VecGraph N E} (h : Reachable g) : LenOk g := by
  induction h with
  | empty => exact ⟨by simp [VecGraph.empty], by simp [VecGraph.empty]⟩
  | @step g op g' _ hop ih =>
    obtain ⟨hn, he⟩ := ih
    cases op with
    | addN d =>
      simp only [applyGOp] at hop
      cases ha : g.addNode d with
      | none => rw [ha] at hop; exact absurd hop (by simp)
      | some p =>
        rw [ha] at hop
        simp only [Option.map_some', Option.some.injEq] at hop
        unfold VecGraph.addNode at ha
        split at ha
        · exact absurd ha (by simp)
        · simp only [Option.some.injEq] at ha
          rw [← hop, ← ha]
          refine ⟨?_, he⟩
          simp only [List.length_append, List.length_cons,
            List.length_nil]
          omega
    | addE d a b =>
      simp only [applyGOp] at hop
      cases ha : g.addEdge d a b with
      | none => rw [ha] at hop; exact absurd hop (by simp)
      | some p =>
        rw [ha] at hop
        simp only [Option.map_some', Option.some.injEq] at hop
        unfold VecGraph.addEdge VecGraph.addEdgeUnchecked at ha
        split at ha
        · split at ha
          · exact absurd ha (by simp)
          · split at ha
            · split at ha <;>
              · simp only [Option.some.injEq] at ha
                rw [← hop, ← ha]
                constructor
                · simpa using hn
                · simp only [List.length_append, List.length_cons,
                    List.length_nil]
                  omega
            · exact absurd ha (by simp)
        · exact absurd ha (by simp)
    | remE ix =>
      simp only [applyGOp] at hop
      cases ha : g.removeEdge ix with
      | none => rw [ha] at hop; exact absurd hop (by simp)
      | some p =>
        rw [ha] at hop
        simp only [Option.map_some', Option.some.injEq] at hop
        unfold VecGraph.removeEdge at ha
        split at ha
        · have := removeEdgeUnchecked_length ha
          rw [← hop]
          exact ⟨by omega, by omega⟩
        · exact absurd ha (by simp)
    | remN v =>
      simp only [applyGOp] at hop
      cases ha : g.removeNode v with
      | none => rw [ha] at hop; exact absurd hop (by simp)
      | some p =>
        rw [ha] at hop
        simp only [Option.map_some', Option.some.injEq] at hop
        unfold VecGraph.removeNode at ha
        split at ha
        · have := removeNodeUnchecked_length ha
          rw [← hop]
          exact ⟨by omega, by omega⟩
        · exact absurd ha (by simp)
    | batch ns es =>
      simp only [applyGOp] at hop
      cases ha : g.removeNodesEdgesUnchecked ns es with
      | none => rw [ha] at hop; exact absurd hop (by simp)
      | some p =>
        rw [ha] at hop
        simp only [Option.map_some', Option.some.injEq] at hop
        rw [← Prod.mk.eta (p := p), ← Prod.mk.eta (p := p.2)] at ha
        have := removeNodesEdgesUnchecked_length ha
        rw [← hop]
        exact ⟨by omega, by omega⟩
    | batchSeq ns es =>
      simp only [applyGOp] at hop
      cases ha : g.removeNodesEdgesSeq ns es with
      | none => rw [ha] at hop; exact absurd hop (by simp)
      | some p =>
        rw [ha] at hop
        simp only [Option.map_some', Option.some.injEq] at hop
        rw [← Prod.mk.eta (p := p), ← Prod.mk.eta (p := p.2)] at ha
        have := removeNodesEdgesSeq_length ha
        rw [← hop]
        exact ⟨by omega, by omega⟩

/-!
## Claim theorems
-/

/-- **C2**: the claim states that the SCC-finalization stop test compares
discovery-index values and never formatted strings.  In the code
(`src/algo/tarjan.rs` lines 152-153) the decision is
`std::ptr::eq(&w, &node) || format!("{:?}", w) == format!("{:?}", node)`:
an always-false address comparison of two distinct locals, followed by a
comparison of the `Debug`-formatted strings of the two node handles — no
discovery index is consulted.  This theorem evaluates the embedded stop
condition: it is definitionally the string comparison, the pointer
disjunct is constantly false, and at the failing input (popping node 0
while finalizing root 0) the decision is exactly
`"NodeIx(0)" == "NodeIx(0)"`. -/
theorem tarjan_root_detection_is_string_based :
    (∀ w v, nodeDebugEq w v
      = (rustPtrEq w v || (nodeDebugStr w == nodeDebugStr v))) ∧
    (∀ w v, rustPtrEq w v = false) ∧
    nodeDebugStr 0 = "NodeIx(0)" ∧
    nodeDebugEq 0 0 = ("NodeIx(0)" == "NodeIx(0)") :=
  ⟨fun _ _ => rfl, fun _ _ => rfl, by decide, by decide⟩

/-- **C3**: removing the single edge 1 from `gPar3` (no nodes) through
`remove_nodes_edges_unchecked` and through element-wise removal returns
the same payloads and leaves the same counts, but the two final stores
are not equal up to index renaming: after the batch removal node 0 has
one outgoing edge and node 1 one incoming edge, after element-wise
removal each has two, because the batch compaction rewrote the surviving
edge's continuation fields to the dead slot 2 instead of splicing the
deleted edge out of the chains. -/
theorem batch_removal_differs_from_elementwise_removal :
    gPar3.removeNodesEdgesUnchecked [] [1] = some ([], [101], gBatchRes) ∧
    gPar3.removeNodesEdgesSeq [] [1] = some ([], [101], gSeqRes) ∧
    gBatchRes.nodes.length = gSeqRes.nodes.length ∧
    gBatchRes.edges.length = gSeqRes.edges.length ∧
    gBatchRes.outgoingChecked 0 = some [1] ∧
    gSeqRes.outgoingChecked 0 = some [1, 0] ∧
    gBatchRes.incomingChecked 1 = some [1] ∧
    gSeqRes.incomingChecked 1 = some [1, 0] := by
  refine ⟨by decide, by decide, by decide, by decide, by decide, by decide,
    by decide, by decide⟩

/-- **C4**: `gC4` is reachable through public operations and satisfies
the data-model invariant, node 0 exists with incident live edges at
indices 2 and 4 — yet the checked `remove_node(0)` faults (`none`): it
collects the outgoing chain `[2, 4]` up front, removes edge 2, whose
swap-compaction relocates edge 4 into slot 2, and then performs the
unchecked removal of the now out-of-range stale index 4 (an out-of-bounds
access: undefined behaviour in release builds, a `debug_assert!` panic
otherwise), instead of returning payload 0 with both incident edges
removed. -/
theorem remove_node_faults_on_reachable_state :
    Reachable gC4 ∧ gC4.Wf ∧ gC4.existsNode 0 = true ∧
    gC4.outgoingChecked 0 = some [2, 4] ∧
    gC4.edges.length = 5 ∧
    gC4.removeNode 0 = none :=
  ⟨gC4_reachable, by decide, by decide, by decide, by decide, by decide⟩

/-- **C7**: the batch removal of edge 1 from the reachable, well-formed
store `gPar3` succeeds and produces the reachable store `gBatchRes` that
violates the chain invariant: the surviving edge 1 carries the dangling
continuation value 2 (not `END`, not a live index of the 2-element edge
array), so node 0's outgoing chain terminates early and misses edge 0
even though edge 0 is live with source 0. -/
theorem batch_removal_breaks_chain_invariant :
    Reachable gPar3 ∧ gPar3.Wf ∧
    applyGOp gPar3 (.batch [] [1]) = some gBatchRes ∧
    Reachable gBatchRes ∧
    ¬ gBatchRes.Wf ∧
    (gBatchRes.edges[1]?).map EdgeRepr.nextOut = some 2 ∧
    isEnd 2 = false ∧ gBatchRes.edges.length = 2 ∧
    incidentIxs gBatchRes.edges false 0 = [0, 1] ∧
    gBatchRes.outgoingChecked 0 = some [1] :=
  ⟨gPar3_reachable, by decide, by decide,
   @Reachable.step Nat Nat gPar3 (GOp.batch [] [1]) gBatchRes
     gPar3_reachable (by decide),
   by decide, by decide, by decide, by decide, by decide, by decide⟩

/-- **C8**: every checked operation on an index that does not currently
exist — payload reads, payload mutation, endpoint query, single
removals, edge insertion with a missing endpoint, and the three checked
adjacency iterations — fails (`none`, the modelled "index not found"
panic) instead of returning a value.  A failed call carries no successor
state, so the store is unchanged. -/
theorem checked_ops_fail_on_missing_index {N E : Type}
    (g : VecGraph N E) (ix : Nat) (f : N → N) (fe : E → E) (d : E) :
    (g.existsNode ix = false →
      g.node ix = none ∧ g.nodeModify ix f = none ∧
      g.removeNode ix = none ∧
      g.outgoingChecked ix = none ∧ g.incomingChecked ix = none ∧
      g.connectingChecked ix = none ∧
      (∀ w, g.addEdge d ix w = none) ∧ (∀ w, g.addEdge d w ix = none)) ∧
    (g.existsEdge ix = false →
      g.edge ix = none ∧ g.edgeModify ix fe = none ∧
      g.endpoints ix = none ∧ g.removeEdge ix = none) := by
  constructor
  · intro h
    refine ⟨?_, ?_, ?_, ?_, ?_, ?_, ?_, ?_⟩
    · simp [VecGraph.node, h]
    · simp [VecGraph.nodeModify, h]
    · simp [VecGraph.removeNode, h]
    · simp [VecGraph.outgoingChecked, h]
    · simp [VecGraph.incomingChecked, h]
    · simp [VecGraph.connectingChecked, h]
    · intro w; simp [VecGraph.addEdge, h]
    · intro w; simp [VecGraph.addEdge, h]
  · intro h
    refine ⟨?_, ?_, ?_, ?_⟩
    · simp [VecGraph.edge, h]
    · simp [VecGraph.edgeModify, h]
    · simp [VecGraph.endpoints, h]
    · simp [VecGraph.removeEdge, h]

theorem checked_ops_fail_on_missing_index_witness :
    ((VecGraph.empty Nat Nat).existsNode 3 = false ∧
      (VecGraph.empty Nat Nat).existsEdge 3 = false) ∧
    (VecGraph.empty Nat Nat).node 3 = none ∧
    (VecGraph.empty Nat Nat).removeNode 3 = none ∧
    (VecGraph.empty Nat Nat).endpoints 3 = none ∧
    (VecGraph.empty Nat Nat).removeEdge 3 = none := by
  have h := checked_ops_fail_on_missing_index
    (VecGraph.empty Nat Nat) 3 id id 0
  exact ⟨⟨by decide, by decide⟩, (h.1 (by decide)).1,
    (h.1 (by decide)).2.2.1, (h.2 (by decide)).2.2.1,
    (h.2 (by decide)).2.2.2⟩

/-- **C9**: `add_node` fails exactly when the node count has reached
`u32::MAX`; below that limit it returns the previous count as the new
index, grows the node count by one, stores the payload retrievably at
the new index, and leaves the edge array and the existing node payloads
untouched. -/
theorem add_node_appends_at_count {N E : Type} (g : VecGraph N E) (d : N) :
    (g.addNode d = none ↔ g.nodes.length = u32Max) ∧
    (g.nodes.length < u32Max →
      ∃ g', g.addNode d = some (g.nodes.length, g') ∧
        g'.nodes.length = g.nodes.length + 1 ∧
        g'.edges = g.edges ∧
        g'.node g.nodes.length = some d ∧
        (∀ j < g.nodes.length, g'.node j = g.node j)) := by
  constructor
  · unfold VecGraph.addNode
    split
    · simp_all
    · simp_all
  · intro h
    refine ⟨{ g with nodes := g.nodes ++ [⟨d, u32Max, u32Max⟩] },
      ?_, ?_, rfl, ?_, ?_⟩
    · unfold VecGraph.addNode
      rw [if_neg (by omega)]
    · simp
    · unfold VecGraph.node VecGraph.existsNode
      rw [if_pos (by simp)]
      simp
    · intro j hj
      unfold VecGraph.node VecGraph.existsNode
      rw [if_pos (by simp; omega), if_pos (by simpa using hj)]
      rw [List.getElem?_append_left hj]

/-- **C10**: in every state reachable through the public operations both
record arrays hold at most `u32::MAX` elements (insertion refuses to grow
past that), so `exists_node_index(NodeIx(u32::MAX))` and
`exists_edge_index(EdgeIx(u32::MAX))` are false and every live index —
in particular every index ever handed out — satisfies `is_end = false`:
a chain field holding `END` is always a chain terminator, never a live
edge. -/
theorem reachable_end_sentinel_never_live {N E : Type} {g : VecGraph N E}
    (h : Reachable g) :
    g.existsNode u32Max = false ∧ g.existsEdge u32Max = false ∧
    (∀ ix, g.existsNode ix = true → isEnd ix = false) ∧
    (∀ ix, g.existsEdge ix = true → isEnd ix = false) := by
  obtain ⟨hn, he⟩ := reachable_lenOk h
  refine ⟨?_, ?_, ?_, ?_⟩
  · simp only [VecGraph.existsNode, decide_eq_false_iff_not, not_lt]
    exact hn
  · simp only [VecGraph.existsEdge, decide_eq_false_iff_not, not_lt]
    exact he
  · intro ix hix
    simp only [VecGraph.existsNode, decide_eq_true_eq] at hix
    have h32 : ix < 2 ^ 32 := by unfold u32Max at hn; omega
    have : ix ≠ u32Max := by omega
    cases hEnd : isEnd ix with
    | false => rfl
    | true => exact absurd ((isEnd_eq_u32Max h32).mp hEnd) this
  · intro ix hix
    simp only [VecGraph.existsEdge, decide_eq_true_eq] at hix
    have h32 : ix < 2 ^ 32 := by unfold u32Max at he; omega
    have : ix ≠ u32Max := by omega
    cases hEnd : isEnd ix with
    | false => rfl
    | true => exact absurd ((isEnd_eq_u32Max h32).mp hEnd) this

theorem reachable_end_sentinel_never_live_witness :
    gC4.existsNode u32Max = false ∧ gC4.existsEdge u32Max = false ∧
    (∀ ix, gC4.existsNode ix = true → isEnd ix = false) ∧
    (∀ ix, gC4.existsEdge ix = true → isEnd ix = false) :=
  reachable_end_sentinel_never_live gC4_reachable

theorem add_node_appends_at_count_witness :
    (VecGraph.empty Nat Nat).nodes.length < u32Max ∧
    ((VecGraph.empty Nat Nat).addNode 7 = none ↔
      (VecGraph.empty Nat Nat).nodes.length = u32Max) ∧
    ∃ g', (VecGraph.empty Nat Nat).addNode 7 = some (0, g') ∧
      g'.nodes.length = 1 ∧ g'.edges = [] ∧ g'.node 0 = some 7 :=
  ⟨by decide, (add_node_appends_at_count (VecGraph.empty Nat Nat) 7).1,
    match (add_node_appends_at_count (VecGraph.empty Nat Nat) 7).2
      (by decide) with
    | ⟨g', h1, h2, h3, h4, _⟩ => ⟨g', h1, h2, h3, h4⟩⟩

/-- **C5.** On every well-formed store, `remove_edge` of a live edge
index `ix` succeeds, returning exactly that edge's payload, and: the
edge count decreases by exactly one while the node count is unchanged;
every node keeps its payload; every surviving edge keeps its payload and
endpoints, found at position `relocIx (len-1) ix j` — its old position
`j`, except that the record relocated out of the last slot by the
swap-compaction is now known under the freed index `ix`; and every
node's outgoing and incoming chain is exactly its previous chain with
`ix` deleted and the surviving indices renamed by the same relocation —
in particular `ix` is spliced out of its source's outgoing and its
target's incoming chain and every other chain keeps its exact
membership.  The resulting store is again well-formed. -/
theorem remove_edge_frame_correct {N E : Type} (g : VecGraph N E)
    (ix : Nat) (hwf : g.Wf) (hix : g.existsEdge ix = true) :
    ∃ (er : EdgeRepr E) (g' : VecGraph N E),
      g.edges[ix]? = some er ∧
      g.removeEdge ix = some (er.data, g') ∧
      g'.nodes.length = g.nodes.length ∧
      g'.edges.length = g.edges.length - 1 ∧
      (∀ v : Nat, (g'.nodes[v]?).map (fun nr : NodeRepr N => nr.data)
        = (g.nodes[v]?).map (fun nr : NodeRepr N => nr.data)) ∧
      (∀ j : Nat, j ≠ ix →
        (g'.edges[relocIx (g.edges.length - 1) ix j]?).map
            (fun e : EdgeRepr E => (e.data, e.src, e.dst))
          = (g.edges[j]?).map
            (fun e : EdgeRepr E => (e.data, e.src, e.dst))) ∧
      (∀ (dir : Bool) (v : Nat) (l : List Nat),
        g.walkOf dir v = some (l, u32Max) →
        g'.walkOf dir v =
          some ((l.erase ix).map (relocIx (g.edges.length - 1) ix),
            u32Max)) ∧
      g'.Wf := by
  have hWF := hwf
  obtain ⟨hnlen, helen, hends, hchains⟩ := hWF
  have hixlt : ix < g.edges.length := by
    simpa [VecGraph.existsEdge] using hix
  cases her : g.edges[ix]? with
  | none =>
    rw [List.getElem?_eq_getElem hixlt] at her
    exact absurd her (by simp)
  | some er =>
    obtain ⟨hsrc_lt, hdst_lt⟩ :=
      hends er (List.mem_iff_getElem?.mpr ⟨ix, her⟩)
    obtain ⟨nrsrc, hnrsrc⟩ : ∃ nr, g.nodes[er.src]? = some nr :=
      ⟨_, List.getElem?_eq_getElem hsrc_lt⟩
    obtain ⟨nrdst, hnrdst⟩ : ∃ nr, g.nodes[er.dst]? = some nr :=
      ⟨_, List.getElem?_eq_getElem hdst_lt⟩
    -- helper facts about `ix`'s incidence
    have hix_mem : ∀ (dd : Bool) (w : Nat),
        ix ∈ incidentIxs g.edges dd w ↔
          (if dd then er.dst else er.src) = w := by
      intro dd w
      rw [mem_incidentIxs]
      constructor
      · rintro ⟨e, he, hp⟩
        rw [her] at he
        rw [← Option.some.inj he] at hp
        exact hp
      · intro h
        exact ⟨er, her, h⟩
    have hdisj : ∀ (dd : Bool) (v w : Nat), v ≠ w → ∀ q : Nat,
        q ∈ incidentIxs g.edges dd v → q ∈ incidentIxs g.edges dd w →
        False := by
      intro dd v w hvw q h1 h2
      obtain ⟨e1, he1, hp1⟩ := mem_incidentIxs.mp h1
      obtain ⟨e2, he2, hp2⟩ := mem_incidentIxs.mp h2
      rw [he1] at he2
      rw [← Option.some.inj he2] at hp2
      exact hvw (hp1.symm.trans hp2)
    -- the source's outgoing chain and the first splice
    obtain ⟨lsrc, hcl_src, hperm_src, hnd_src⟩ :=
      wf_chainList hwf false hnrsrc
    have hix_src : ix ∈ lsrc :=
      hperm_src.mem_iff.mpr ((hix_mem false er.src).mpr (by simp))
    obtain ⟨nodes₁, edges₁, hsp₁, hix₁, hn₁len, he₁len, hn₁frame,
        ⟨nr₁, hnr₁, hnr₁data, hnr₁other, hcl₁⟩, he₁next, he₁rec,
        hpres₁⟩ :=
      spliceOut_spec helen hnrsrc hcl_src hnd_src hix_src her
    simp only [Bool.not_false] at he₁next hnr₁other
    have hcongr₁true : ∀ {l : List Nat} {s : Nat},
        ChainList g.edges true s l → ChainList edges₁ true s l :=
      fun hc => chainList_congr he₁next hc
    -- the target's incoming chain, transported, and the second splice
    obtain ⟨ldst, hcl_dst, hperm_dst, hnd_dst⟩ :=
      wf_chainList hwf true hnrdst
    obtain ⟨nr₁d, hnr₁d, hnr₁d_true, hnr₁d_data⟩ :
        ∃ nr₁d : NodeRepr N, nodes₁[er.dst]? = some nr₁d ∧
          nr₁d.next true = nrdst.next true ∧ nr₁d.data = nrdst.data := by
      by_cases hsd : er.dst = er.src
      · rw [hsd] at hnrdst
        rw [hnrsrc] at hnrdst
        have hnn : nrsrc = nrdst := Option.some.inj hnrdst
        refine ⟨nr₁, by rw [hsd]; exact hnr₁, ?_, ?_⟩
        · rw [hnr₁other, hnn]
        · rw [hnr₁data, hnn]
      · exact ⟨nrdst, by rw [hn₁frame er.dst hsd]; exact hnrdst, rfl, rfl⟩
    have hcl_dst₁ : ChainList edges₁ true (nr₁d.next true) ldst := by
      rw [hnr₁d_true]
      exact hcongr₁true hcl_dst
    have hix_dst : ix ∈ ldst :=
      hperm_dst.mem_iff.mpr ((hix_mem true er.dst).mpr (by simp))
    have he₁lenu : edges₁.length ≤ u32Max := by rw [he₁len]; exact helen
    obtain ⟨nodes₂, edges₂, hsp₂, hix₂, hn₂len, he₂len, hn₂frame,
        ⟨nr₂d, hnr₂d, hnr₂d_data, hnr₂d_other, hcl₂⟩, he₂next, he₂rec,
        hpres₂⟩ :=
      spliceOut_spec he₁lenu hnr₁d hcl_dst₁ hnd_dst hix_dst hix₁
    simp only [Bool.not_true] at he₂next hnr₂d_other
    have hcongr₂false : ∀ {l : List Nat} {s : Nat},
        ChainList edges₁ false s l → ChainList edges₂ false s l :=
      fun hc => chainList_congr he₂next hc
    have he₂len' : edges₂.length = g.edges.length := by
      rw [he₂len, he₁len]
    have hn₂len' : nodes₂.length = g.nodes.length := by
      rw [hn₂len, hn₁len]
    have hrec₂ : ∀ q : Nat,
        (edges₂[q]?).map (fun e : EdgeRepr E => (e.data, e.src, e.dst))
        = (g.edges[q]?).map
          (fun e : EdgeRepr E => (e.data, e.src, e.dst)) := by
      intro q
      rw [he₂rec q, he₁rec q]
    -- the uniform post-splice description of every chain
    have hdesc : ∀ (dd : Bool) (v : Nat) (nr : NodeRepr N),
        g.nodes[v]? = some nr →
        ∀ L : List Nat, ChainList g.edges dd (nr.next dd) L →
        ∃ nr₂ : NodeRepr N, nodes₂[v]? = some nr₂ ∧ nr₂.data = nr.data ∧
          ChainList edges₂ dd (nr₂.next dd) (L.erase ix) := by
      intro dd v nr hnr L hL
      obtain ⟨L₀, hL₀, hperm₀, hnd₀⟩ := wf_chainList hwf dd hnr
      have hLperm : L.Perm (incidentIxs g.edges dd v) := by
        rw [chainList_deterministic hL hL₀]
        exact hperm₀
      cases dd with
      | false =>
        by_cases hvs : v = er.src
        · subst hvs
          rw [hnrsrc] at hnr
          have hnn : nrsrc = nr := Option.some.inj hnr
          have hLsrc : L = lsrc := by
            apply chainList_deterministic hL
            rw [← hnn]
            exact hcl_src
          subst hLsrc
          by_cases hsd : er.src = er.dst
          · have hnr₁d' : nodes₁[er.src]? = some nr₁d := by
              rw [hsd]
              exact hnr₁d
            rw [hnr₁] at hnr₁d'
            have h11 : nr₁ = nr₁d := Option.some.inj hnr₁d'
            refine ⟨nr₂d, by rw [hsd]; exact hnr₂d, ?_, ?_⟩
            · rw [hnr₂d_data, hnr₁d_data, ← hnn]
              rw [← hsd] at hnrdst
              rw [hnrsrc] at hnrdst
              rw [← Option.some.inj hnrdst]
            · rw [hnr₂d_other, ← h11]
              exact hcongr₂false hcl₁
          · refine ⟨nr₁,
              by rw [hn₂frame er.src (fun hc => hsd hc)]; exact hnr₁,
              by rw [hnr₁data, hnn], hcongr₂false hcl₁⟩
        · have hnotin : ix ∉ L := by
            intro hc
            have h := (hix_mem false v).mp (hLperm.mem_iff.mp hc)
            simp only [if_false] at h
            have h' : er.src = v := by simpa using h
            exact hvs h'.symm
          rw [List.erase_of_not_mem hnotin]
          have hdisjL : ∀ q ∈ L, q ∉ lsrc := by
            intro q hq hq'
            exact hdisj false v er.src hvs q (hLperm.mem_iff.mp hq)
              (hperm_src.mem_iff.mp hq')
          have hch₂' : ChainList edges₂ false (nr.next false) L :=
            hcongr₂false (hpres₁ _ _ hL hdisjL)
          by_cases hvd : v = er.dst
          · subst hvd
            have hnr₁d' : nodes₁[er.dst]? = some nr := by
              rw [hn₁frame er.dst hvs]
              exact hnr
            rw [hnr₁d] at hnr₁d'
            have h11 : nr₁d = nr := Option.some.inj hnr₁d'
            refine ⟨nr₂d, hnr₂d, by rw [hnr₂d_data, h11], ?_⟩
            rw [hnr₂d_other, h11]
            exact hch₂'
          · refine ⟨nr, ?_, rfl, hch₂'⟩
            rw [hn₂frame v hvd, hn₁frame v hvs]
            exact hnr
      | true =>
        by_cases hvd : v = er.dst
        · subst hvd
          rw [hnrdst] at hnr
          have hnn : nrdst = nr := Option.some.inj hnr
          have hLdst : L = ldst := by
            apply chainList_deterministic hL
            rw [← hnn]
            exact hcl_dst
          subst hLdst
          exact ⟨nr₂d, hnr₂d, by rw [hnr₂d_data, hnr₁d_data, hnn], hcl₂⟩
        · have hnotin : ix ∉ L := by
            intro hc
            have h := (hix_mem true v).mp (hLperm.mem_iff.mp hc)
            simp only [if_true] at h
            have h' : er.dst = v := by simpa using h
            exact hvd h'.symm
          rw [List.erase_of_not_mem hnotin]
          have hdisjL : ∀ q ∈ L, q ∉ ldst := by
            intro q hq hq'
            exact hdisj true v er.dst hvd q (hLperm.mem_iff.mp hq)
              (hperm_dst.mem_iff.mp hq')
          have hch₂' : ChainList edges₂ true (nr.next true) L :=
            hpres₂ _ _ (hcongr₁true hL) hdisjL
          by_cases hvs : v = er.src
          · subst hvs
            rw [hnrsrc] at hnr
            have hnn : nrsrc = nr := Option.some.inj hnr
            refine ⟨nr₁,
              by rw [hn₂frame er.src (fun hc => hvd hc)]; exact hnr₁,
              by rw [hnr₁data, hnn], ?_⟩
            rw [hnr₁other, hnn]
            exact hch₂'
          · refine ⟨nr, ?_, rfl, hch₂'⟩
            rw [hn₂frame v hvd, hn₁frame v hvs]
            exact hnr
    -- phase 2: swap-remove and relocation
    have hsp₁' : spliceOut g.nodes g.edges false er.src ix er.nextOut
        = some (nodes₁, edges₁) := hsp₁
    have hsp₂' : spliceOut nodes₁ edges₁ true er.dst ix er.nextIn
        = some (nodes₂, edges₂) := hsp₂
    have hixlt₂ : ix < edges₂.length := by rw [he₂len']; exact hixlt
    obtain ⟨rem, edges₃0, hswap, hrem, h30len, h30look⟩ :=
      listSwapRemove_lookup hixlt₂
    have hrem_er : rem = er := by
      rw [hix₂] at hrem
      exact (Option.some.inj hrem).symm
    rw [hrem_er] at hswap
    have h30 : edges₃0.length = g.edges.length - 1 := by
      rw [h30len, he₂len']
    have hixu : ix < u32Max := by omega
    by_cases hrel : ix < edges₃0.length
    · -- a record is relocated: both arrays are rewritten through the
      -- renaming `relocIx (len-1) ix`.
      have hcomp : g.removeEdge ix = some (er.data,
          ⟨nodes₂.map (fun nr : NodeRepr N =>
              { nr with
                nextOut := if nr.nextOut = edges₃0.length then ix
                  else nr.nextOut,
                nextIn := if nr.nextIn = edges₃0.length then ix
                  else nr.nextIn }),
            edges₃0.map (fun e : EdgeRepr E =>
              { e with
                nextOut := if e.nextOut = edges₃0.length then ix
                  else e.nextOut,
                nextIn := if e.nextIn = edges₃0.length then ix
                  else e.nextIn })⟩) := by
        unfold VecGraph.removeEdge
        rw [if_pos hix]
        unfold VecGraph.removeEdgeUnchecked
        rw [her]
        simp only []
        rw [hsp₁']
        simp only []
        rw [hsp₂']
        simp only []
        rw [hswap]
        simp only []
        rw [if_pos hrel]
      have hrnEnd : relocIx (g.edges.length - 1) ix u32Max = u32Max :=
        relocIx_end (by omega)
      have hrnNE : ∀ w : Nat, w ≠ u32Max →
          relocIx (g.edges.length - 1) ix w ≠ u32Max :=
        fun w hw => relocIx_ne_end (by omega) hw
      have hrn_inj : ∀ j₁ j₂ : Nat, j₁ ≠ ix → j₂ ≠ ix →
          relocIx (g.edges.length - 1) ix j₁
            = relocIx (g.edges.length - 1) ix j₂ → j₁ = j₂ :=
        fun j₁ j₂ h₁ h₂ h => relocIx_inj h₁ h₂ h
      have hrn_big : ∀ j : Nat, g.edges.length ≤ j → j ≠ ix →
          relocIx (g.edges.length - 1) ix j = j := by
        intro j hj hjix
        unfold relocIx
        rw [if_neg (by omega)]
      have hfe : ∀ e' : EdgeRepr E,
          ({ e' with
            nextOut := if e'.nextOut = edges₃0.length then ix
              else e'.nextOut,
            nextIn := if e'.nextIn = edges₃0.length then ix
              else e'.nextIn } : EdgeRepr E)
          = ⟨e'.data, relocIx (g.edges.length - 1) ix e'.nextOut,
              relocIx (g.edges.length - 1) ix e'.nextIn,
              e'.src, e'.dst⟩ := by
        intro e'
        unfold relocIx
        rw [h30]
      have hlookB : ∀ (q : Nat) (e : EdgeRepr E), edges₂[q]? = some e →
          q ≠ ix →
          (edges₃0.map (fun e : EdgeRepr E =>
            { e with
              nextOut := if e.nextOut = edges₃0.length then ix
                else e.nextOut,
              nextIn := if e.nextIn = edges₃0.length then ix
                else e.nextIn }))[relocIx (g.edges.length - 1) ix q]?
          = some ⟨e.data, relocIx (g.edges.length - 1) ix e.nextOut,
              relocIx (g.edges.length - 1) ix e.nextIn,
              e.src, e.dst⟩ := by
        intro q e h₂ hqix
        have hqlt : q < edges₂.length := lt_length_of_lookup h₂
        rw [List.getElem?_map]
        by_cases hqm : q = g.edges.length - 1
        · have hidx : relocIx (g.edges.length - 1) ix q = ix := by
            unfold relocIx
            rw [if_pos hqm]
          rw [hidx, h30look ix, if_pos (by omega), if_pos rfl]
          have hq2 : edges₂.length - 1 = q := by
            rw [he₂len']
            omega
          rw [hq2, h₂, Option.map_some', hfe e]
        · have hidx : relocIx (g.edges.length - 1) ix q = q := by
            unfold relocIx
            rw [if_neg hqm]
          rw [hidx, h30look q, if_pos (by omega), if_neg hqix, h₂,
            Option.map_some', hfe e]
      have hfn : ∀ nr' : NodeRepr N,
          ({ nr' with
            nextOut := if nr'.nextOut = edges₃0.length then ix
              else nr'.nextOut,
            nextIn := if nr'.nextIn = edges₃0.length then ix
              else nr'.nextIn } : NodeRepr N)
          = ⟨nr'.data, relocIx (g.edges.length - 1) ix nr'.nextOut,
              relocIx (g.edges.length - 1) ix nr'.nextIn⟩ := by
        intro nr'
        unfold relocIx
        rw [h30]
      have hnodesB : ∀ (v : Nat) (nr₂ : NodeRepr N),
          nodes₂[v]? = some nr₂ →
          (nodes₂.map (fun nr : NodeRepr N =>
            { nr with
              nextOut := if nr.nextOut = edges₃0.length then ix
                else nr.nextOut,
              nextIn := if nr.nextIn = edges₃0.length then ix
                else nr.nextIn }))[v]?
          = some ⟨nr₂.data, relocIx (g.edges.length - 1) ix nr₂.nextOut,
              relocIx (g.edges.length - 1) ix nr₂.nextIn⟩ := by
        intro v nr₂ h₂
        rw [List.getElem?_map, h₂, Option.map_some', hfn nr₂]
      have hsurjB : ∀ q : Nat, q < g.edges.length - 1 →
          ∃ j : Nat, j ≠ ix ∧ relocIx (g.edges.length - 1) ix j = q ∧
            j < g.edges.length := by
        intro q hq
        by_cases hqix : q = ix
        · refine ⟨g.edges.length - 1, by omega, ?_, by omega⟩
          unfold relocIx
          rw [if_pos rfl, hqix]
        · refine ⟨q, hqix, ?_, by omega⟩
          unfold relocIx
          rw [if_neg (by omega)]
      have hn₃lenB : (nodes₂.map (fun nr : NodeRepr N =>
          { nr with
            nextOut := if nr.nextOut = edges₃0.length then ix
              else nr.nextOut,
            nextIn := if nr.nextIn = edges₃0.length then ix
              else nr.nextIn })).length = g.nodes.length := by
        rw [List.length_map, hn₂len']
      have he₃lenB : (edges₃0.map (fun e : EdgeRepr E =>
          { e with
            nextOut := if e.nextOut = edges₃0.length then ix
              else e.nextOut,
            nextIn := if e.nextIn = edges₃0.length then ix
              else e.nextIn })).length = g.edges.length - 1 := by
        rw [List.length_map, h30]
      obtain ⟨c5, c6, c7, hwf₃⟩ :=
        removeEdge_assemble hwf her he₂len' hdesc hrec₂ hrnEnd hrnNE
          hrn_inj hrn_big hlookB hnodesB hn₃lenB he₃lenB hsurjB
      exact ⟨er, _, rfl, hcomp, hn₃lenB, he₃lenB, c5, c6, c7, hwf₃⟩
    · -- `ix` was the last slot: no relocation, the renaming is the
      -- identity on every surviving index.
      have hixm : ix = g.edges.length - 1 := by omega
      have hcomp : g.removeEdge ix
          = some (er.data, ⟨nodes₂, edges₃0⟩) := by
        unfold VecGraph.removeEdge
        rw [if_pos hix]
        unfold VecGraph.removeEdgeUnchecked
        rw [her]
        simp only []
        rw [hsp₁']
        simp only []
        rw [hsp₂']
        simp only []
        rw [hswap]
        simp only []
        rw [if_neg hrel]
      have hrnid : ∀ w : Nat, relocIx (g.edges.length - 1) ix w = w := by
        intro w
        unfold relocIx
        split
        · omega
        · rfl
      have hlookA : ∀ (q : Nat) (e : EdgeRepr E), edges₂[q]? = some e →
          q ≠ ix →
          edges₃0[relocIx (g.edges.length - 1) ix q]?
          = some ⟨e.data, relocIx (g.edges.length - 1) ix e.nextOut,
              relocIx (g.edges.length - 1) ix e.nextIn,
              e.src, e.dst⟩ := by
        intro q e h₂ hqix
        have hqlt : q < edges₂.length := lt_length_of_lookup h₂
        simp only [hrnid]
        rw [h30look q, if_pos (by rw [he₂len'] at hqlt ⊢; omega),
          if_neg hqix, h₂]
      have hnodesA : ∀ (v : Nat) (nr₂ : NodeRepr N),
          nodes₂[v]? = some nr₂ →
          nodes₂[v]?
          = some ⟨nr₂.data, relocIx (g.edges.length - 1) ix nr₂.nextOut,
              relocIx (g.edges.length - 1) ix nr₂.nextIn⟩ := by
        intro v nr₂ h₂
        simp only [hrnid]
        exact h₂
      have hsurjA : ∀ q : Nat, q < g.edges.length - 1 →
          ∃ j : Nat, j ≠ ix ∧ relocIx (g.edges.length - 1) ix j = q ∧
            j < g.edges.length := by
        intro q hq
        exact ⟨q, by omega, hrnid q, by omega⟩
      obtain ⟨c5, c6, c7, hwf₃⟩ :=
        removeEdge_assemble hwf her he₂len' hdesc hrec₂
          (hrnid u32Max)
          (fun w hw => by rw [hrnid]; exact hw)
          (fun j₁ j₂ h₁ h₂ h => by rw [hrnid, hrnid] at h; exact h)
          (fun j hj hjix => hrnid j)
          hlookA hnodesA hn₂len' h30 hsurjA
      exact ⟨er, _, rfl, hcomp, hn₂len', h30, c5, c6, c7, hwf₃⟩

theorem remove_edge_frame_correct_witness :
    gPar3.Wf ∧ gPar3.existsEdge 1 = true ∧
    (∃ (er : EdgeRepr Nat) (g' : VecGraph Nat Nat),
      gPar3.edges[1]? = some er ∧
      gPar3.removeEdge 1 = some (er.data, g') ∧
      g'.nodes.length = gPar3.nodes.length ∧
      g'.edges.length = gPar3.edges.length - 1 ∧
      (∀ v : Nat, (g'.nodes[v]?).map (fun nr : NodeRepr Nat => nr.data)
        = (gPar3.nodes[v]?).map (fun nr : NodeRepr Nat => nr.data)) ∧
      (∀ j : Nat, j ≠ 1 →
        (g'.edges[relocIx (gPar3.edges.length - 1) 1 j]?).map
            (fun e : EdgeRepr Nat => (e.data, e.src, e.dst))
          = (gPar3.edges[j]?).map
            (fun e : EdgeRepr Nat => (e.data, e.src, e.dst))) ∧
      (∀ (dir : Bool) (v : Nat) (l : List Nat),
        gPar3.walkOf dir v = some (l, u32Max) →
        g'.walkOf dir v =
          some ((l.erase 1).map (relocIx (gPar3.edges.length - 1) 1),
            u32Max)) ∧
      g'.Wf) :=
  ⟨by decide, by decide,
    remove_edge_frame_correct gPar3 1 (by decide) (by decide)⟩

/-- Three nodes in a single directed cycle `0 → 1 → 2 → 0`. -/
def g3 : SGraph :=
  ⟨3, fun v => if v = 0 then [1] else if v = 1 then [2]
    else if v = 2 then [0] else []⟩

/-- **C1**: on every directed graph (well-formed successor map), `tarjan`
returns a list of groups that exactly partitions the node set — the
concatenation of the groups is a permutation of `0, …, n-1`, so every
node appears in exactly one group — where each group consists of
mutually reachable nodes and is maximal for mutual reachability, the
groups are emitted in reverse topological order of the condensation
(an edge from a node of group `i` into a different group `j` forces `j`
to be emitted before `i`), and the empty graph yields zero groups. -/
theorem tarjan_computes_sccs (g : SGraph) (hok : g.Ok) :
    ∃ sccs, tarjan g = some sccs ∧
      sccs.flatten.Perm (List.range g.n) ∧
      (∀ c ∈ sccs, ∀ a ∈ c, ∀ b ∈ c, g.SameScc a b) ∧
      (∀ c ∈ sccs, ∀ a ∈ c, ∀ b : Nat, g.SameScc a b → b ∈ c) ∧
      (∀ (i j : Nat) (hi : i < sccs.length) (hj : j < sccs.length),
        i ≠ j → ∀ u ∈ sccs.get ⟨i, hi⟩, ∀ y ∈ g.succ u,
        y ∈ sccs.get ⟨j, hj⟩ → j < i) ∧
      (g.n = 0 → sccs = []) := by
  obtain ⟨stF, heqF, hinvF, hstkF, _, hallF⟩ :=
    tarjanLoop_spec hok (List.range g.n) tarjanInit
      (fun u hu => List.mem_range.mp hu) (TInv_init g) rfl
  have hoff : ∀ w, onStk stF w = false := by
    intro w
    cases hON : onStk stF w with
    | false => rfl
    | true =>
      exact absurd (hstkF ▸ hinvF.stack_on w hON) (List.not_mem_nil w)
  refine ⟨stF.sccs, ?_, ?_, hinvF.comp_mutual, hinvF.comp_max,
    hinvF.comp_order, ?_⟩
  · unfold tarjan
    rw [heqF]
    rfl
  · refine (List.perm_ext_iff_of_nodup hinvF.flat_nodup
      (List.nodup_range g.n)).mpr ?_
    intro w
    rw [List.mem_range]
    constructor
    · intro hw
      exact hinvF.vis_lt w ((hinvF.comp_flat w).mpr hw).1
    · intro hw
      exact (hinvF.comp_flat w).mp
        ⟨hallF w (List.mem_range.mpr hw), hoff w⟩
  · intro hn0
    cases hsc : stF.sccs with
    | nil => rfl
    | cons c cs =>
      exfalso
      have hcmem : c ∈ stF.sccs := by
        rw [hsc]
        simp
      have hcne := hinvF.comp_nonempty c hcmem
      cases hc0 : c with
      | nil => exact hcne hc0
      | cons a t =>
        have ham : a ∈ c := by
          rw [hc0]
          simp
        have haf : a ∈ stF.sccs.flatten :=
          List.mem_flatten.mpr ⟨c, hcmem, ham⟩
        have := hinvF.vis_lt a ((hinvF.comp_flat a).mpr haf).1
        omega

theorem tarjan_computes_sccs_witness :
    g3.Ok ∧ ∃ sccs, tarjan g3 = some sccs ∧
      sccs.flatten.Perm (List.range g3.n) ∧
      (∀ c ∈ sccs, ∀ a ∈ c, ∀ b ∈ c, g3.SameScc a b) ∧
      (∀ c ∈ sccs, ∀ a ∈ c, ∀ b : Nat, g3.SameScc a b → b ∈ c) ∧
      (∀ (i j : Nat) (hi : i < sccs.length) (hj : j < sccs.length),
        i ≠ j → ∀ u ∈ sccs.get ⟨i, hi⟩, ∀ y ∈ g3.succ u,
        y ∈ sccs.get ⟨j, hj⟩ → j < i) ∧
      (g3.n = 0 → sccs = []) :=
  ⟨by unfold SGraph.Ok; decide,
    tarjan_computes_sccs g3 (by unfold SGraph.Ok; decide)⟩

end GotGraph